import Mathlib

/-!
Verification of the WireGuard generic-netlink configuration layer
(`src/netlink.c`): the `set` (ApplyConfig) transaction engine and the
`get` (DumpConfig) chunked dump state machine, shallowly embedded in Lean.

Modelling conventions:
  * Machine integers are `Nat`/`Int`; C return codes are `Int` (0 for
    success, negative errno on failure), exactly as the C functions
    return them.
  * Netlink attribute payloads are `List Nat` (byte lists); `nla_len`
    is the list length.
  * The incoming message (already parsed against `device_policy` by the
    generic-netlink layer) is a structure of `Option`s, one per
    attribute.  `memzero_explicit` on an attribute payload is modelled
    as rebuilding the message with that payload's bytes replaced by 0,
    so post-conditions about key scrubbing are statable.
  * External collaborators (curve25519, noise precomputation, the UDP
    socket) are parameters (`Ext`) or trace events, per the interface
    list of the specification; the routing table is modelled as the
    per-peer list of allowed-IP entries it stores for each peer, in its
    enumeration order.
  * Side effects on collaborators are recorded in an event trace so
    that ordering and abort behaviour are statable.
-/

namespace WgNetlink

/-! ## Constants from the C headers -/

def NOISE_PUBLIC_KEY_LEN : Nat := 32

def NOISE_SYMMETRIC_KEY_LEN : Nat := 32

def AF_INET : Nat := 2

def AF_INET6 : Nat := 10

/-- sizeof(struct sockaddr_in) -/
def SOCKADDR_IN_LEN : Nat := 16

/-- sizeof(struct sockaddr_in6) -/
def SOCKADDR_IN6_LEN : Nat := 28

/-- sizeof(struct in_addr) -/
def IN_ADDR_LEN : Nat := 4

/-- sizeof(struct in6_addr) -/
def IN6_ADDR_LEN : Nat := 16

def HZ : Nat := 100

def EINVAL : Int := 22

def ENODEV : Int := 19

def EMSGSIZE : Int := 90

def EBADR : Int := 53

def EOPNOTSUPP : Int := 95

/-- errno returned by `nla_parse_nested` when a fixed-length attribute is
shorter than its policy's `.len` lower bound. -/
def ERANGE : Int := 34

def WGDEVICE_F_REPLACE_PEERS : Nat := 1

def WGPEER_F_REMOVE_ME : Nat := 1

def WGPEER_F_REPLACE_ALLOWEDIPS : Nat := 2

/-! ## Device and peer state -/

/-- A socket address as carried in a `WGPEER_A_ENDPOINT` attribute and as
stored in `peer->endpoint.addr`: the `sa_family` field plus the raw bytes of
the structure (`bytes.length` is the attribute's `nla_len`). -/
structure Sockaddr where
  sa_family : Nat
  bytes : List Nat
  deriving Repr, DecidableEq

/-- One entry of the routing table (allowed-IP): family, network address
bytes, cidr. Owned by the routing-table collaborator, keyed by peer. -/
structure AllowedIP where
  family : Nat
  addr : List Nat
  cidr : Nat
  deriving Repr, DecidableEq

/-- The fields of `struct wireguard_peer` that `netlink.c` reads or writes.
`allowedips` is the list of routing-table entries owned by this peer, in the
routing table's own enumeration order (the order
`routing_table_walk_ips_by_peer_sleepable` visits them). -/
structure DPeer where
  public_key : List Nat
  preshared_key : List Nat
  /-- stored in jiffies: the netlink u16 value times HZ. -/
  persistent_keepalive_interval : Nat
  endpoint : Option Sockaddr
  allowedips : List AllowedIP
  walltime_last_handshake : Nat
  rx_bytes : Nat
  tx_bytes : Nat
  deriving Repr, DecidableEq

/-- The fields of `struct wireguard_device` (plus its net_device identity)
that `netlink.c` reads or writes. `is_wireguard` models the
`rtnl_link_ops->kind == KBUILD_MODNAME` test of `lookup_interface`. -/
structure Device where
  ifindex : Nat
  ifname : List Nat
  is_wireguard : Bool
  incoming_port : Nat
  fwmark : Nat
  device_update_gen : Nat
  has_identity : Bool
  static_private : List Nat
  static_public : List Nat
  peers : List DPeer
  netif_running : Bool
  deriving Repr, DecidableEq

/-- Modelled from the spec: the external collaborators of §6 whose code is
not under src/ — `Identity.DerivePublic` (curve25519_generate_public, which
can fail for an invalid private key, in which case
`noise_set_static_identity_private_key` leaves the device without an
identity), `Identity.PrecomputeSharedSecret` (noise_precompute_static_static
on the device's private key and a peer's public key), and `Transport.Rebind`
(socket_init for a given port, `none` meaning success). -/
structure Ext where
  curve25519_generate_public : List Nat → Option (List Nat)
  noise_precompute_ok : List Nat → List Nat → Bool
  socket_init_err : Nat → Option Int

/-! ## Parsed attribute trees (the ApplyConfig message) -/

/-- The parsed attributes of one nested allowed-IP entry
(`allowedip_policy`). -/
structure AllowedipAttrs where
  family : Option Nat
  ipaddr : Option (List Nat)
  cidr : Option Nat
  deriving Repr, DecidableEq

/-- The parsed attributes of one nested peer entry (`peer_policy`). -/
structure PeerAttrs where
  public_key : Option (List Nat)
  preshared_key : Option (List Nat)
  flags : Option Nat
  endpoint : Option Sockaddr
  persistent_keepalive_interval : Option Nat
  last_handshake_time : Option (List Nat)
  allowedips : Option (List AllowedipAttrs)
  deriving Repr, DecidableEq

/-- The parsed top-level attributes of a `WG_CMD_SET_DEVICE` request
(`device_policy`). -/
structure DeviceAttrs where
  ifindex : Option Nat
  ifname : Option (List Nat)
  private_key : Option (List Nat)
  public_key : Option (List Nat)
  flags : Option Nat
  listen_port : Option Nat
  fwmark : Option Nat
  peers : Option (List PeerAttrs)
  deriving Repr, DecidableEq

/-- `nla_parse_nested(allowedip, ..., allowedip_policy, ...)`: the only
policy constraint a typed entry can still violate is the `.len` lower bound
of `WGALLOWEDIP_A_IPADDR` (sizeof(struct in_addr)). -/
def nla_parse_nested_allowedip (a : AllowedipAttrs) : Int :=
  match a.ipaddr with
  | some ip => if IN_ADDR_LEN ≤ ip.length then 0 else -ERANGE
  | none => 0

/-- `nla_parse_nested(peer, ..., peer_policy, ...)`: the `.len` lower bounds
of `peer_policy` that a typed entry can still violate (public key, preshared
key, endpoint, last-handshake time). -/
def nla_parse_nested_peer (a : PeerAttrs) : Int :=
  if (match a.public_key with
      | some k => decide (NOISE_PUBLIC_KEY_LEN ≤ k.length)
      | none => true) &&
     (match a.preshared_key with
      | some k => decide (NOISE_SYMMETRIC_KEY_LEN ≤ k.length)
      | none => true) &&
     (match a.endpoint with
      | some e => decide (SOCKADDR_IN_LEN ≤ e.bytes.length)
      | none => true) &&
     (match a.last_handshake_time with
      | some t => decide (16 ≤ t.length)
      | none => true)
  then 0 else -ERANGE

/-! ## Event trace

Each call into an external collaborator appends one event, so that the
order in which `set` applies its sub-updates, and which sub-updates a
failed call still applied, are observable. -/

inductive Ev where
  /-- `wg->fwmark = nla_get_u32(...)` -/
  | set_fwmark (v : Nat)
  /-- `socket_clear_peer_endpoint_src(peer)` (fwmark and port sub-updates) -/
  | clear_src (pk : List Nat)
  /-- `socket_uninit(wg)` -/
  | socket_uninit
  /-- `wg->incoming_port = port` -/
  | set_port (v : Nat)
  /-- `socket_init(wg)` with its result -/
  | socket_reinit (r : Int)
  /-- `peer_remove_all(wg)` -/
  | replace_peers
  /-- `peer_remove(peer)` -/
  | peer_removed (pk : List Nat)
  /-- `noise_set_static_identity_private_key(...)` -/
  | set_identity (priv : List Nat)
  /-- `noise_precompute_static_static(peer)` with its result -/
  | precompute (pk : List Nat) (ok : Bool)
  /-- `cookie_checker_precompute_device_keys(...)` -/
  | cookie_precompute
  /-- `peer_create(wg, public_key, preshared_key)` -/
  | peer_created (pk : List Nat)
  /-- preshared key overwritten on an existing handshake -/
  | psk_set (pk : List Nat)
  /-- `socket_set_peer_endpoint(peer, &endpoint)` -/
  | endpoint_set (pk : List Nat)
  /-- `routing_table_remove_by_peer(...)` -/
  | aips_removed (pk : List Nat)
  /-- `routing_table_insert_v4/v6(...)` -/
  | aip_insert (family : Nat) (addr : List Nat) (cidr : Nat) (pk : List Nat)
  /-- persistent keepalive interval stored -/
  | keepalive_set (pk : List Nat) (v : Nat)
  /-- `packet_send_keepalive(peer)` -/
  | keepalive_sent (pk : List Nat)
  /-- `packet_send_staged_packets(peer)` -/
  | staged_flushed (pk : List Nat)
  deriving Repr, DecidableEq

/-- Which of the five ordered sub-updates of `set` an event belongs to
(1 firewall mark, 2 listening port, 3 replace-all-peers, 4 private key,
5 peer list); `none` for events that several sub-updates can emit
(`clear_src` is emitted by both the fwmark and the port sub-update,
`peer_removed` by the replace, key and peer sub-updates). -/
def Ev.stageOf : Ev → Option Nat
  | .set_fwmark _ => some 1
  | .socket_uninit => some 2
  | .set_port _ => some 2
  | .socket_reinit _ => some 2
  | .replace_peers => some 3
  | .set_identity _ => some 4
  | .precompute _ _ => some 4
  | .cookie_precompute => some 4
  | .peer_created _ => some 5
  | .psk_set _ => some 5
  | .endpoint_set _ => some 5
  | .aips_removed _ => some 5
  | .aip_insert _ _ _ _ => some 5
  | .keepalive_set _ _ => some 5
  | .keepalive_sent _ => some 5
  | .staged_flushed _ => some 5
  | _ => none

/-! ## Peer list primitives

Modelled from the spec: `pubkey_hashtable_lookup`, `peer_create` and
`peer_remove` live in peer.c / hashtables.c, which are not under src/;
the spec describes them as lookup by (unique) public key, creation with
the given keys, and removal of that one peer together with its
routing-table entries. -/

def pubkey_hashtable_lookup (peers : List DPeer) (pk : List Nat) : Option DPeer :=
  peers.find? (fun p => p.public_key == pk)

/-- Modelled from the spec: `peer_create(wg, public_key, preshared_key)` —
a fresh peer with the given keys (a missing preshared key means all
zeros) and empty/zero everything else, appended to the device's peer
list. -/
def peer_create_obj (pk : List Nat) (psk : Option (List Nat)) : DPeer :=
  { public_key := pk
    preshared_key := psk.getD (List.replicate NOISE_SYMMETRIC_KEY_LEN 0)
    persistent_keepalive_interval := 0
    endpoint := none
    allowedips := []
    walltime_last_handshake := 0
    rx_bytes := 0
    tx_bytes := 0 }

/-- Modelled from the spec: `peer_remove(peer)` — delete that one peer
(the first list entry with its key) from the device's peer list. -/
def peer_remove_key (peers : List DPeer) (pk : List Nat) : List DPeer :=
  peers.eraseP (fun p => p.public_key == pk)

/-- Write an updated peer object back over the (first) list entry holding
its public key: the functional image of mutating through the pointer
`pubkey_hashtable_lookup` returned. -/
def replace_peer (peers : List DPeer) (pk : List Nat) (q : DPeer) : List DPeer :=
  match peers with
  | [] => []
  | p :: ps => if p.public_key == pk then q :: ps else p :: replace_peer ps pk q

/-! ## set_allowedip / set_peer -/

/-- Result of `set_peer`: the C return code, the device, the peer entry's
attribute buffers as they are when the call returns (the preshared-key
bytes scrubbed on every path), and the collaborator events. -/
structure PeerSetResult where
  ret : Int
  dev : Device
  msg : PeerAttrs
  trace : List Ev
  deriving Repr, DecidableEq

/-- `memzero_explicit(nla_data(attrs[WGPEER_A_PRESHARED_KEY]), nla_len(...))`
when the attribute is present. -/
def zeroPsk (a : PeerAttrs) : PeerAttrs :=
  { a with preshared_key := a.preshared_key.map (List.map (fun _ => 0)) }

/-- Transcription of `set_allowedip(peer, attrs)` (netlink.c:269).  A
successful `routing_table_insert_v4/v6` appends the entry to the peer's
routing-table entries (insertion is delegated to the collaborator and
modelled as always succeeding once validated). -/
def set_allowedip (peer : DPeer) (attrs : AllowedipAttrs) : Int × DPeer × List Ev :=
  match attrs.family, attrs.ipaddr, attrs.cidr with
  | some family, some ipaddr, some cidr =>
    if family == AF_INET && cidr ≤ 32 && ipaddr.length == IN_ADDR_LEN then
      (0, { peer with allowedips := peer.allowedips ++ [⟨AF_INET, ipaddr, cidr⟩] },
       [Ev.aip_insert AF_INET ipaddr cidr peer.public_key])
    else if family == AF_INET6 && cidr ≤ 128 && ipaddr.length == IN6_ADDR_LEN then
      (0, { peer with allowedips := peer.allowedips ++ [⟨AF_INET6, ipaddr, cidr⟩] },
       [Ev.aip_insert AF_INET6 ipaddr cidr peer.public_key])
    else (-EINVAL, peer, [])
  | _, _, _ => (-EINVAL, peer, [])

/-- The `nla_for_each_nested` loop over `attrs[WGPEER_A_ALLOWEDIPS]` in
`set_peer` (netlink.c:355): parse each nested entry, then `set_allowedip`;
the first negative return aborts the loop. -/
def allowedips_loop (peer : DPeer) : List AllowedipAttrs → Int × DPeer × List Ev
  | [] => (0, peer, [])
  | attr :: rest =>
    let r := nla_parse_nested_allowedip attr
    if r < 0 then (r, peer, [])
    else
      match set_allowedip peer attr with
      | (r2, peer2, evs2) =>
        if r2 < 0 then (r2, peer2, evs2)
        else
          match allowedips_loop peer2 rest with
          | (r3, peer3, evs3) => (r3, peer3, evs2 ++ evs3)

/-- The `if (preshared_key)` block of `set_peer` (netlink.c:333-337):
overwrite the handshake's preshared key. -/
def peer_apply_psk (peer : DPeer) : Option (List Nat) → DPeer × List Ev
  | some k => ({ peer with preshared_key := k }, [Ev.psk_set peer.public_key])
  | none => (peer, [])

/-- The `if (attrs[WGPEER_A_ENDPOINT])` block of `set_peer`
(netlink.c:339-347): install the endpoint only when the attribute length
and address family agree on a supported family; otherwise do nothing. -/
def peer_apply_endpoint (peer : DPeer) : Option Sockaddr → DPeer × List Ev
  | some addr =>
    if (addr.bytes.length == SOCKADDR_IN_LEN && addr.sa_family == AF_INET) ||
       (addr.bytes.length == SOCKADDR_IN6_LEN && addr.sa_family == AF_INET6) then
      ({ peer with endpoint := some addr }, [Ev.endpoint_set peer.public_key])
    else (peer, [])
  | none => (peer, [])

/-- The `if (flags & WGPEER_F_REPLACE_ALLOWEDIPS)` block of `set_peer`
(netlink.c:349-350): drop all of the peer's routing-table entries. -/
def peer_apply_replace_aips (peer : DPeer) (flags : Nat) : DPeer × List Ev :=
  if flags &&& WGPEER_F_REPLACE_ALLOWEDIPS ≠ 0 then
    ({ peer with allowedips := [] }, [Ev.aips_removed peer.public_key])
  else (peer, [])

/-- The `if (attrs[WGPEER_A_PERSISTENT_KEEPALIVE_INTERVAL])` block of
`set_peer` (netlink.c:365-371): store the interval (in jiffies) and send an
immediate keepalive when it transitions from disabled to enabled on a
running device. -/
def peer_apply_keepalive (running : Bool) (peer : DPeer) : Option Nat → DPeer × List Ev
  | some v =>
    let send_keepalive := peer.persistent_keepalive_interval == 0 && v != 0 && running
    ({ peer with persistent_keepalive_interval := v * HZ },
     [Ev.keepalive_set peer.public_key v] ++
       (if send_keepalive then [Ev.keepalive_sent peer.public_key] else []))
  | none => (peer, [])

/-- The body of `set_peer` from the `ret = 0;` after lookup/creation to the
`out:` label (netlink.c:327-380); `peers0` is the device's peer list already
containing `peer` (freshly appended or found), and all mutations through the
peer pointer are written back over its list slot at the end. -/
def set_peer_with (wg : Device) (peers0 : List DPeer) (peer : DPeer)
    (attrs : PeerAttrs) (preshared_key : Option (List Nat)) (flags : Nat)
    (evs0 : List Ev) : PeerSetResult :=
  if flags &&& WGPEER_F_REMOVE_ME ≠ 0 then
    ⟨0, { wg with peers := peer_remove_key peers0 peer.public_key }, zeroPsk attrs,
     evs0 ++ [Ev.peer_removed peer.public_key]⟩
  else
    match peer_apply_psk peer preshared_key with
    | (peer, evs1) =>
      match peer_apply_endpoint peer attrs.endpoint with
      | (peer, evs2) =>
        match peer_apply_replace_aips peer flags with
        | (peer, evs3) =>
          -- nla_for_each_nested over attrs[WGPEER_A_ALLOWEDIPS]
          match allowedips_loop peer (attrs.allowedips.getD []) with
          | (raips, peer, evs4) =>
            if raips < 0 then
              ⟨raips, { wg with peers := replace_peer peers0 peer.public_key peer },
               zeroPsk attrs, evs0 ++ evs1 ++ evs2 ++ evs3 ++ evs4⟩
            else
              match peer_apply_keepalive wg.netif_running peer
                  attrs.persistent_keepalive_interval with
              | (peer, evs5) =>
                let evs6 :=
                  if wg.netif_running then [Ev.staged_flushed peer.public_key] else []
                ⟨0, { wg with peers := replace_peer peers0 peer.public_key peer },
                 zeroPsk attrs, evs0 ++ evs1 ++ evs2 ++ evs3 ++ evs4 ++ evs5 ++ evs6⟩

/-- The `preshared_key` local of `set_peer` (netlink.c:300-301): the
attribute's payload when it is present with the full symmetric-key
length. -/
def psk_of_attrs (attrs : PeerAttrs) : Option (List Nat) :=
  match attrs.preshared_key with
  | some k => if k.length == NOISE_SYMMETRIC_KEY_LEN then some k else none
  | none => none

/-- Transcription of `set_peer(wg, attrs)` (netlink.c:288).  The returned
message component is the peer entry with its preshared-key attribute
scrubbed (`out:` runs `memzero_explicit` on it on every exit path of
this function). -/
def set_peer (wg : Device) (attrs : PeerAttrs) : PeerSetResult :=
  -- ret = -EINVAL unless a full-length public key attribute is present
  match attrs.public_key with
  | none => ⟨-EINVAL, wg, zeroPsk attrs, []⟩
  | some pk =>
    if pk.length ≠ NOISE_PUBLIC_KEY_LEN then ⟨-EINVAL, wg, zeroPsk attrs, []⟩
    else
      let preshared_key : Option (List Nat) := psk_of_attrs attrs
      let flags := attrs.flags.getD 0
      match pubkey_hashtable_lookup wg.peers pk with
      | none =>
        -- Peer doesn't exist yet.
        if flags &&& WGPEER_F_REMOVE_ME ≠ 0 then
          -- Tried to remove a non-existing peer.
          ⟨-ENODEV, wg, zeroPsk attrs, []⟩
        else if wg.has_identity && pk == wg.static_public then
          -- Silently ignore peers that have the same public key as the device.
          ⟨0, wg, zeroPsk attrs, []⟩
        else
          let peer := peer_create_obj pk preshared_key
          set_peer_with wg (wg.peers ++ [peer]) peer attrs preshared_key flags
            [Ev.peer_created pk]
      | some peer =>
        set_peer_with wg wg.peers peer attrs preshared_key flags []

/-! ## set (ApplyConfig) -/

/-- Transcription of `set_device_port(wg, port)` (netlink.c:255). -/
def set_device_port (ext : Ext) (wg : Device) (port : Nat) : Int × Device × List Ev :=
  if wg.incoming_port == port then (0, wg, [])
  else
    let evs := [Ev.socket_uninit]
    let wg1 := { wg with incoming_port := port }
    let evs := evs ++ [Ev.set_port port] ++ wg1.peers.map (fun p => Ev.clear_src p.public_key)
    if !wg1.netif_running then (0, wg1, evs)
    else
      match ext.socket_init_err port with
      | none => (0, wg1, evs ++ [Ev.socket_reinit 0])
      | some e => (e, wg1, evs ++ [Ev.socket_reinit e])

/-- Sub-update 1 of `set` (netlink.c:396-401): firewall mark, clearing every
peer's cached source endpoint. Cannot fail. -/
def stage_fwmark (wg : Device) (msg : DeviceAttrs) : Device × List Ev :=
  match msg.fwmark with
  | some v =>
    ({ wg with fwmark := v },
     Ev.set_fwmark v :: wg.peers.map (fun p => Ev.clear_src p.public_key))
  | none => (wg, [])

/-- Sub-update 2 of `set` (netlink.c:403-407): listening port. -/
def stage_port (ext : Ext) (wg : Device) (msg : DeviceAttrs) : Int × Device × List Ev :=
  match msg.listen_port with
  | some p => set_device_port ext wg p
  | none => (0, wg, [])

/-- Sub-update 3 of `set` (netlink.c:409-410): the replace-all-peers flag
(`peer_remove_all`). Cannot fail. -/
def stage_replace_peers (wg : Device) (msg : DeviceAttrs) : Device × List Ev :=
  match msg.flags with
  | some f =>
    if f &&& WGDEVICE_F_REPLACE_PEERS ≠ 0 then
      ({ wg with peers := [] },
       Ev.replace_peers :: wg.peers.map (fun p => Ev.peer_removed p.public_key))
    else (wg, [])
  | none => (wg, [])

/-- Modelled from the spec: `noise_set_static_identity_private_key`
(noise.c, not under src/) — install the private key and derive the public
key; a failed derivation leaves the device without a usable identity. -/
def noise_set_static_identity_private_key (ext : Ext) (wg : Device)
    (priv : List Nat) : Device :=
  match ext.curve25519_generate_public priv with
  | some pub =>
    { wg with has_identity := true, static_private := priv, static_public := pub }
  | none =>
    { wg with has_identity := false, static_private := priv,
              static_public := List.replicate NOISE_PUBLIC_KEY_LEN 0 }

/-- Modelled from the spec: `noise_precompute_static_static(peer)` (noise.c,
not under src/) — precompute the static-static shared secret of the device's
(possibly absent) identity with a peer; trivially succeeds when the device
has no identity. -/
def noise_precompute_static_static (ext : Ext) (wg : Device) (peer : DPeer) : Bool :=
  if wg.has_identity then ext.noise_precompute_ok wg.static_private peer.public_key
  else true

/-- Sub-update 4 of `set` (netlink.c:412-428): install a new private key —
first remove any existing peer whose public key equals the key derived from
the new private key, then install the identity, then recompute every
remaining peer's static-static secret, removing peers for which it fails.
Cannot fail (the result of `curve25519_generate_public` is deliberately
unused). -/
def stage_private_key (ext : Ext) (wg : Device) (msg : DeviceAttrs) : Device × List Ev :=
  match msg.private_key with
  | some private_key =>
    if private_key.length == NOISE_PUBLIC_KEY_LEN then
      let public_key :=
        (ext.curve25519_generate_public private_key).getD
          (List.replicate NOISE_PUBLIC_KEY_LEN 0)
      -- We remove before setting, to prevent race.
      let (wg1, evs1) :=
        match pubkey_hashtable_lookup wg.peers public_key with
        | some peer =>
          ({ wg with peers := peer_remove_key wg.peers peer.public_key },
           [Ev.peer_removed peer.public_key])
        | none => (wg, [])
      let wg2 := noise_set_static_identity_private_key ext wg1 private_key
      let evs2 := [Ev.set_identity private_key]
      let evs3 := wg2.peers.map fun p =>
        Ev.precompute p.public_key (noise_precompute_static_static ext wg2 p)
      let removed := wg2.peers.filter fun p => !noise_precompute_static_static ext wg2 p
      let wg3 := { wg2 with
        peers := wg2.peers.filter fun p => noise_precompute_static_static ext wg2 p }
      (wg3, evs1 ++ evs2 ++ evs3 ++ removed.map (fun p => Ev.peer_removed p.public_key)
        ++ [Ev.cookie_precompute])
    else (wg, [])
  | none => (wg, [])

/-- Result of `set` once the device is looked up: return code, device,
message buffers as left behind (peer entries processed so far have their
preshared keys scrubbed), events. -/
structure SetDevResult where
  ret : Int
  dev : Device
  msg : DeviceAttrs
  trace : List Ev
  deriving Repr, DecidableEq

/-- The `nla_for_each_nested` loop over `attrs[WGDEVICE_A_PEERS]` in `set`
(netlink.c:433-440): parse each nested peer entry, then `set_peer`; the
first negative return aborts the loop, leaving the remaining entries
untouched (their preshared-key buffers included). -/
def set_peers_loop (wg : Device) : List PeerAttrs → Int × Device × List PeerAttrs × List Ev
  | [] => (0, wg, [], [])
  | attr :: rest =>
    let r := nla_parse_nested_peer attr
    if r < 0 then (r, wg, attr :: rest, [])
    else
      match set_peer wg attr with
      | ⟨r2, wg2, attr2, evs2⟩ =>
        if r2 < 0 then (r2, wg2, attr2 :: rest, evs2)
        else
          match set_peers_loop wg2 rest with
          | (r3, wg3, rest3, evs3) => (r3, wg3, attr2 :: rest3, evs2 ++ evs3)

/-- Sub-update 5 of `set` (netlink.c:430-441): the nested peer list. -/
def stage_peers (wg : Device) (msg : DeviceAttrs) : Int × Device × DeviceAttrs × List Ev :=
  match msg.peers with
  | some entries =>
    match set_peers_loop wg entries with
    | (r, wg2, entries2, evs) => (r, wg2, { msg with peers := some entries2 }, evs)
  | none => (0, wg, msg, [])

/-- Transcription of the body of `set` between `mutex_lock` and
`mutex_unlock` (netlink.c:394-442): bump the generation counter, then apply
the five sub-updates in order, `goto out` on the first failure. -/
def set_with_device (ext : Ext) (wg : Device) (msg : DeviceAttrs) : SetDevResult :=
  let wg0 := { wg with device_update_gen := wg.device_update_gen + 1 }
  let (wgA, tr1) := stage_fwmark wg0 msg
  match stage_port ext wgA msg with
  | (rport, wgB, tr2) =>
    if rport ≠ 0 then ⟨rport, wgB, msg, tr1 ++ tr2⟩
    else
      let (wgC, tr3) := stage_replace_peers wgB msg
      let (wgD, tr4) := stage_private_key ext wgC msg
      match stage_peers wgD msg with
      | (rpeers, wgE, msg5, tr5) =>
        ⟨rpeers, wgE, msg5, tr1 ++ tr2 ++ tr3 ++ tr4 ++ tr5⟩

/-- Transcription of `lookup_interface(attrs, skb)` (netlink.c:45) over a
registry of net devices: exactly one of ifindex/ifname must be given
(`-EBADR`), the device must exist (`-ENODEV`) and must be a wireguard one
(`-EOPNOTSUPP`). -/
def lookup_interface (net : List Device) (msg : DeviceAttrs) : Except Int Device :=
  match msg.ifindex, msg.ifname with
  | some _, some _ => .error (-EBADR)
  | none, none => .error (-EBADR)
  | some i, none =>
    match net.find? (fun d => d.ifindex == i) with
    | none => .error (-ENODEV)
    | some d => if d.is_wireguard then .ok d else .error (-EOPNOTSUPP)
  | none, some nm =>
    match net.find? (fun d => d.ifname == nm) with
    | none => .error (-ENODEV)
    | some d => if d.is_wireguard then .ok d else .error (-EOPNOTSUPP)

/-- Replace the registry's device carrying `ifindex` with its updated
state. -/
def replace_device (net : List Device) (ifindex : Nat) (wg : Device) : List Device :=
  net.map (fun d => if d.ifindex == ifindex then wg else d)

/-- The `out_nodev:` tail of `set` (netlink.c:449-450):
`memzero_explicit` on the private-key attribute, on every exit path. -/
def zeroPrivateKey (msg : DeviceAttrs) : DeviceAttrs :=
  { msg with private_key := msg.private_key.map (List.map (fun _ => 0)) }

/-- Result of a full `set` (ApplyConfig) call. -/
structure SetResult where
  ret : Int
  net : List Device
  msg : DeviceAttrs
  trace : List Ev
  deriving Repr, DecidableEq

/-- Transcription of `set(skb, info)` (netlink.c:383): look the device up,
run the locked body, write the updated device back, and scrub the
private-key attribute on every exit path (`out_nodev`). -/
def set (net : List Device) (ext : Ext) (msg : DeviceAttrs) : SetResult :=
  match lookup_interface net msg with
  | .error e => ⟨e, net, zeroPrivateKey msg, []⟩
  | .ok wg =>
    match set_with_device ext wg msg with
    | ⟨r, wg2, msg2, evs⟩ =>
      ⟨r, replace_device net wg.ifindex wg2, zeroPrivateKey msg2, evs⟩

/-! ## The dump (DumpConfig / get) side

A chunk is built by appending netlink attributes to a fresh response
buffer of `B` bytes; `nla_put` fails when the attribute does not fit, and
`nla_nest_cancel` trims a partially written nest.  Tokens carry, besides
the value the C code serialises, the provenance (position `p` of the peer
in the device's peer list, index `e` of an allowed-IP entry in that
peer's routing-table list) that the real encoding carries structurally
(nesting under the peer's public key; the entry nest's attribute type is
the entry index), so that claims about duplication can be read off a
token stream. -/

inductive Tok where
  | genlHdr
  | devListenPort (v : Nat)
  | devFwmark (v : Nat)
  | devIfindex (v : Nat)
  | devIfname (s : List Nat)
  | devPrivateKey (k : List Nat)
  | devPublicKey (k : List Nat)
  | peersStart
  /-- peer nest header: per-chunk attribute index, peer-list position -/
  | peerStart (idx : Nat) (p : Nat)
  | peerPublicKey (p : Nat) (k : List Nat)
  | peerPresharedKey (p : Nat) (k : List Nat)
  | peerLastHandshake (p : Nat) (t : Nat)
  | peerKeepalive (p : Nat) (v : Nat)
  | peerTxBytes (p : Nat) (v : Nat)
  | peerRxBytes (p : Nat) (v : Nat)
  | peerEndpoint (p : Nat) (a : Sockaddr)
  | aipsStart (p : Nat)
  /-- allowed-IP entry nest header: entry index (also the wire attribute
  type, `actx->idx - 1`), peer-list position -/
  | aipStart (e : Nat) (p : Nat)
  | aipCidr (c : Nat)
  | aipFamily (f : Nat)
  | aipIpaddr (f : Nat) (a : List Nat)
  deriving Repr, DecidableEq

/-- Size in bytes each serialised attribute occupies: a 4-byte netlink
attribute header plus the payload (u16/u32 padded to 4, u64 with its pad
attribute, `struct timeval` 16 bytes, address length by family). -/
def tokSize : Tok → Nat
  | .genlHdr => 20
  | .devListenPort _ => 8
  | .devFwmark _ => 8
  | .devIfindex _ => 8
  | .devIfname s => 4 + s.length + 1
  | .devPrivateKey k => 4 + k.length
  | .devPublicKey k => 4 + k.length
  | .peersStart => 4
  | .peerStart _ _ => 4
  | .peerPublicKey _ k => 4 + k.length
  | .peerPresharedKey _ k => 4 + k.length
  | .peerLastHandshake _ _ => 4 + 16
  | .peerKeepalive _ _ => 8
  | .peerTxBytes _ _ => 16
  | .peerRxBytes _ _ => 16
  | .peerEndpoint _ a => 4 + (if a.sa_family == AF_INET then SOCKADDR_IN_LEN else SOCKADDR_IN6_LEN)
  | .aipsStart _ => 4
  | .aipStart _ _ => 4
  | .aipCidr _ => 8
  | .aipFamily _ => 8
  | .aipIpaddr f _ => 4 + (if f == AF_INET6 then IN6_ADDR_LEN else IN_ADDR_LEN)

/-- The response buffer being filled (`struct sk_buff`): the attributes
appended so far. -/
structure Skb where
  toks : List Tok
  deriving Repr, DecidableEq

def Skb.len (s : Skb) : Nat := (s.toks.map tokSize).sum

/-- `nla_put` and friends against a buffer of `B` bytes: fails (returns
`none`) when the attribute does not fit in the remaining tailroom. -/
def nla_put (B : Nat) (s : Skb) (t : Tok) : Option Skb :=
  if s.len + tokSize t ≤ B then some ⟨s.toks ++ [t]⟩ else none

/-- `nla_nest_start`: put the nest's own attribute header, remembering
where it begins so the nest can be cancelled. -/
def nla_nest_start (B : Nat) (s : Skb) (t : Tok) : Option (Skb × Nat) :=
  (nla_put B s t).map (fun s2 => (s2, s.toks.length))

/-- `nla_nest_cancel`: trim the buffer back to where the nest began. -/
def nla_nest_cancel (s : Skb) (marker : Nat) : Skb := ⟨s.toks.take marker⟩

/-- Modelled from the spec: the walk context of
`routing_table_walk_ips_by_peer_sleepable` — the callback's opaque context
plus the running entry counter. -/
structure ACtx where
  skb : Skb
  idx_cursor : Nat
  idx : Nat
  deriving Repr, DecidableEq

/-- Transcription of `get_allowedips(ctx, ip, cidr, family)` (netlink.c:69):
the walk callback — count the entry, skip it if it is below the saved
cursor, otherwise append the whole nested entry or cancel the partial nest
and stop the walk with `-EMSGSIZE`. -/
def get_allowedips (B : Nat) (p : Nat) (ctx : ACtx) (ip : AllowedIP) : Int × ACtx :=
  let ctx := { ctx with idx := ctx.idx + 1 }
  if ctx.idx < ctx.idx_cursor then (0, ctx)
  else
    match nla_nest_start B ctx.skb (.aipStart (ctx.idx - 1) p) with
    | none => (-EMSGSIZE, ctx)
    | some (skb1, marker) =>
      match nla_put B skb1 (.aipCidr ip.cidr) >>= (fun s => nla_put B s (.aipFamily ip.family))
          >>= (fun s => nla_put B s (.aipIpaddr ip.family ip.addr)) with
      | none => (-EMSGSIZE, { ctx with skb := nla_nest_cancel skb1 marker })
      | some skb2 => (0, { ctx with skb := skb2 })

/-- Modelled from the spec: `routing_table_walk_ips_by_peer_sleepable`
(routingtable.c, not under src/) — visit the peer's routing-table entries
in the table's enumeration order, stopping at the first nonzero return of
the visitor. -/
def walk_ips_by_peer (B : Nat) (p : Nat) (ctx : ACtx) : List AllowedIP → Int × ACtx
  | [] => (0, ctx)
  | ip :: rest =>
    match get_allowedips B p ctx ip with
    | (r, ctx2) => if r ≠ 0 then (r, ctx2) else walk_ips_by_peer B p ctx2 rest

/-- Transcription of `get_peer(peer, index, allowedips_idx_cursor, skb)`
(netlink.c:89).  Returns the C return code, the buffer, and the
by-reference cursor's final value (unchanged on the `err:` paths, the next
entry counter when the allowed-IP walk was cut short, 0 on success). -/
def get_peer (B : Nat) (p : Nat) (peer : DPeer) (index : Nat) (cursor : Nat)
    (skb : Skb) : Int × Skb × Nat :=
  match nla_nest_start B skb (.peerStart index p) with
  | none => (-EMSGSIZE, skb, cursor)
  | some (skb1, peer_marker) =>
    let fixed : Option Skb :=
      nla_put B skb1 (.peerPublicKey p peer.public_key) >>= fun s =>
        if cursor == 0 then
          (nla_put B s (.peerPresharedKey p peer.preshared_key) >>= fun s =>
            nla_put B s (.peerLastHandshake p peer.walltime_last_handshake) >>= fun s =>
            nla_put B s (.peerKeepalive p (peer.persistent_keepalive_interval / HZ)) >>= fun s =>
            nla_put B s (.peerTxBytes p peer.tx_bytes) >>= fun s =>
            nla_put B s (.peerRxBytes p peer.rx_bytes)) >>= fun s =>
          match peer.endpoint with
          | some a =>
            if a.sa_family == AF_INET then nla_put B s (.peerEndpoint p a)
            else if a.sa_family == AF_INET6 then nla_put B s (.peerEndpoint p a)
            else some s
          | none => some s
        else some s
    match fixed with
    | none => (-EMSGSIZE, nla_nest_cancel skb1 peer_marker, cursor)
    | some skb2 =>
      match nla_nest_start B skb2 (.aipsStart p) with
      | none => (-EMSGSIZE, nla_nest_cancel skb2 peer_marker, cursor)
      | some (skb3, _) =>
        match walk_ips_by_peer B p ⟨skb3, cursor, 0⟩ peer.allowedips with
        | (r, ctx) =>
          if r ≠ 0 then
            -- keep the partial peer: both nests are closed, not cancelled
            (-EMSGSIZE, ctx.skb, ctx.idx)
          else (0, ctx.skb, 0)

/-- The dump cursor the netlink callback keeps between chunks
(`cb->args[1]`, `cb->args[2]`): the peer-list position of the last peer
fully emitted (none at the start of the dump), and the saved allowed-IP
sub-index. -/
structure DumpCursor where
  next_peer : Option Nat
  aip_cursor : Nat
  deriving Repr, DecidableEq

/-- Result of one `get` call: the C return code (negative aborts the dump;
otherwise the skb length, 0 meaning done), the chunk, the done flag and the
cursor stored back into `cb->args`. -/
structure ChunkResult where
  ret : Int
  skb : Skb
  done : Bool
  cursor : DumpCursor
  /-- `cb->args[0]`: the pinned device, carried unchanged to the next
  call — `get` never writes the device. -/
  dev : Device
  deriving Repr, DecidableEq

/-- The `list_for_each_entry_continue` loop of `get` (netlink.c:211-217)
over the peers at positions `rest` (the peer list enumerated from the
resumption point), with the per-chunk attribute index `peer_idx`, the
threaded allowed-IP cursor and `next_peer_cursor` accumulator. -/
def get_peers_loop (B : Nat) : List (Nat × DPeer) → Nat → Nat → Option Nat → Skb →
    Bool × Option Nat × Nat × Skb
  | [], _, cursor2, next, skb => (true, next, cursor2, skb)
  | (p, peer) :: rest, peer_idx, cursor2, next, skb =>
    match get_peer B p peer peer_idx cursor2 skb with
    | (r, skb2, cursor2') =>
      if r ≠ 0 then (false, next, cursor2', skb2)
      else get_peers_loop B rest (peer_idx + 1) cursor2' (some p) skb2

/-- Transcription of `get(skb, cb)` (netlink.c:156): one dump chunk.
`next_peer_cursor` starts as NULL each call (netlink.c:159), the device
fields are emitted when there is no prior peer cursor, then the peer walk
resumes after the cursor's peer.  The peer-removed-while-unpinned test of
netlink.c:205 cannot fire here because no mutation between chunks is
modelled (the claims under proof presuppose a stable device). -/
def get_chunk (B : Nat) (wg : Device) (cur : DumpCursor) : ChunkResult :=
  let skb0 : Skb := ⟨[]⟩
  match nla_put B skb0 .genlHdr with
  | none => ⟨-EMSGSIZE, skb0, false, cur, wg⟩
  | some skb1 =>
    let devpart : Option Skb :=
      match cur.next_peer with
      | none =>
        (nla_put B skb1 (.devListenPort wg.incoming_port) >>= fun s =>
          nla_put B s (.devFwmark wg.fwmark) >>= fun s =>
          nla_put B s (.devIfindex wg.ifindex) >>= fun s =>
          nla_put B s (.devIfname wg.ifname)) >>= fun s =>
        if wg.has_identity then
          nla_put B s (.devPrivateKey wg.static_private) >>= fun s =>
            nla_put B s (.devPublicKey wg.static_public)
        else some s
      | some _ => some skb1
    match devpart with
    | none => ⟨-EMSGSIZE, skb0, false, cur, wg⟩
    | some skb2 =>
      match nla_nest_start B skb2 .peersStart with
      | none => ⟨-EMSGSIZE, skb0, false, cur, wg⟩
      | some (skb3, peers_marker) =>
        if wg.peers.isEmpty then
          -- nla_nest_cancel(skb, peers_nest); done
          ⟨0, nla_nest_cancel skb3 peers_marker, true, ⟨none, 0⟩, wg⟩
        else
          let start := match cur.next_peer with | none => 0 | some k => k + 1
          match get_peers_loop B (wg.peers.enum.drop start) 0 cur.aip_cursor none skb3 with
          | (done, next, cursor2, skb4) =>
            if done then ⟨0, skb4, true, ⟨none, 0⟩, wg⟩
            else ⟨Int.ofNat skb4.len, skb4, false, ⟨next, cursor2⟩, wg⟩

/-- Run `get` chunks until `done` (the netlink dump loop), with fuel; the
buggy cursor regression of netlink.c:159 can make a small-budget dump loop
forever, hence the fuel. `none` means the dump aborted with an error or ran
out of fuel. -/
def dump_steps (B : Nat) (wg : Device) : Nat → DumpCursor → Option (List Skb)
  | 0, _ => none
  | fuel + 1, cur =>
    let c := get_chunk B wg cur
    if c.ret < 0 then none
    else if c.done then some [c.skb]
    else
      match dump_steps B wg fuel c.cursor with
      | some rest => some (c.skb :: rest)
      | none => none

/-- A whole dump from the start cursor. -/
def dump (B : Nat) (fuel : Nat) (wg : Device) : Option (List Skb) :=
  dump_steps B wg fuel ⟨none, 0⟩

/-- All tokens of a dump's chunks, in emission order. -/
def chunksToks (cs : List Skb) : List Tok := (cs.map Skb.toks).flatten

/-! ## Derived state and predicates used by the claims -/

/-- Every byte of an optionally present key buffer is zero. -/
def zeroedOptKey : Option (List Nat) → Prop
  | none => True
  | some k => ∀ b ∈ k, b = 0

instance (o : Option (List Nat)) : Decidable (zeroedOptKey o) := by
  unfold zeroedOptKey
  cases o <;> infer_instance

/-- The device state just before sub-update 5 (the nested peer list) of
`set_with_device`, or `none` when the listening-port sub-update failed and
aborted the call first. -/
def pre_peers_state (ext : Ext) (wg : Device) (msg : DeviceAttrs) : Option Device :=
  let wg0 := { wg with device_update_gen := wg.device_update_gen + 1 }
  let wgA := (stage_fwmark wg0 msg).1
  match stage_port ext wgA msg with
  | (rport, wgB, _) =>
    if rport ≠ 0 then none
    else some (stage_private_key ext (stage_replace_peers wgB msg).1 msg).1

/-- How many leading entries of a peer batch have their preshared-key
buffer scrubbed by the loop at netlink.c:436-448, starting from device
state `wg`: an entry is counted iff its `set_peer` call is reached, since
`set_peer`'s `out:` label zeroes the key on every path (netlink.c:376-381).
So an entry whose nested parse fails is not counted, the entry whose
`set_peer` fails is the last one counted, and the whole batch is counted
when the loop succeeds.  This is the loop's own control flow with only the
count retained. -/
def scrubReach : Device → List PeerAttrs → Nat
  | _, [] => 0
  | wg, attr :: rest =>
    if nla_parse_nested_peer attr < 0 then 0
    else
      match set_peer wg attr with
      | ⟨r2, wg2, _, _⟩ => if r2 < 0 then 1 else 1 + scrubReach wg2 rest

/-- How many leading entries of the peer batch have their preshared-key
buffer scrubbed by a whole `set` call: zero when device lookup fails or an
earlier sub-update aborts before the peer loop is reached, otherwise the
loop's count from the device state the peer stage starts in. -/
def setScrubReach (net : List Device) (ext : Ext) (msg : DeviceAttrs) : Nat :=
  match lookup_interface net msg with
  | .error _ => 0
  | .ok wg =>
    match pre_peers_state ext wg msg with
    | none => 0
    | some wgD => scrubReach wgD (msg.peers.getD [])

/-- An allowed-IP attribute entry whose prefix length exceeds its address
family's bound (>32 for IPv4, >128 for IPv6). -/
def badPrefixEntry (a : AllowedipAttrs) : Prop :=
  (a.family = some AF_INET ∧ ∃ c, a.cidr = some c ∧ 32 < c) ∨
  (a.family = some AF_INET6 ∧ ∃ c, a.cidr = some c ∧ 128 < c)

/-- No peer of the device carries the device's own (current) public key. -/
def NoSelfPeer (wg : Device) : Prop :=
  wg.has_identity = true → ∀ p ∈ wg.peers, p.public_key ≠ wg.static_public

/-- Peers' public keys are pairwise distinct (spec §3: "a peer's public key
is unique within a device"). -/
def UniquePeerKeys (wg : Device) : Prop :=
  (wg.peers.map DPeer.public_key).Nodup

/-! ## Concrete inputs for counterexamples and witnesses -/

/-- A 32-byte key filled with one byte value. -/
def keyOf (b : Nat) : List Nat := List.replicate NOISE_PUBLIC_KEY_LEN b

/-- An external-collaborator instance for concrete runs: public keys are
derived by adding one to each byte, precomputation always succeeds, the
socket always rebinds. -/
def extC : Ext :=
  { curve25519_generate_public := fun k => some (k.map (fun b => b + 1))
    noise_precompute_ok := fun _ _ => true
    socket_init_err := fun _ => none }

/-- A peer-update entry with only a public key, flags, and preshared key. -/
def mkPeerAttrs (pk : List Nat) (fl : Option Nat) (psk : Option (List Nat)) : PeerAttrs :=
  { public_key := some pk, preshared_key := psk, flags := fl, endpoint := none,
    persistent_keepalive_interval := none, last_handshake_time := none,
    allowedips := none }

/-- A wireguard device with an identity (private key of 1-bytes, public key
of 2-bytes under `extC`) and no peers. -/
def exDev : Device :=
  { ifindex := 3, ifname := [119, 103, 48], is_wireguard := true,
    incoming_port := 51820, fwmark := 0, device_update_gen := 5,
    has_identity := true, static_private := keyOf 1, static_public := keyOf 2,
    peers := [], netif_running := false }

/-- A device-level message selecting `exDev` by ifindex, with no
device-level fields, carrying the given peer entries. -/
def mkSetMsg (entries : List PeerAttrs) : DeviceAttrs :=
  { ifindex := some 3, ifname := none, private_key := some (keyOf 1),
    public_key := none, flags := none, listen_port := none, fwmark := none,
    peers := some entries }

/-- C1's counterexample batch: the first peer entry fails (removal of an
absent peer), the second carries a preshared key that the abort leaves
unscrubbed. -/
def exC1msg : DeviceAttrs :=
  mkSetMsg [mkPeerAttrs (keyOf 9) (some WGPEER_F_REMOVE_ME) none,
            mkPeerAttrs (keyOf 8) none (some (keyOf 7))]

/-- The key-scrubbing property exactly as claim C1 states it: after the
call, the private-key buffer and every peer entry's preshared-key buffer
hold only zero bytes. -/
def allKeyBuffersZeroed (m : DeviceAttrs) : Prop :=
  zeroedOptKey m.private_key ∧ ∀ a ∈ m.peers.getD [], zeroedOptKey a.preshared_key

instance (m : DeviceAttrs) : Decidable (allKeyBuffersZeroed m) := by
  unfold allKeyBuffersZeroed
  infer_instance

/-- C7's counterexample entry: a removal request for the device's own
public key, no such peer existing. -/
def exC7attrs : PeerAttrs := mkPeerAttrs (keyOf 2) (some WGPEER_F_REMOVE_ME) none

/-- A self-keyed entry without the removal flag (the amended C7). -/
def exC7attrsOk : PeerAttrs := mkPeerAttrs (keyOf 2) none none

/-- An entry removing an absent peer (C8). -/
def exC8attrs : PeerAttrs := mkPeerAttrs (keyOf 9) (some WGPEER_F_REMOVE_ME) none

/-- An IPv4 allowed-IP entry with prefix length 33 (C6). -/
def exBadAip : AllowedipAttrs :=
  { family := some AF_INET, ipaddr := some [10, 0, 0, 0], cidr := some 33 }

/-- An IPv4 allowed-IP entry with prefix length 24. -/
def exGoodAip : AllowedipAttrs :=
  { family := some AF_INET, ipaddr := some [10, 0, 0, 0], cidr := some 24 }

/-- An endpoint attribute with an unsupported address family (C10). -/
def exBadEndpoint : Sockaddr := { sa_family := 1, bytes := List.replicate 16 0 }

/-- A peer entry carrying the unsupported endpoint (C10). -/
def exC10attrs : PeerAttrs :=
  { mkPeerAttrs (keyOf 8) none none with endpoint := some exBadEndpoint }

/-! ## Concrete dump devices (C2, C3) -/

/-- The i-th IPv4 allowed-IP entry of the dump examples. -/
def mkAip (i : Nat) : AllowedIP := ⟨AF_INET, [10, 0, 0, i], 24⟩

/-- First dump peer: no allowed IPs. -/
def dumpPeer0 : DPeer :=
  { public_key := keyOf 1, preshared_key := keyOf 11,
    persistent_keepalive_interval := 0, endpoint := none, allowedips := [],
    walltime_last_handshake := 0, rx_bytes := 0, tx_bytes := 0 }

/-- Second dump peer: `n` allowed IPs. -/
def dumpPeer1 (n : Nat) : DPeer :=
  { public_key := keyOf 2, preshared_key := keyOf 22,
    persistent_keepalive_interval := 0, endpoint := none,
    allowedips := (List.range n).map mkAip,
    walltime_last_handshake := 0, rx_bytes := 0, tx_bytes := 0 }

/-- The dump example device: two peers, the second with `n` allowed IPs. -/
def dumpDev (n : Nat) : Device :=
  { ifindex := 7, ifname := [119], is_wireguard := true, incoming_port := 1234,
    fwmark := 0, device_update_gen := 1, has_identity := false,
    static_private := [], static_public := [],
    peers := [dumpPeer0, dumpPeer1 n], netif_running := false }

/-- All stage-classified events of a trace fragment are of one stage. -/
def StageBound (tr : List Ev) (i : Nat) : Prop :=
  ∀ e ∈ tr, Ev.stageOf e = none ∨ Ev.stageOf e = some i


/-! ## Canonical emission shapes for the dump claims

The dump claims (C2, C3) quantify over the token stream a dump produces.
The definitions below give the canonical token lists the code emits for an
allowed-IP entry, a peer's non-identity fields, a peer's fixed header and a
whole peer block, plus suffix functions describing what a correct dump
emits from a given cursor position onward.  They are read off `get_peer`
and `get` (netlink.c:89, netlink.c:156). -/

/-- The four tokens of one serialized allowed-IP entry (netlink.c:74-82):
the entry nest header (attribute type = running index), cidr, family,
address. -/
def entry_toks (p e : Nat) (ip : AllowedIP) : List Tok :=
  [.aipStart e p, .aipCidr ip.cidr, .aipFamily ip.family, .aipIpaddr ip.family ip.addr]

/-- Serialize a run of allowed-IP entries, tagging them with consecutive
indices starting at `a`. -/
def tagFrom (p a : Nat) : List AllowedIP → List Tok
  | [] => []
  | ip :: rest => entry_toks p a ip ++ tagFrom p (a + 1) rest

/-- The endpoint token `get_peer` emits: present only for a representable
address family (netlink.c:112-118). -/
def endpoint_tok (p : Nat) (peer : DPeer) : List Tok :=
  match peer.endpoint with
  | some a =>
    if a.sa_family == AF_INET then [.peerEndpoint p a]
    else if a.sa_family == AF_INET6 then [.peerEndpoint p a]
    else []
  | none => []

/-- A peer's non-identity fields, in the order `get_peer` emits them when
the allowed-IP cursor is zero (netlink.c:100-118). -/
def peer_field_toks (p : Nat) (peer : DPeer) : List Tok :=
  [.peerPresharedKey p peer.preshared_key,
   .peerLastHandshake p peer.walltime_last_handshake,
   .peerKeepalive p (peer.persistent_keepalive_interval / HZ),
   .peerTxBytes p peer.tx_bytes,
   .peerRxBytes p peer.rx_bytes] ++ endpoint_tok p peer

/-- The fixed (pre-allowed-IP) part of a peer block: peer nest header,
public key, the non-identity fields when the saved allowed-IP cursor `j`
is zero, and the allowed-IPs nest header (netlink.c:94-123). -/
def peer_fixed_toks (idx p : Nat) (peer : DPeer) (j : Nat) : List Tok :=
  [.peerStart idx p, .peerPublicKey p peer.public_key] ++
    (if j == 0 then peer_field_toks p peer else []) ++ [.aipsStart p]

/-- A complete peer block resumed at allowed-IP cursor `j` (entries with
index below `j - 1` were already sent and are skipped). -/
def peer_block_toks (idx p : Nat) (peer : DPeer) (j : Nat) : List Tok :=
  peer_fixed_toks idx p peer j ++ tagFrom p (j - 1) (peer.allowedips.drop (j - 1))

/-- The device scalar attributes in `get`'s emission order
(netlink.c:181-197). -/
def devScalarToks (wg : Device) : List Tok :=
  [.devListenPort wg.incoming_port, .devFwmark wg.fwmark,
   .devIfindex wg.ifindex, .devIfname wg.ifname] ++
    (if wg.has_identity then
      [.devPrivateKey wg.static_private, .devPublicKey wg.static_public]
     else [])

/-- Everything a first chunk writes before the first peer: the genl
header, the device scalars, the peers nest header. -/
def devHeadToks (wg : Device) : List Tok :=
  Tok.genlHdr :: devScalarToks wg ++ [Tok.peersStart]

/-- Total serialized size of a token list. -/
def toksSize (l : List Tok) : Nat := (l.map tokSize).sum

/-- Serialized size of one allowed-IP entry (tag arguments do not affect
sizes). -/
def aipEntrySize (ip : AllowedIP) : Nat := toksSize (entry_toks 0 0 ip)

def devHeadSize (wg : Device) : Nat := toksSize (devHeadToks wg)

/-- Serialized size of a complete peer block with all fields and all
allowed-IP entries. -/
def peerFullSize (peer : DPeer) : Nat :=
  toksSize (peer_fixed_toks 0 0 peer 0) + (peer.allowedips.map aipEntrySize).sum

/-- The message-size budget is generous enough that the device header plus
any single complete peer block fits in one chunk.  Under this bound a
chunk always finishes the peer it resumes, so the cursor-regression bug of
netlink.c:159 cannot fire. -/
def BudgetOK (B : Nat) (wg : Device) : Prop :=
  devHeadSize wg ≤ B ∧ ∀ peer ∈ wg.peers, devHeadSize wg + peerFullSize peer ≤ B

def defaultDPeer : DPeer :=
  { public_key := [], preshared_key := [], persistent_keepalive_interval := 0,
    endpoint := none, allowedips := [], walltime_last_handshake := 0,
    rx_bytes := 0, tx_bytes := 0 }

/-- The peer at list position `p`. -/
def peerAt (wg : Device) (p : Nat) : DPeer := wg.peers.getD p defaultDPeer

/-- The peer-list position a chunk starts its walk at (netlink.c:208-210:
`list_for_each_entry_continue` after the cursor peer). -/
def startIdx (cur : DumpCursor) : Nat :=
  match cur.next_peer with | none => 0 | some t => t + 1

/-- Cursors `get` can actually store between chunks: the saved peer is not
the last one, and a nonzero saved allowed-IP index points into the next
peer's entry list. -/
def ValidCursor (wg : Device) (cur : DumpCursor) : Prop :=
  match cur.next_peer with
  | none => cur.aip_cursor = 0
  | some t => t + 1 < wg.peers.length ∧
      (cur.aip_cursor = 0 ∨
        (1 ≤ cur.aip_cursor ∧
          cur.aip_cursor - 1 < (peerAt wg (t + 1)).allowedips.length))

/-- Allowed-IP entry tokens a complete dump still owes from peer position
`s` onward, the first peer resumed at entry offset `a`. -/
def aipSuffixAux : Nat → List DPeer → Nat → List Tok
  | _, [], _ => []
  | s, peer :: rest, a =>
    tagFrom s a (peer.allowedips.drop a) ++ aipSuffixAux (s + 1) rest 0

/-- Non-identity field tokens a complete dump still owes from peer
position `s` onward. -/
def fieldAux : Nat → List DPeer → List Tok
  | _, [] => []
  | s, peer :: rest => peer_field_toks s peer ++ fieldAux (s + 1) rest

/-- Pair each list element with its position, starting at `s` (the shape
`wg.peers.enum.drop s` takes). -/
def posZip (s : Nat) : List DPeer → List (Nat × DPeer)
  | [] => []
  | peer :: rest => (s, peer) :: posZip (s + 1) rest

/-- Device scalar attributes (identity included). -/
def isDevTok : Tok → Bool
  | .devListenPort _ | .devFwmark _ | .devIfindex _ | .devIfname _
  | .devPrivateKey _ | .devPublicKey _ => true
  | _ => false

/-- Tokens belonging to a serialized allowed-IP entry. -/
def isAipEntryTok : Tok → Bool
  | .aipStart _ _ | .aipCidr _ | .aipFamily _ | .aipIpaddr _ _ => true
  | _ => false

/-- A peer's non-identity field attributes. -/
def isFieldTok : Tok → Bool
  | .peerPresharedKey _ _ | .peerLastHandshake _ _ | .peerKeepalive _ _
  | .peerTxBytes _ _ | .peerRxBytes _ _ | .peerEndpoint _ _ => true
  | _ => false

/-- Peer-list position carried by a public-key token. -/
def pubP : Tok → Option Nat
  | .peerPublicKey p _ => some p
  | _ => none

/-- How many leading entries of the list fit greedily in the remaining
budget, starting from buffer length `L`. -/
def greedyCount (B L : Nat) : List AllowedIP → Nat
  | [] => 0
  | ip :: rest =>
    if L + aipEntrySize ip ≤ B then greedyCount B (L + aipEntrySize ip) rest + 1
    else 0

/-! ### One chunk of the dump (`get`, netlink.c:156-243) -/

/-- Allowed-IP entry tokens a dump still owes from peer position `s`,
first peer resumed at entry offset `a`. -/
def aipRemaining (wg : Device) (s a : Nat) : List Tok :=
  aipSuffixAux s (wg.peers.drop s) a

/-- Non-identity field tokens a dump still owes when resuming at peer `s`
with saved allowed-IP cursor `j` (a nonzero cursor means peer `s`'s fields
already went out). -/
def fieldRemaining (wg : Device) (s j : Nat) : List Tok :=
  if j = 0 then fieldAux s (wg.peers.drop s)
  else fieldAux (s + 1) (wg.peers.drop (s + 1))


/-! # Theorems

First the shared library about the transcribed functions (loop composition
and abort behaviour, stage plumbing), then one theorem per claim. -/

/-- Splitting the peer-entry loop: a prefix that succeeds composes with the
loop on the remaining entries. -/
theorem set_peers_loop_ok_append (front : List PeerAttrs) :
    ∀ wg wg1 front1 evs1 rest, set_peers_loop wg front = (0, wg1, front1, evs1) →
    set_peers_loop wg (front ++ rest) =
      ((set_peers_loop wg1 rest).1, (set_peers_loop wg1 rest).2.1,
       front1 ++ (set_peers_loop wg1 rest).2.2.1, evs1 ++ (set_peers_loop wg1 rest).2.2.2) := by
  induction front with
  | nil =>
    intro wg wg1 front1 evs1 rest h
    simp only [set_peers_loop, Prod.mk.injEq] at h
    obtain ⟨_, h2, h3, h4⟩ := h
    subst h2; subst h3; subst h4
    simp
  | cons a front ih =>
    intro wg wg1 front1 evs1 rest h
    simp only [set_peers_loop, List.cons_append, List.append_eq] at h ⊢
    by_cases hp : nla_parse_nested_peer a < 0
    · simp only [if_pos hp, Prod.mk.injEq] at h
      have : nla_parse_nested_peer a = 0 := by omega
      omega
    · simp only [if_neg hp] at h ⊢
      rcases hsp : set_peer wg a with ⟨r2, wg2, a2, evs2⟩
      rw [hsp] at h
      by_cases hr2 : r2 < 0
      · simp only [if_pos hr2, Prod.mk.injEq] at h
        omega
      · simp only [if_neg hr2] at h ⊢
        rcases hrec : set_peers_loop wg2 front with ⟨r3, wg3, rest3, evs3⟩
        rw [hrec] at h
        simp only [Prod.mk.injEq] at h
        obtain ⟨h1, h2, h3, h4⟩ := h
        subst h1
        subst h2
        subst h3
        subst h4
        rw [ih _ _ _ _ rest hrec]
        simp

/-- Splitting the allowed-IP loop: a prefix that succeeds composes with the
loop on the remaining entries. -/
theorem allowedips_loop_ok_append (front : List AllowedipAttrs) :
    ∀ peer peer1 evs1 rest, allowedips_loop peer front = (0, peer1, evs1) →
    allowedips_loop peer (front ++ rest) =
      ((allowedips_loop peer1 rest).1, (allowedips_loop peer1 rest).2.1,
       evs1 ++ (allowedips_loop peer1 rest).2.2) := by
  induction front with
  | nil =>
    intro peer peer1 evs1 rest h
    simp only [allowedips_loop, Prod.mk.injEq] at h
    obtain ⟨_, h2, h3⟩ := h
    subst h2
    subst h3
    simp
  | cons a front ih =>
    intro peer peer1 evs1 rest h
    simp only [allowedips_loop, List.cons_append, List.append_eq] at h ⊢
    by_cases hp : nla_parse_nested_allowedip a < 0
    · simp only [if_pos hp, Prod.mk.injEq] at h
      omega
    · simp only [if_neg hp] at h ⊢
      rcases hsp : set_allowedip peer a with ⟨r2, peer2, evs2⟩
      rw [hsp] at h
      by_cases hr2 : r2 < 0
      · simp only [if_pos hr2, Prod.mk.injEq] at h
        omega
      · simp only [if_neg hr2] at h ⊢
        rcases hrec : allowedips_loop peer2 front with ⟨r3, peer3, evs3⟩
        rw [hrec] at h
        simp only [Prod.mk.injEq] at h
        obtain ⟨h1, h2, h3⟩ := h
        subst h1
        subst h2
        subst h3
        rw [ih _ _ _ rest hrec]
        simp

/-- The peer-entry loop stops at the first failing entry: the result is the
failing `set_peer`'s, the already-applied prefix stays applied, and the
entries after the failing one are returned untouched (the right-hand side
does not examine `rest`). -/
theorem set_peers_loop_abort (wg : Device) (front rest : List PeerAttrs)
    (a : PeerAttrs) (wg1 : Device) (front1 : List PeerAttrs) (evs1 : List Ev)
    (hfront : set_peers_loop wg front = (0, wg1, front1, evs1))
    (hparse : nla_parse_nested_peer a = 0)
    (hfail : (set_peer wg1 a).ret < 0) :
    set_peers_loop wg (front ++ a :: rest) =
      ((set_peer wg1 a).ret, (set_peer wg1 a).dev,
       front1 ++ (set_peer wg1 a).msg :: rest, evs1 ++ (set_peer wg1 a).trace) := by
  rw [set_peers_loop_ok_append front wg wg1 front1 evs1 (a :: rest) hfront]
  simp only [set_peers_loop, hparse]
  norm_num
  rcases hsp : set_peer wg1 a with ⟨r2, wg2, a2, evs2⟩
  rw [hsp] at hfail
  simp only at hfail
  simp [if_pos hfail]

/-- The allowed-IP loop stops at the first failing entry, leaving earlier
insertions in place and never examining the entries after it. -/
theorem allowedips_loop_abort (peer : DPeer) (front rest : List AllowedipAttrs)
    (a : AllowedipAttrs) (peer1 : DPeer) (evs1 : List Ev)
    (hfront : allowedips_loop peer front = (0, peer1, evs1))
    (hparse : nla_parse_nested_allowedip a = 0)
    (hfail : (set_allowedip peer1 a).1 < 0) :
    allowedips_loop peer (front ++ a :: rest) =
      ((set_allowedip peer1 a).1, (set_allowedip peer1 a).2.1,
       evs1 ++ (set_allowedip peer1 a).2.2) := by
  rw [allowedips_loop_ok_append front peer peer1 evs1 (a :: rest) hfront]
  simp only [allowedips_loop, hparse]
  norm_num
  rcases hsp : set_allowedip peer1 a with ⟨r2, peer2, evs2⟩
  rw [hsp] at hfail
  simp only at hfail
  simp [if_pos hfail]

/-- An IPv4 allowed-IP entry with prefix length over 32 is rejected with
`-EINVAL`, inserting nothing. -/
theorem set_allowedip_bad_v4 (peer : DPeer) (a : AllowedipAttrs) (c : Nat)
    (hf : a.family = some AF_INET) (hc : a.cidr = some c) (h32 : 32 < c) :
    set_allowedip peer a = (-EINVAL, peer, []) := by
  unfold set_allowedip
  rw [hf, hc]
  rcases a.ipaddr with _ | ip
  · simp
  · have h1 : ¬(c ≤ 32) := by omega
    simp [AF_INET, AF_INET6, h1]

/-- An IPv6 allowed-IP entry with prefix length over 128 is rejected with
`-EINVAL`, inserting nothing. -/
theorem set_allowedip_bad_v6 (peer : DPeer) (a : AllowedipAttrs) (c : Nat)
    (hf : a.family = some AF_INET6) (hc : a.cidr = some c) (h128 : 128 < c) :
    set_allowedip peer a = (-EINVAL, peer, []) := by
  unfold set_allowedip
  rw [hf, hc]
  rcases a.ipaddr with _ | ip
  · simp
  · have h1 : ¬(c ≤ 32) := by omega
    have h2 : ¬(c ≤ 128) := by omega
    simp [AF_INET, AF_INET6, h1, h2]

/-- Any entry violating its family's prefix bound is rejected with
`-EINVAL`, inserting nothing. -/
theorem badPrefixEntry_set_allowedip (peer : DPeer) (a : AllowedipAttrs)
    (hbad : badPrefixEntry a) : set_allowedip peer a = (-EINVAL, peer, []) := by
  rcases hbad with ⟨hf, c, hc, h32⟩ | ⟨hf, c, hc, h128⟩
  · exact set_allowedip_bad_v4 peer a c hf hc h32
  · exact set_allowedip_bad_v6 peer a c hf hc h128

/-- An allowed-IP list containing a prefix-bound violation always makes the
loop fail, whatever the peer state. -/
theorem allowedips_loop_bad_ret (l : List AllowedipAttrs)
    (hbad : ∃ b ∈ l, badPrefixEntry b) :
    ∀ peer, (allowedips_loop peer l).1 < 0 := by
  induction l with
  | nil => simp at hbad
  | cons a rest ih =>
    intro peer
    simp only [allowedips_loop]
    by_cases hp : nla_parse_nested_allowedip a < 0
    · simp only [if_pos hp]; exact hp
    · simp only [if_neg hp]
      rcases hsp : set_allowedip peer a with ⟨r2, peer2, evs2⟩
      by_cases hr2 : r2 < 0
      · simp only [if_pos hr2]; exact hr2
      · simp only [if_neg hr2]
        rcases hbad with ⟨b, hb, hbadb⟩
        rcases List.mem_cons.mp hb with rfl | hbrest
        · rw [badPrefixEntry_set_allowedip peer b hbadb] at hsp
          simp only [Prod.mk.injEq] at hsp
          exfalso
          apply hr2
          rw [← hsp.1]
          decide
        · rcases hrec : allowedips_loop peer2 rest with ⟨r3, peer3, evs3⟩
          have := ih ⟨b, hbrest, hbadb⟩ peer2
          rw [hrec] at this
          simpa using this

/-- A non-removal peer update whose allowed-IP list contains a prefix-bound
violation always fails. -/
theorem set_peer_with_bad_aips_ret (wg : Device) (peers0 : List DPeer)
    (peer : DPeer) (attrs : PeerAttrs) (psk : Option (List Nat)) (flags : Nat)
    (evs0 : List Ev) (l : List AllowedipAttrs)
    (hrm : flags &&& WGPEER_F_REMOVE_ME = 0)
    (hl : attrs.allowedips = some l)
    (hbad : ∃ b ∈ l, badPrefixEntry b) :
    (set_peer_with wg peers0 peer attrs psk flags evs0).ret < 0 := by
  unfold set_peer_with
  rw [if_neg (by simp [hrm])]
  rw [hl]
  rcases h1 : peer_apply_psk peer psk with ⟨p1, e1⟩
  rcases h2 : peer_apply_endpoint p1 attrs.endpoint with ⟨p2, e2⟩
  rcases h3 : peer_apply_replace_aips p2 flags with ⟨p3, e3⟩
  rcases h4 : allowedips_loop p3 l with ⟨r4, p4, e4⟩
  have hlt := allowedips_loop_bad_ret l hbad p3
  rw [h4] at hlt
  simp only at hlt
  simp only [Option.getD_some, h1, h2, h3, h4]
  simp [hlt]

/-- Plumbing: `set_with_device` hands sub-update 5 exactly the device state
`pre_peers_state` computes, and surfaces the peer loop's result. -/
theorem set_with_device_peers_bridge (ext : Ext) (wg wgD : Device)
    (msg : DeviceAttrs) (entries : List PeerAttrs)
    (hpre : pre_peers_state ext wg msg = some wgD)
    (hpeers : msg.peers = some entries) :
    (set_with_device ext wg msg).ret = (set_peers_loop wgD entries).1 ∧
    (set_with_device ext wg msg).dev = (set_peers_loop wgD entries).2.1 ∧
    (set_with_device ext wg msg).msg =
      { msg with peers := some (set_peers_loop wgD entries).2.2.1 } := by
  simp only [pre_peers_state] at hpre
  simp only [set_with_device, stage_peers]
  rcases hfw : stage_fwmark { wg with device_update_gen := wg.device_update_gen + 1 } msg with ⟨wgA, tr1⟩
  rw [hfw] at hpre
  dsimp only at hpre ⊢
  rcases hport : stage_port ext wgA msg with ⟨rport, wgB, tr2⟩
  rw [hport] at hpre
  dsimp only at hpre ⊢
  by_cases hr : rport ≠ 0
  · rw [if_pos hr] at hpre
    exact absurd hpre (by simp)
  · rw [if_neg hr] at hpre
    simp only [Option.some.injEq] at hpre
    rcases hrep : stage_replace_peers wgB msg with ⟨wgC, tr3⟩
    rw [hrep] at hpre
    dsimp only at hpre ⊢
    rcases hpk : stage_private_key ext wgC msg with ⟨wgD2, tr4⟩
    rw [hpk] at hpre
    dsimp only at hpre ⊢
    subst hpre
    simp only [if_neg hr, hpeers]
    rcases hloop : set_peers_loop wgD2 entries with ⟨r5, wgE, e5, tr5⟩
    simp

/-- Plumbing: a `set` call whose device lookup succeeds is the locked body
plus registry write-back and private-key scrubbing. -/
theorem set_lookup_ok_parts (net : List Device) (ext : Ext) (msg : DeviceAttrs)
    (wg : Device) (hlk : lookup_interface net msg = .ok wg) :
    (set net ext msg).ret = (set_with_device ext wg msg).ret ∧
    (set net ext msg).net = replace_device net wg.ifindex (set_with_device ext wg msg).dev ∧
    (set net ext msg).msg = zeroPrivateKey (set_with_device ext wg msg).msg ∧
    (set net ext msg).trace = (set_with_device ext wg msg).trace := by
  simp only [set, hlk]
  rcases h : set_with_device ext wg msg with ⟨r, wg2, msg2, evs⟩
  simp

/-- Removal of an absent peer: `set_peer` fails with `-ENODEV` and changes
nothing (netlink.c:306-309). -/
theorem set_peer_remove_absent (wg : Device) (a : PeerAttrs) (pk : List Nat)
    (hpk : a.public_key = some pk) (hlen : pk.length = NOISE_PUBLIC_KEY_LEN)
    (hrm : (a.flags.getD 0) &&& WGPEER_F_REMOVE_ME ≠ 0)
    (habs : pubkey_hashtable_lookup wg.peers pk = none) :
    set_peer wg a = ⟨-ENODEV, wg, zeroPsk a, []⟩ := by
  unfold set_peer
  rw [hpk]
  simp [hlen, habs, hrm]

/-- A self-keyed non-removal update for an absent peer is accepted as a
silent no-op (netlink.c:311-319). -/
theorem set_peer_self_key_noop (wg : Device) (a : PeerAttrs) (pk : List Nat)
    (hpk : a.public_key = some pk) (hlen : pk.length = NOISE_PUBLIC_KEY_LEN)
    (hid : wg.has_identity = true) (hself : pk = wg.static_public)
    (habs : pubkey_hashtable_lookup wg.peers pk = none)
    (hrm : (a.flags.getD 0) &&& WGPEER_F_REMOVE_ME = 0) :
    set_peer wg a = ⟨0, wg, zeroPsk a, []⟩ := by
  unfold set_peer
  rw [hpk]
  subst hself
  simp [hlen, habs, hrm, hid]

/-! ## Claim C6 -/

/-- C6: an allowed-IP entry whose prefix length exceeds its family's bound
(>32 for IPv4, >128 for IPv6) is rejected with `-EINVAL` and not inserted
(the peer's routing-table entries are unchanged and no insert event is
emitted); the allowed-IP loop stops there, keeping earlier insertions and
never examining later entries; a peer update carrying such an entry fails;
and the first failing peer entry makes the whole ApplyConfig call return
its error with all later peer entries unprocessed. -/
theorem C6_bad_prefix_rejects_and_aborts :
    (∀ (peer : DPeer) (a : AllowedipAttrs) (c : Nat),
      a.family = some AF_INET → a.cidr = some c → 32 < c →
      set_allowedip peer a = (-EINVAL, peer, [])) ∧
    (∀ (peer : DPeer) (a : AllowedipAttrs) (c : Nat),
      a.family = some AF_INET6 → a.cidr = some c → 128 < c →
      set_allowedip peer a = (-EINVAL, peer, [])) ∧
    (∀ (peer : DPeer) (front rest : List AllowedipAttrs) (a : AllowedipAttrs)
      (peer1 : DPeer) (evs1 : List Ev),
      allowedips_loop peer front = (0, peer1, evs1) →
      nla_parse_nested_allowedip a = 0 → badPrefixEntry a →
      allowedips_loop peer (front ++ a :: rest) = (-EINVAL, peer1, evs1)) ∧
    (∀ (wg : Device) (a : PeerAttrs) (pk : List Nat) (peer : DPeer)
      (l : List AllowedipAttrs),
      a.public_key = some pk → pk.length = NOISE_PUBLIC_KEY_LEN →
      (a.flags.getD 0) &&& WGPEER_F_REMOVE_ME = 0 →
      pubkey_hashtable_lookup wg.peers pk = some peer →
      a.allowedips = some l → (∃ b ∈ l, badPrefixEntry b) →
      (set_peer wg a).ret < 0) ∧
    (∀ (net : List Device) (ext : Ext) (msg : DeviceAttrs) (wg wgD : Device)
      (front rest : List PeerAttrs) (a : PeerAttrs) (wg1 : Device)
      (front1 : List PeerAttrs) (evs1 : List Ev),
      lookup_interface net msg = .ok wg →
      pre_peers_state ext wg msg = some wgD →
      msg.peers = some (front ++ a :: rest) →
      set_peers_loop wgD front = (0, wg1, front1, evs1) →
      nla_parse_nested_peer a = 0 →
      (set_peer wg1 a).ret < 0 →
      (set net ext msg).ret = (set_peer wg1 a).ret ∧
      (set net ext msg).net = replace_device net wg.ifindex (set_peer wg1 a).dev) := by
  refine ⟨set_allowedip_bad_v4, set_allowedip_bad_v6, ?_, ?_, ?_⟩
  · intro peer front rest a peer1 evs1 hfront hparse hbad
    have hba := badPrefixEntry_set_allowedip peer1 a hbad
    have hfail : (set_allowedip peer1 a).1 < 0 := by
      rw [hba]
      show (-EINVAL : Int) < 0
      decide
    rw [allowedips_loop_abort peer front rest a peer1 evs1 hfront hparse hfail, hba]
    simp
  · intro wg a pk peer l hpk hlen hrm hfound hl hbad
    unfold set_peer
    rw [hpk]
    simp only [hlen, hfound, ne_eq, not_true_eq_false, if_false, reduceIte]
    exact set_peer_with_bad_aips_ret wg wg.peers peer a _ _ [] l hrm hl hbad
  · intro net ext msg wg wgD front rest a wg1 front1 evs1 hlk hpre hpeers hfront hparse hfail
    have habort := set_peers_loop_abort wgD front rest a wg1 front1 evs1 hfront hparse hfail
    have hbr := set_with_device_peers_bridge ext wg wgD msg (front ++ a :: rest) hpre hpeers
    have hparts := set_lookup_ok_parts net ext msg wg hlk
    constructor
    · rw [hparts.1, hbr.1, habort]
    · rw [hparts.2.1, hbr.2.1, habort]

/-! ## Claim C7 -/

/-- C7 fails as stated: a peer update whose public key equals the device's
own public key and which names an absent peer does not always succeed — with
the remove flag set it returns `-ENODEV` (the removal check precedes the
self-key check, netlink.c:308 vs 312). -/
theorem C7_counterexample :
    exC7attrs.public_key = some exDev.static_public ∧
    pubkey_hashtable_lookup exDev.peers exDev.static_public = none ∧
    (set_peer exDev exC7attrs).ret = -ENODEV := by decide

/-- C7 (amended): a peer update whose public key equals the device's own
current public key, which names a peer not already present, and whose flags
do not request removal, returns 0, creates no peer and leaves the device
unchanged, emitting no collaborator calls. -/
theorem C7_self_key_noop_amended (wg : Device) (a : PeerAttrs) (pk : List Nat)
    (hpk : a.public_key = some pk) (hlen : pk.length = NOISE_PUBLIC_KEY_LEN)
    (hid : wg.has_identity = true) (hself : pk = wg.static_public)
    (habs : pubkey_hashtable_lookup wg.peers pk = none)
    (hrm : (a.flags.getD 0) &&& WGPEER_F_REMOVE_ME = 0) :
    (set_peer wg a).ret = 0 ∧ (set_peer wg a).dev = wg ∧
    (set_peer wg a).trace = [] := by
  rw [set_peer_self_key_noop wg a pk hpk hlen hid hself habs hrm]
  exact ⟨rfl, rfl, rfl⟩

/-- Witness: the amended C7 at a concrete device and entry. -/
theorem C7_self_key_noop_witness :
    (set_peer exDev exC7attrsOk).ret = 0 ∧ (set_peer exDev exC7attrsOk).dev = exDev ∧
    (set_peer exDev exC7attrsOk).trace = [] :=
  C7_self_key_noop_amended exDev exC7attrsOk (keyOf 2) rfl (by decide) rfl rfl rfl rfl

/-! ## Claim C8 -/

/-- C8: removing a peer whose public key is not present fails: `set_peer`
returns `-ENODEV` leaving the device unchanged, and an ApplyConfig call
whose batch reaches such an entry fails with `-ENODEV`, the registry
holding exactly the state the preceding entries produced (no peer
created). -/
theorem C8_remove_absent_fails :
    (∀ (wg : Device) (a : PeerAttrs) (pk : List Nat),
      a.public_key = some pk → pk.length = NOISE_PUBLIC_KEY_LEN →
      (a.flags.getD 0) &&& WGPEER_F_REMOVE_ME ≠ 0 →
      pubkey_hashtable_lookup wg.peers pk = none →
      set_peer wg a = ⟨-ENODEV, wg, zeroPsk a, []⟩) ∧
    (∀ (net : List Device) (ext : Ext) (msg : DeviceAttrs) (wg wgD : Device)
      (front rest : List PeerAttrs) (a : PeerAttrs) (pk : List Nat)
      (wg1 : Device) (front1 : List PeerAttrs) (evs1 : List Ev),
      lookup_interface net msg = .ok wg →
      pre_peers_state ext wg msg = some wgD →
      msg.peers = some (front ++ a :: rest) →
      set_peers_loop wgD front = (0, wg1, front1, evs1) →
      nla_parse_nested_peer a = 0 →
      a.public_key = some pk → pk.length = NOISE_PUBLIC_KEY_LEN →
      (a.flags.getD 0) &&& WGPEER_F_REMOVE_ME ≠ 0 →
      pubkey_hashtable_lookup wg1.peers pk = none →
      (set net ext msg).ret = -ENODEV ∧
      (set net ext msg).net = replace_device net wg.ifindex wg1) := by
  constructor
  · intro wg a pk hpk hlen hrm habs
    exact set_peer_remove_absent wg a pk hpk hlen hrm habs
  · intro net ext msg wg wgD front rest a pk wg1 front1 evs1 hlk hpre hpeers hfront hparse hpk hlen hrm habs
    have hsp := set_peer_remove_absent wg1 a pk hpk hlen hrm habs
    have hfail : (set_peer wg1 a).ret < 0 := by
      rw [hsp]
      show (-ENODEV : Int) < 0
      decide
    have habort := set_peers_loop_abort wgD front rest a wg1 front1 evs1 hfront hparse hfail
    rw [hsp] at habort
    have hbr := set_with_device_peers_bridge ext wg wgD msg (front ++ a :: rest) hpre hpeers
    have hparts := set_lookup_ok_parts net ext msg wg hlk
    constructor
    · rw [hparts.1, hbr.1, habort]
    · rw [hparts.2.1, hbr.2.1, habort]

theorem peer_apply_psk_key (p : DPeer) (o : Option (List Nat)) :
    (peer_apply_psk p o).1.public_key = p.public_key := by
  cases o <;> rfl

theorem peer_apply_psk_endpoint (p : DPeer) (o : Option (List Nat)) :
    (peer_apply_psk p o).1.endpoint = p.endpoint := by
  cases o <;> rfl

theorem peer_apply_endpoint_key (p : DPeer) (o : Option Sockaddr) :
    (peer_apply_endpoint p o).1.public_key = p.public_key := by
  cases o with
  | none => rfl
  | some a =>
    simp only [peer_apply_endpoint]
    split <;> rfl

theorem peer_apply_endpoint_none (p : DPeer) :
    peer_apply_endpoint p none = (p, []) := rfl

theorem peer_apply_replace_aips_key (p : DPeer) (fl : Nat) :
    (peer_apply_replace_aips p fl).1.public_key = p.public_key := by
  unfold peer_apply_replace_aips
  split <;> rfl

theorem peer_apply_replace_aips_endpoint (p : DPeer) (fl : Nat) :
    (peer_apply_replace_aips p fl).1.endpoint = p.endpoint := by
  unfold peer_apply_replace_aips
  split <;> rfl

theorem peer_apply_keepalive_key (b : Bool) (p : DPeer) (o : Option Nat) :
    (peer_apply_keepalive b p o).1.public_key = p.public_key := by
  cases o <;> rfl

theorem peer_apply_keepalive_endpoint (b : Bool) (p : DPeer) (o : Option Nat) :
    (peer_apply_keepalive b p o).1.endpoint = p.endpoint := by
  cases o <;> rfl

theorem set_allowedip_key (p : DPeer) (a : AllowedipAttrs) :
    (set_allowedip p a).2.1.public_key = p.public_key := by
  unfold set_allowedip
  split
  · split <;> first | rfl | (split <;> rfl)
  · rfl

theorem set_allowedip_endpoint (p : DPeer) (a : AllowedipAttrs) :
    (set_allowedip p a).2.1.endpoint = p.endpoint := by
  unfold set_allowedip
  split
  · split <;> first | rfl | (split <;> rfl)
  · rfl

theorem allowedips_loop_key (l : List AllowedipAttrs) :
    ∀ p, (allowedips_loop p l).2.1.public_key = p.public_key := by
  induction l with
  | nil => intro p; rfl
  | cons a rest ih =>
    intro p
    simp only [allowedips_loop]
    split
    · rfl
    · rcases hsp : set_allowedip p a with ⟨r2, p2, e2⟩
      have hk : p2.public_key = p.public_key := by
        have := set_allowedip_key p a
        rw [hsp] at this
        exact this
      split
      · simpa using hk
      · rcases hrec : allowedips_loop p2 rest with ⟨r3, p3, e3⟩
        have := ih p2
        rw [hrec] at this
        simp only at this
        simp only
        rw [this, hk]

theorem allowedips_loop_endpoint (l : List AllowedipAttrs) :
    ∀ p, (allowedips_loop p l).2.1.endpoint = p.endpoint := by
  induction l with
  | nil => intro p; rfl
  | cons a rest ih =>
    intro p
    simp only [allowedips_loop]
    split
    · rfl
    · rcases hsp : set_allowedip p a with ⟨r2, p2, e2⟩
      have hk : p2.endpoint = p.endpoint := by
        have := set_allowedip_endpoint p a
        rw [hsp] at this
        exact this
      split
      · simpa using hk
      · rcases hrec : allowedips_loop p2 rest with ⟨r3, p3, e3⟩
        have := ih p2
        rw [hrec] at this
        simp only at this
        simp only
        rw [this, hk]

theorem mem_replace_peer (l : List DPeer) (pk : List Nat) (x q : DPeer)
    (hq : q ∈ replace_peer l pk x) : q = x ∨ q ∈ l := by
  induction l with
  | nil => simp [replace_peer] at hq
  | cons p ps ih =>
    simp only [replace_peer] at hq
    by_cases h : p.public_key == pk
    · rw [if_pos h] at hq
      rcases List.mem_cons.mp hq with rfl | h2
      · exact Or.inl rfl
      · exact Or.inr (List.mem_cons_of_mem _ h2)
    · rw [if_neg h] at hq
      rcases List.mem_cons.mp hq with rfl | h2
      · exact Or.inr (List.mem_cons_self _ _)
      · rcases ih h2 with h3 | h3
        · exact Or.inl h3
        · exact Or.inr (List.mem_cons_of_mem _ h3)



theorem set_peer_with_endpoint_congr (wg : Device) (peers0 : List DPeer)
    (peer : DPeer) (a a2 : PeerAttrs) (psk : Option (List Nat)) (flags : Nat)
    (evs0 : List Ev)
    (hend : ∀ p : DPeer, peer_apply_endpoint p a.endpoint = peer_apply_endpoint p a2.endpoint)
    (hai : a.allowedips = a2.allowedips)
    (hka : a.persistent_keepalive_interval = a2.persistent_keepalive_interval) :
    set_peer_with wg peers0 peer a psk flags evs0 =
      { set_peer_with wg peers0 peer a2 psk flags evs0 with msg := zeroPsk a } := by
  simp only [set_peer_with, hend, hai, hka]
  split
  · rfl
  · rcases h1 : peer_apply_psk peer psk with ⟨p1, ev1⟩
    rcases h2 : peer_apply_endpoint p1 a2.endpoint with ⟨p2, ev2⟩
    rcases h3 : peer_apply_replace_aips p2 flags with ⟨p3, ev3⟩
    rcases h4 : allowedips_loop p3 (a2.allowedips.getD []) with ⟨r4, p4, ev4⟩
    simp only [h1, h2, h3, h4]
    split
    · rfl
    · rcases h5 : peer_apply_keepalive wg.netif_running p4 a2.persistent_keepalive_interval with ⟨p5, ev5⟩
      simp [h5]

theorem set_peer_bad_endpoint (wg : Device) (a : PeerAttrs) (e : Sockaddr)
    (hep : a.endpoint = some e)
    (hbadb : ((e.bytes.length == SOCKADDR_IN_LEN && e.sa_family == AF_INET) ||
              (e.bytes.length == SOCKADDR_IN6_LEN && e.sa_family == AF_INET6)) = false) :
    set_peer wg a =
      { set_peer wg { a with endpoint := none } with msg := zeroPsk a } := by
  have hend0 : ∀ p : DPeer, peer_apply_endpoint p a.endpoint = peer_apply_endpoint p none := by
    intro p
    rw [hep]
    simp [peer_apply_endpoint, hbadb]
  have hzp : zeroPsk { a with endpoint := none } = { zeroPsk a with endpoint := none } := rfl
  have hpsk : psk_of_attrs { a with endpoint := none } = psk_of_attrs a := rfl
  simp only [set_peer, hzp, hpsk]
  cases hapk : a.public_key with
  | none => rfl
  | some pk =>
    by_cases hlen : pk.length ≠ NOISE_PUBLIC_KEY_LEN
    · simp only [if_pos hlen]
    · simp only [if_neg hlen]
      cases hlu : pubkey_hashtable_lookup wg.peers pk with
      | none =>
        by_cases hrm : (a.flags.getD 0) &&& WGPEER_F_REMOVE_ME ≠ 0
        · simp only [if_pos hrm]
        · simp only [if_neg hrm]
          by_cases hself : wg.has_identity && pk == wg.static_public
          · simp only [if_pos hself]
          · simp only [if_neg hself]
            exact set_peer_with_endpoint_congr wg _ _ a _ _ _ _ hend0 rfl rfl
      | some peer =>
        exact set_peer_with_endpoint_congr wg _ _ a _ _ _ _ hend0 rfl rfl



theorem set_peer_with_endpoint_none_preserves (wg : Device) (base : List DPeer)
    (peers0 : List DPeer) (peer : DPeer) (a : PeerAttrs)
    (psk : Option (List Nat)) (flags : Nat) (evs0 : List Ev)
    (hep : a.endpoint = none)
    (hpeers0 : ∀ q ∈ peers0, q.endpoint = none ∨ ∃ p ∈ base, q.endpoint = p.endpoint)
    (hpeer : peer.endpoint = none ∨ ∃ p ∈ base, peer.endpoint = p.endpoint) :
    ∀ q ∈ (set_peer_with wg peers0 peer a psk flags evs0).dev.peers,
      q.endpoint = none ∨ ∃ p ∈ base, q.endpoint = p.endpoint := by
  unfold set_peer_with
  split
  · intro q hq
    simp only at hq
    exact hpeers0 q (List.mem_of_mem_eraseP hq)
  · rw [hep]
    rcases h1 : peer_apply_psk peer psk with ⟨p1, ev1⟩
    rcases h2 : peer_apply_replace_aips p1 flags with ⟨p2, ev2⟩
    rcases h4 : allowedips_loop p2 (a.allowedips.getD []) with ⟨r4, p4, ev4⟩
    have he1 : p1.endpoint = peer.endpoint := by
      have := peer_apply_psk_endpoint peer psk
      rw [h1] at this
      exact this
    have he2 : p2.endpoint = p1.endpoint := by
      have := peer_apply_replace_aips_endpoint p1 flags
      rw [h2] at this
      exact this
    have he4 : p4.endpoint = p2.endpoint := by
      have := allowedips_loop_endpoint (a.allowedips.getD []) p2
      rw [h4] at this
      exact this
    have hp4 : p4.endpoint = none ∨ ∃ p ∈ base, p4.endpoint = p.endpoint := by
      rw [he4, he2, he1]
      exact hpeer
    simp only [peer_apply_endpoint, h1, h2, h4]
    split
    · intro q hq
      simp only at hq
      rcases mem_replace_peer peers0 p4.public_key p4 q hq with rfl | hmem
      · exact hp4
      · exact hpeers0 q hmem
    · rcases h5 : peer_apply_keepalive wg.netif_running p4 a.persistent_keepalive_interval with ⟨p5, ev5⟩
      have he5 : p5.endpoint = p4.endpoint := by
        have := peer_apply_keepalive_endpoint wg.netif_running p4 a.persistent_keepalive_interval
        rw [h5] at this
        exact this
      intro q hq
      simp only [h5] at hq
      rcases mem_replace_peer peers0 p5.public_key p5 q hq with rfl | hmem
      · rw [he5]
        exact hp4
      · exact hpeers0 q hmem



theorem lookup_mem (peers : List DPeer) (pk : List Nat) (peer : DPeer)
    (h : pubkey_hashtable_lookup peers pk = some peer) : peer ∈ peers :=
  List.mem_of_find?_eq_some h

theorem set_peer_endpoint_none_preserves (wg : Device) (a : PeerAttrs)
    (hep : a.endpoint = none) :
    ∀ q ∈ (set_peer wg a).dev.peers,
      q.endpoint = none ∨ ∃ p ∈ wg.peers, q.endpoint = p.endpoint := by
  simp only [set_peer]
  cases hapk : a.public_key with
  | none => exact fun q hq => Or.inr ⟨q, hq, rfl⟩
  | some pk =>
    by_cases hlen : pk.length ≠ NOISE_PUBLIC_KEY_LEN
    · simp only [if_pos hlen]
      exact fun q hq => Or.inr ⟨q, hq, rfl⟩
    · simp only [if_neg hlen]
      cases hlu : pubkey_hashtable_lookup wg.peers pk with
      | none =>
        by_cases hrm : (a.flags.getD 0) &&& WGPEER_F_REMOVE_ME ≠ 0
        · simp only [if_pos hrm]
          exact fun q hq => Or.inr ⟨q, hq, rfl⟩
        · simp only [if_neg hrm]
          by_cases hself : wg.has_identity && pk == wg.static_public
          · simp only [if_pos hself]
            exact fun q hq => Or.inr ⟨q, hq, rfl⟩
          · simp only [if_neg hself]
            apply set_peer_with_endpoint_none_preserves wg wg.peers _ _ a _ _ _ hep
            · intro q hq
              rcases List.mem_append.mp hq with h | h
              · exact Or.inr ⟨q, h, rfl⟩
              · simp only [List.mem_singleton] at h
                subst h
                exact Or.inl rfl
            · exact Or.inl rfl
      | some peer =>
        apply set_peer_with_endpoint_none_preserves wg wg.peers _ _ a _ _ _ hep
        · exact fun q hq => Or.inr ⟨q, hq, rfl⟩
        · exact Or.inr ⟨peer, lookup_mem wg.peers pk peer hlu, rfl⟩

/-! ## Claim C10 -/

/-- C10: a peer update carrying an endpoint attribute whose address family
is unsupported or whose length does not match that family's sockaddr size
behaves exactly like the same update without the endpoint attribute — same
return code, same device, same collaborator calls (so no error and all
remaining fields and entries are still processed) — and no peer ends up
with an endpoint other than an unchanged stored one. -/
theorem C10_bad_endpoint_ignored (wg : Device) (a : PeerAttrs) (e : Sockaddr)
    (hep : a.endpoint = some e)
    (hbad : ¬((e.bytes.length = SOCKADDR_IN_LEN ∧ e.sa_family = AF_INET) ∨
              (e.bytes.length = SOCKADDR_IN6_LEN ∧ e.sa_family = AF_INET6))) :
    (set_peer wg a).ret = (set_peer wg { a with endpoint := none }).ret ∧
    (set_peer wg a).dev = (set_peer wg { a with endpoint := none }).dev ∧
    (set_peer wg a).trace = (set_peer wg { a with endpoint := none }).trace ∧
    ∀ q ∈ (set_peer wg a).dev.peers,
      q.endpoint = none ∨ ∃ p ∈ wg.peers, q.endpoint = p.endpoint := by
  have hbadb : ((e.bytes.length == SOCKADDR_IN_LEN && e.sa_family == AF_INET) ||
      (e.bytes.length == SOCKADDR_IN6_LEN && e.sa_family == AF_INET6)) = false := by
    rcases Bool.eq_false_or_eq_true ((e.bytes.length == SOCKADDR_IN_LEN && e.sa_family == AF_INET) ||
      (e.bytes.length == SOCKADDR_IN6_LEN && e.sa_family == AF_INET6)) with h | h
    · exfalso
      apply hbad
      simpa using h
    · exact h
  have heq := set_peer_bad_endpoint wg a e hep hbadb
  refine ⟨by rw [heq], by rw [heq], by rw [heq], ?_⟩
  rw [heq]
  exact set_peer_endpoint_none_preserves wg { a with endpoint := none } rfl

/-- Witness: C10 at a concrete device and a concrete endpoint of family 1
and 16 bytes. -/
theorem C10_bad_endpoint_ignored_witness :
    (set_peer exDev exC10attrs).ret = (set_peer exDev { exC10attrs with endpoint := none }).ret ∧
    (set_peer exDev exC10attrs).dev = (set_peer exDev { exC10attrs with endpoint := none }).dev ∧
    (set_peer exDev exC10attrs).trace = (set_peer exDev { exC10attrs with endpoint := none }).trace ∧
    ∀ q ∈ (set_peer exDev exC10attrs).dev.peers,
      q.endpoint = none ∨ ∃ p ∈ exDev.peers, q.endpoint = p.endpoint :=
  C10_bad_endpoint_ignored exDev exC10attrs exBadEndpoint rfl (by decide)

theorem set_peer_with_dev_frame (wg : Device) (peers0 : List DPeer) (peer : DPeer)
    (a : PeerAttrs) (psk : Option (List Nat)) (flags : Nat) (evs0 : List Ev) :
    ∃ ps, (set_peer_with wg peers0 peer a psk flags evs0).dev = { wg with peers := ps } := by
  unfold set_peer_with
  split
  · exact ⟨_, rfl⟩
  · rcases h1 : peer_apply_psk peer psk with ⟨p1, ev1⟩
    rcases h2 : peer_apply_endpoint p1 a.endpoint with ⟨p2, ev2⟩
    rcases h3 : peer_apply_replace_aips p2 flags with ⟨p3, ev3⟩
    rcases h4 : allowedips_loop p3 (a.allowedips.getD []) with ⟨r4, p4, ev4⟩
    simp only [h1, h2, h3, h4]
    split
    · exact ⟨_, rfl⟩
    · rcases h5 : peer_apply_keepalive wg.netif_running p4 a.persistent_keepalive_interval with ⟨p5, ev5⟩
      simp only [h5]
      exact ⟨_, rfl⟩

theorem set_peer_dev_frame (wg : Device) (a : PeerAttrs) :
    ∃ ps, (set_peer wg a).dev = { wg with peers := ps } := by
  simp only [set_peer]
  cases hapk : a.public_key with
  | none => exact ⟨wg.peers, rfl⟩
  | some pk =>
    by_cases hlen : pk.length ≠ NOISE_PUBLIC_KEY_LEN
    · simp only [if_pos hlen]
      exact ⟨wg.peers, rfl⟩
    · simp only [if_neg hlen]
      cases hlu : pubkey_hashtable_lookup wg.peers pk with
      | none =>
        by_cases hrm : (a.flags.getD 0) &&& WGPEER_F_REMOVE_ME ≠ 0
        · simp only [if_pos hrm]
          exact ⟨wg.peers, rfl⟩
        · simp only [if_neg hrm]
          by_cases hself : wg.has_identity && pk == wg.static_public
          · simp only [if_pos hself]
            exact ⟨wg.peers, rfl⟩
          · simp only [if_neg hself]
            exact set_peer_with_dev_frame wg _ _ a _ _ _
      | some peer =>
        exact set_peer_with_dev_frame wg _ _ a _ _ _

theorem set_peers_loop_dev_frame (entries : List PeerAttrs) :
    ∀ wg, ∃ ps, (set_peers_loop wg entries).2.1 = { wg with peers := ps } := by
  induction entries with
  | nil => intro wg; exact ⟨wg.peers, rfl⟩
  | cons a rest ih =>
    intro wg
    simp only [set_peers_loop]
    split
    · exact ⟨wg.peers, rfl⟩
    · rcases hsp : set_peer wg a with ⟨r2, wg2, a2, ev2⟩
      obtain ⟨ps2, hps2⟩ := set_peer_dev_frame wg a
      rw [hsp] at hps2
      simp only at hps2
      split
      · exact ⟨ps2, hps2⟩
      · rcases hrec : set_peers_loop wg2 rest with ⟨r3, wg3, e3, ev3⟩
        obtain ⟨ps3, hps3⟩ := ih wg2
        rw [hrec] at hps3
        simp only at hps3
        refine ⟨ps3, ?_⟩
        simp only
        rw [hps3, hps2]

theorem stage_fwmark_gen (wg : Device) (msg : DeviceAttrs) :
    (stage_fwmark wg msg).1.device_update_gen = wg.device_update_gen ∧
    (stage_fwmark wg msg).1.ifindex = wg.ifindex := by
  unfold stage_fwmark
  cases msg.fwmark <;> exact ⟨rfl, rfl⟩

theorem set_device_port_gen (ext : Ext) (wg : Device) (port : Nat) :
    (set_device_port ext wg port).2.1.device_update_gen = wg.device_update_gen ∧
    (set_device_port ext wg port).2.1.ifindex = wg.ifindex := by
  unfold set_device_port
  split
  · exact ⟨rfl, rfl⟩
  · dsimp only
    split
    · exact ⟨rfl, rfl⟩
    · split <;> exact ⟨rfl, rfl⟩

theorem stage_port_gen (ext : Ext) (wg : Device) (msg : DeviceAttrs) :
    (stage_port ext wg msg).2.1.device_update_gen = wg.device_update_gen ∧
    (stage_port ext wg msg).2.1.ifindex = wg.ifindex := by
  unfold stage_port
  cases msg.listen_port with
  | none => exact ⟨rfl, rfl⟩
  | some p => exact set_device_port_gen ext wg p

theorem stage_replace_peers_gen (wg : Device) (msg : DeviceAttrs) :
    (stage_replace_peers wg msg).1.device_update_gen = wg.device_update_gen ∧
    (stage_replace_peers wg msg).1.ifindex = wg.ifindex := by
  unfold stage_replace_peers
  refine ⟨?_, ?_⟩ <;> (repeat' split) <;> rfl

theorem stage_private_key_gen (ext : Ext) (wg : Device) (msg : DeviceAttrs) :
    (stage_private_key ext wg msg).1.device_update_gen = wg.device_update_gen ∧
    (stage_private_key ext wg msg).1.ifindex = wg.ifindex := by
  unfold stage_private_key noise_set_static_identity_private_key
  refine ⟨?_, ?_⟩ <;> dsimp only <;> (repeat' split) <;> rfl

theorem stage_peers_dev_frame (wg : Device) (msg : DeviceAttrs) :
    ∃ ps, (stage_peers wg msg).2.1 = { wg with peers := ps } := by
  unfold stage_peers
  cases hmp : msg.peers with
  | none => exact ⟨wg.peers, rfl⟩
  | some entries =>
    dsimp only
    obtain ⟨ps, hps⟩ := set_peers_loop_dev_frame entries wg
    rcases hloop : set_peers_loop wg entries with ⟨r, wg2, e2, ev⟩
    rw [hloop] at hps
    simp only at hps
    dsimp only
    exact ⟨ps, hps⟩

theorem set_with_device_gen (ext : Ext) (wg : Device) (msg : DeviceAttrs) :
    (set_with_device ext wg msg).dev.device_update_gen = wg.device_update_gen + 1 ∧
    (set_with_device ext wg msg).dev.ifindex = wg.ifindex := by
  simp only [set_with_device]
  rcases hfw : stage_fwmark { wg with device_update_gen := wg.device_update_gen + 1 } msg with ⟨wgA, tr1⟩
  have hA := stage_fwmark_gen { wg with device_update_gen := wg.device_update_gen + 1 } msg
  rw [hfw] at hA
  rcases hport : stage_port ext wgA msg with ⟨rport, wgB, tr2⟩
  have hB := stage_port_gen ext wgA msg
  rw [hport] at hB
  dsimp only at hA hB ⊢
  split
  · exact ⟨by rw [hB.1, hA.1], by rw [hB.2, hA.2]⟩
  · rcases hrep : stage_replace_peers wgB msg with ⟨wgC, tr3⟩
    have hC := stage_replace_peers_gen wgB msg
    rw [hrep] at hC
    rcases hpk : stage_private_key ext wgC msg with ⟨wgD, tr4⟩
    have hD := stage_private_key_gen ext wgC msg
    rw [hpk] at hD
    dsimp only at hC hD
    rcases hs5 : stage_peers wgD msg with ⟨r5, wgE, msg5, tr5⟩
    obtain ⟨psE, hpsE⟩ := stage_peers_dev_frame wgD msg
    rw [hs5] at hpsE
    simp only at hpsE
    have hE : wgE.device_update_gen = wgD.device_update_gen ∧ wgE.ifindex = wgD.ifindex := by
      rw [hpsE]
      exact ⟨rfl, rfl⟩
    dsimp only
    rw [hE.1, hD.1, hC.1, hB.1, hA.1]
    refine ⟨rfl, ?_⟩
    rw [hE.2, hD.2, hC.2, hB.2, hA.2]



theorem get_chunk_dev (B : Nat) (wg : Device) (cur : DumpCursor) :
    (get_chunk B wg cur).dev = wg := by
  simp only [get_chunk]
  repeat' split
  all_goals rfl

/-- C5: the device generation counter is incremented by exactly one by
every `set` call that passes device lookup (and acquires the update lock),
whatever the call later returns; a call that fails lookup (bad selector,
unknown or non-wireguard device) leaves the registry untouched; and a dump
chunk never modifies the device. -/
theorem C5_generation_counter :
    (∀ (net : List Device) (ext : Ext) (msg : DeviceAttrs) (e : Int),
      lookup_interface net msg = .error e →
      (set net ext msg).net = net ∧ (set net ext msg).ret = e) ∧
    (∀ (net : List Device) (ext : Ext) (msg : DeviceAttrs) (wg : Device),
      lookup_interface net msg = .ok wg →
      (set net ext msg).net = replace_device net wg.ifindex (set_with_device ext wg msg).dev ∧
      (set_with_device ext wg msg).dev.device_update_gen = wg.device_update_gen + 1 ∧
      (set_with_device ext wg msg).dev.ifindex = wg.ifindex) ∧
    (∀ (B : Nat) (wg : Device) (cur : DumpCursor), (get_chunk B wg cur).dev = wg) := by
  refine ⟨?_, ?_, fun B wg cur => get_chunk_dev B wg cur⟩
  · intro net ext msg e hlk
    simp [set, hlk]
  · intro net ext msg wg hlk
    exact ⟨(set_lookup_ok_parts net ext msg wg hlk).2.1,
           (set_with_device_gen ext wg msg).1, (set_with_device_gen ext wg msg).2⟩

theorem set_peer_with_msg (wg : Device) (peers0 : List DPeer) (peer : DPeer)
    (a : PeerAttrs) (psk : Option (List Nat)) (flags : Nat) (evs0 : List Ev) :
    (set_peer_with wg peers0 peer a psk flags evs0).msg = zeroPsk a := by
  unfold set_peer_with
  repeat' split
  all_goals rfl

theorem set_peer_msg (wg : Device) (a : PeerAttrs) :
    (set_peer wg a).msg = zeroPsk a := by
  simp only [set_peer]
  repeat' split
  all_goals first | rfl | apply set_peer_with_msg

theorem set_peers_loop_msg_form (entries : List PeerAttrs) :
    ∀ wg, scrubReach wg entries ≤ entries.length ∧
      (set_peers_loop wg entries).2.2.1 =
        (entries.take (scrubReach wg entries)).map zeroPsk ++
          entries.drop (scrubReach wg entries) ∧
      ((set_peers_loop wg entries).1 = 0 →
        scrubReach wg entries = entries.length) := by
  induction entries with
  | nil =>
    intro wg
    exact ⟨by simp [scrubReach], by simp [set_peers_loop, scrubReach],
           by simp [scrubReach]⟩
  | cons a rest ih =>
    intro wg
    simp only [set_peers_loop, scrubReach]
    by_cases hp : nla_parse_nested_peer a < 0
    · refine ⟨?_, ?_, ?_⟩
      · simp [if_pos hp]
      · simp [if_pos hp]
      · simp only [if_pos hp]
        intro h0
        exact absurd h0 (by omega)
    · simp only [if_neg hp]
      rcases hsp : set_peer wg a with ⟨r2, wg2, a2, ev2⟩
      have hmsg := set_peer_msg wg a
      rw [hsp] at hmsg
      simp only at hmsg
      subst hmsg
      by_cases hr2 : r2 < 0
      · refine ⟨?_, ?_, ?_⟩

        · simp [if_pos hr2]
        · simp [if_pos hr2]
        · simp only [if_pos hr2]
          intro h0
          exact absurd h0 (by omega)
      · simp only [if_neg hr2]
        rcases hrec : set_peers_loop wg2 rest with ⟨r3, wg3, rest3, ev3⟩
        obtain ⟨hn, hform, hret⟩ := ih wg2
        rw [hrec] at hform hret
        simp only at hform hret
        have hc : 1 + scrubReach wg2 rest = scrubReach wg2 rest + 1 := by omega
        rw [hc]
        refine ⟨by simp; omega, ?_, ?_⟩
        · simp only [List.take_succ_cons, List.map_cons, List.drop_succ_cons, List.cons_append]
          rw [hform]
        · intro h0
          simp only at h0
          have := hret h0
          simp [this]



theorem lookup_interface_error_ne (net : List Device) (msg : DeviceAttrs) (e : Int)
    (h : lookup_interface net msg = .error e) : e ≠ 0 := by
  unfold lookup_interface at h
  split at h
  · injection h with h
    subst h
    decide
  · injection h with h
    subst h
    decide
  · split at h
    · injection h with h
      subst h
      decide
    · split at h
      · exact absurd h (by simp)
      · injection h with h
        subst h
        decide
  · split at h
    · injection h with h
      subst h
      decide
    · split at h
      · exact absurd h (by simp)
      · injection h with h
        subst h
        decide

theorem zeroPrivateKey_zeroed (m : DeviceAttrs) :
    zeroedOptKey (zeroPrivateKey m).private_key := by
  unfold zeroPrivateKey zeroedOptKey
  cases m.private_key with
  | none => simp
  | some k => simp

theorem set_with_device_port_fail (ext : Ext) (wg : Device) (msg : DeviceAttrs)
    (hpre : pre_peers_state ext wg msg = none) :
    (set_with_device ext wg msg).msg = msg ∧ (set_with_device ext wg msg).ret ≠ 0 := by
  simp only [pre_peers_state] at hpre
  simp only [set_with_device]
  rcases hfw : stage_fwmark { wg with device_update_gen := wg.device_update_gen + 1 } msg with ⟨wgA, tr1⟩
  rw [hfw] at hpre
  dsimp only at hpre ⊢
  rcases hport : stage_port ext wgA msg with ⟨rport, wgB, tr2⟩
  rw [hport] at hpre
  dsimp only at hpre ⊢
  by_cases hr : rport ≠ 0
  · simp [if_pos hr, hr]
  · rw [if_neg hr] at hpre
    exact absurd hpre (by simp)

theorem set_with_device_no_peers (ext : Ext) (wg wgD : Device) (msg : DeviceAttrs)
    (hpre : pre_peers_state ext wg msg = some wgD)
    (hpeers : msg.peers = none) :
    (set_with_device ext wg msg).msg = msg ∧ (set_with_device ext wg msg).ret = 0 := by
  simp only [pre_peers_state] at hpre
  simp only [set_with_device, stage_peers]
  rcases hfw : stage_fwmark { wg with device_update_gen := wg.device_update_gen + 1 } msg with ⟨wgA, tr1⟩
  rw [hfw] at hpre
  dsimp only at hpre ⊢
  rcases hport : stage_port ext wgA msg with ⟨rport, wgB, tr2⟩
  rw [hport] at hpre
  dsimp only at hpre ⊢
  by_cases hr : rport ≠ 0
  · rw [if_pos hr] at hpre
    exact absurd hpre (by simp)
  · simp [if_neg hr, hpeers]

/-- C1 (amended): on every exit path of `set` the private-key attribute
buffer is scrubbed to zero bytes; a peer entry's preshared-key buffer is
scrubbed iff processing reached that entry's `set_peer` call: exactly the
first `setScrubReach` entries of the batch are scrubbed — by `scrubReach`'s
definition the whole batch when the loop succeeds (forced here by
`ret = 0`), the prefix up to and including the first failing entry when
`set_peer` aborts the loop, nothing of a parse-failed entry or of the
entries behind an abort, and nothing at all when the call aborts before
the peer loop. -/
theorem C1_key_scrub_on_exit (net : List Device) (ext : Ext) (msg : DeviceAttrs) :
    zeroedOptKey ((set net ext msg).msg.private_key) ∧
    (msg.peers = none → (set net ext msg).msg.peers = none) ∧
    ∀ l, msg.peers = some l →
      setScrubReach net ext msg ≤ l.length ∧
      (set net ext msg).msg.peers =
        some ((l.take (setScrubReach net ext msg)).map zeroPsk ++
          l.drop (setScrubReach net ext msg)) ∧
      ((set net ext msg).ret = 0 → setScrubReach net ext msg = l.length) := by
  cases hlk : lookup_interface net msg with
  | error e =>
    have hne := lookup_interface_error_ne net msg e hlk
    have hsr : setScrubReach net ext msg = 0 := by
      simp [setScrubReach, hlk]
    refine ⟨?_, ?_, ?_⟩
    · simp only [set, hlk]
      exact zeroPrivateKey_zeroed msg
    · intro hp
      simp [set, hlk, zeroPrivateKey, hp]
    · intro l hp
      rw [hsr]
      refine ⟨by simp, ?_, ?_⟩
      · simp [set, hlk, zeroPrivateKey, hp]
      · intro h0
        exfalso
        apply hne
        simp only [set, hlk] at h0
        exact h0.symm ▸ rfl
  | ok wg =>
    have hparts := set_lookup_ok_parts net ext msg wg hlk
    cases hpre : pre_peers_state ext wg msg with
    | none =>
      have hpf := set_with_device_port_fail ext wg msg hpre
      have hsr : setScrubReach net ext msg = 0 := by
        simp [setScrubReach, hlk, hpre]
      refine ⟨?_, ?_, ?_⟩
      · rw [hparts.2.2.1]
        exact zeroPrivateKey_zeroed _
      · intro hp
        rw [hparts.2.2.1, hpf.1]
        simp [zeroPrivateKey, hp]
      · intro l hp
        rw [hsr]
        refine ⟨by simp, ?_, ?_⟩
        · rw [hparts.2.2.1, hpf.1]
          simp [zeroPrivateKey, hp]
        · intro h0
          exfalso
          apply hpf.2
          rw [← hparts.1]
          exact h0
    | some wgD =>
      cases hmp : msg.peers with
      | none =>
        have hnp := set_with_device_no_peers ext wg wgD msg hpre hmp
        refine ⟨?_, ?_, ?_⟩
        · rw [hparts.2.2.1]
          exact zeroPrivateKey_zeroed _
        · intro _
          rw [hparts.2.2.1, hnp.1]
          simp [zeroPrivateKey, hmp]
        · intro l hp
          exact absurd hp (by simp)
      | some l =>
        have hbr := set_with_device_peers_bridge ext wg wgD msg l hpre hmp
        obtain ⟨hn, hform, hret⟩ := set_peers_loop_msg_form l wgD
        have hsr : setScrubReach net ext msg = scrubReach wgD l := by
          simp [setScrubReach, hlk, hpre, hmp]
        refine ⟨?_, ?_, ?_⟩
        · rw [hparts.2.2.1]
          exact zeroPrivateKey_zeroed _
        · intro hp
          exact absurd hp (by simp)
        · intro l2 hp
          injection hp with hp
          subst hp
          rw [hsr]
          refine ⟨hn, ?_, ?_⟩
          · rw [hparts.2.2.1, hbr.2.2]
            simp [zeroPrivateKey, hform]
          · intro h0
            apply hret
            rw [← hbr.1, ← hparts.1]
            exact h0



/-- C1 fails as stated: an ApplyConfig batch that aborts at a failing peer
entry (here: removal of an absent peer) returns with a later entry's
preshared-key buffer still holding its key bytes — the scrub in `set_peer`
runs only for entries that were reached. -/
theorem C1_counterexample :
    (set [exDev] extC exC1msg).ret = -ENODEV ∧
    ¬ allKeyBuffersZeroed ((set [exDev] extC exC1msg).msg) := by decide

theorem mem_eraseP_of_mem (l : List DPeer) (f : DPeer → Bool) (q : DPeer)
    (hq : q ∈ l.eraseP f) : q ∈ l :=
  List.mem_of_mem_eraseP hq

theorem find?_key_eq (peers : List DPeer) (pk : List Nat) (peer : DPeer)
    (h : pubkey_hashtable_lookup peers pk = some peer) : peer.public_key = pk := by
  have := List.find?_some h
  simpa using this

theorem find?_none_keys (peers : List DPeer) (pk : List Nat)
    (h : pubkey_hashtable_lookup peers pk = none) :
    ∀ q ∈ peers, q.public_key ≠ pk := by
  intro q hq
  have := List.find?_eq_none.mp h q hq
  simpa using this

theorem eraseP_key_gone (peers : List DPeer) (pub : List Nat) (peer0 : DPeer)
    (hu : (peers.map DPeer.public_key).Nodup)
    (hfind : pubkey_hashtable_lookup peers pub = some peer0) :
    ∀ q ∈ peers.eraseP (fun p => p.public_key == peer0.public_key),
      q.public_key ≠ pub := by
  have hkey : peer0.public_key = pub := find?_key_eq peers pub peer0 hfind
  induction peers with
  | nil => simp [List.eraseP]
  | cons p ps ih =>
    simp only [List.map_cons, List.nodup_cons] at hu
    unfold pubkey_hashtable_lookup at hfind
    simp only [List.find?] at hfind
    by_cases hp : p.public_key == pub
    · rw [hp] at hfind
      simp only at hfind
      injection hfind with hfind
      subst hfind
      intro q hq
      rw [List.eraseP_cons_of_pos (by simp)] at hq
      intro hqpub
      apply hu.1
      rw [hkey, ← hqpub]
      exact List.mem_map_of_mem DPeer.public_key hq
    · have hp2 : (p.public_key == pub) = false := by simpa using hp
      rw [hp2] at hfind
      simp only at hfind
      intro q hq
      have hpne : ¬(p.public_key == peer0.public_key) := by
        rw [hkey]
        exact hp
      rw [List.eraseP_cons_of_neg (by simpa using hpne)] at hq
      rcases List.mem_cons.mp hq with rfl | hq2
      · simpa using hp
      · exact ih hu.2 hfind q hq2



theorem set_peer_with_keys (wg : Device) (peers0 : List DPeer) (peer : DPeer)
    (a : PeerAttrs) (psk : Option (List Nat)) (flags : Nat) (evs0 : List Ev) :
    ∀ q ∈ (set_peer_with wg peers0 peer a psk flags evs0).dev.peers,
      q.public_key = peer.public_key ∨ q.public_key ∈ peers0.map DPeer.public_key := by
  unfold set_peer_with
  split
  · intro q hq
    simp only at hq
    exact Or.inr (List.mem_map_of_mem _ (List.mem_of_mem_eraseP hq))
  · rcases h1 : peer_apply_psk peer psk with ⟨p1, ev1⟩
    rcases h2 : peer_apply_endpoint p1 a.endpoint with ⟨p2, ev2⟩
    rcases h3 : peer_apply_replace_aips p2 flags with ⟨p3, ev3⟩
    rcases h4 : allowedips_loop p3 (a.allowedips.getD []) with ⟨r4, p4, ev4⟩
    have hk1 : p1.public_key = peer.public_key := by
      have := peer_apply_psk_key peer psk
      rw [h1] at this
      exact this
    have hk2 : p2.public_key = p1.public_key := by
      have := peer_apply_endpoint_key p1 a.endpoint
      rw [h2] at this
      exact this
    have hk3 : p3.public_key = p2.public_key := by
      have := peer_apply_replace_aips_key p2 flags
      rw [h3] at this
      exact this
    have hk4 : p4.public_key = p3.public_key := by
      have := allowedips_loop_key (a.allowedips.getD []) p3
      rw [h4] at this
      exact this
    simp only [h1, h2, h3, h4]
    split
    · intro q hq
      simp only at hq
      rcases mem_replace_peer peers0 p4.public_key p4 q hq with rfl | hmem
      · exact Or.inl (by rw [hk4, hk3, hk2, hk1])
      · exact Or.inr (List.mem_map_of_mem _ hmem)
    · rcases h5 : peer_apply_keepalive wg.netif_running p4 a.persistent_keepalive_interval with ⟨p5, ev5⟩
      have hk5 : p5.public_key = p4.public_key := by
        have := peer_apply_keepalive_key wg.netif_running p4 a.persistent_keepalive_interval
        rw [h5] at this
        exact this
      intro q hq
      simp only [h5] at hq
      rcases mem_replace_peer peers0 p5.public_key p5 q hq with rfl | hmem
      · exact Or.inl (by rw [hk5, hk4, hk3, hk2, hk1])
      · exact Or.inr (List.mem_map_of_mem _ hmem)

theorem set_peer_keys_cases (wg : Device) (a : PeerAttrs) :
    ∀ q ∈ (set_peer wg a).dev.peers,
      q.public_key ∈ wg.peers.map DPeer.public_key ∨
      (∃ pk, a.public_key = some pk ∧ q.public_key = pk ∧
        pubkey_hashtable_lookup wg.peers pk = none ∧
        (wg.has_identity && pk == wg.static_public) = false) := by
  simp only [set_peer]
  cases hapk : a.public_key with
  | none => exact fun q hq => Or.inl (List.mem_map_of_mem _ hq)
  | some pk =>
    by_cases hlen : pk.length ≠ NOISE_PUBLIC_KEY_LEN
    · simp only [if_pos hlen]
      exact fun q hq => Or.inl (List.mem_map_of_mem _ hq)
    · simp only [if_neg hlen]
      cases hlu : pubkey_hashtable_lookup wg.peers pk with
      | none =>
        by_cases hrm : (a.flags.getD 0) &&& WGPEER_F_REMOVE_ME ≠ 0
        · simp only [if_pos hrm]
          exact fun q hq => Or.inl (List.mem_map_of_mem _ hq)
        · simp only [if_neg hrm]
          by_cases hself : wg.has_identity && pk == wg.static_public
          · simp only [if_pos hself]
            exact fun q hq => Or.inl (List.mem_map_of_mem _ hq)
          · simp only [if_neg hself]
            intro q hq
            rcases set_peer_with_keys wg (wg.peers ++ [peer_create_obj pk (psk_of_attrs a)])
              (peer_create_obj pk (psk_of_attrs a)) a (psk_of_attrs a) (a.flags.getD 0)
              [Ev.peer_created pk] q hq with hk | hk
            · exact Or.inr ⟨pk, rfl, hk, hlu, by simpa using hself⟩
            · rw [List.map_append] at hk
              rcases List.mem_append.mp hk with hk2 | hk2
              · exact Or.inl hk2
              · simp only [List.map_cons, List.map_nil, List.mem_singleton] at hk2
                exact Or.inr ⟨pk, rfl, hk2, hlu, by simpa using hself⟩
      | some peer =>
        intro q hq
        rcases set_peer_with_keys wg wg.peers peer a (psk_of_attrs a) (a.flags.getD 0) [] q hq with hk | hk
        · rw [hk]
          exact Or.inl (List.mem_map_of_mem _ (lookup_mem wg.peers pk peer hlu))
        · exact Or.inl hk

theorem set_peer_no_self (wg : Device) (a : PeerAttrs) (hn : NoSelfPeer wg) :
    NoSelfPeer (set_peer wg a).dev := by
  obtain ⟨ps, hframe⟩ := set_peer_dev_frame wg a
  intro hid q hq
  have hid2 : wg.has_identity = true := by
    rw [hframe] at hid
    exact hid
  rcases set_peer_keys_cases wg a q hq with hmem | ⟨pk, hpk, hqk, hlu, hcond⟩
  · obtain ⟨p0, hp0, hkey⟩ := List.mem_map.mp hmem
    have hne := hn hid2 p0 hp0
    rw [hframe]
    simp only
    rw [← hkey]
    exact hne
  · rw [hid2] at hcond
    simp only [Bool.true_and, beq_eq_false_iff_ne] at hcond
    rw [hframe]
    simp only
    rw [hqk]
    exact hcond



theorem set_peers_loop_no_self (entries : List PeerAttrs) :
    ∀ wg, NoSelfPeer wg → NoSelfPeer (set_peers_loop wg entries).2.1 := by
  induction entries with
  | nil => exact fun wg hn => hn
  | cons a rest ih =>
    intro wg hn
    simp only [set_peers_loop]
    split
    · exact hn
    · rcases hsp : set_peer wg a with ⟨r2, wg2, a2, ev2⟩
      have hn2 : NoSelfPeer wg2 := by
        have := set_peer_no_self wg a hn
        rw [hsp] at this
        exact this
      split
      · exact hn2
      · rcases hrec : set_peers_loop wg2 rest with ⟨r3, wg3, e3, ev3⟩
        have := ih wg2 hn2
        rw [hrec] at this
        exact this

theorem stage_private_key_no_self (ext : Ext) (wg : Device) (msg : DeviceAttrs)
    (hu : UniquePeerKeys wg) (hn : NoSelfPeer wg) :
    NoSelfPeer (stage_private_key ext wg msg).1 := by
  unfold stage_private_key
  cases hpkm : msg.private_key with
  | none => exact hn
  | some k =>
    by_cases hlen : (k.length == NOISE_PUBLIC_KEY_LEN) = true
    · simp only [hlen, if_true, if_pos]
      cases hlu : pubkey_hashtable_lookup wg.peers
          ((ext.curve25519_generate_public k).getD (List.replicate NOISE_PUBLIC_KEY_LEN 0)) with
      | none =>
        dsimp only
        unfold noise_set_static_identity_private_key
        cases hcv : ext.curve25519_generate_public k with
        | none =>
          dsimp only
          intro hid q hq
          simp at hid
        | some pub =>
          dsimp only
          intro hid q hq
          simp only at hq hid ⊢
          have hq2 := List.mem_filter.mp hq
          have hkne := find?_none_keys wg.peers _ hlu q hq2.1
          rw [hcv] at hkne
          simpa using hkne
      | some peer0 =>
        dsimp only
        unfold noise_set_static_identity_private_key
        cases hcv : ext.curve25519_generate_public k with
        | none =>
          dsimp only
          intro hid q hq
          simp at hid
        | some pub =>
          dsimp only
          intro hid q hq
          simp only at hq hid ⊢
          have hq2 := List.mem_filter.mp hq
          have hkne := eraseP_key_gone wg.peers _ peer0 hu hlu q hq2.1
          rw [hcv] at hkne
          simpa using hkne
    · simp only [hlen]
      exact hn



theorem stage_fwmark_no_self (wg : Device) (msg : DeviceAttrs)
    (hn : NoSelfPeer wg) (hu : UniquePeerKeys wg) :
    NoSelfPeer (stage_fwmark wg msg).1 ∧ UniquePeerKeys (stage_fwmark wg msg).1 := by
  unfold stage_fwmark
  cases msg.fwmark with
  | none => exact ⟨hn, hu⟩
  | some v => exact ⟨fun hid q hq => hn hid q hq, hu⟩

theorem stage_port_no_self (ext : Ext) (wg : Device) (msg : DeviceAttrs)
    (hn : NoSelfPeer wg) (hu : UniquePeerKeys wg) :
    NoSelfPeer (stage_port ext wg msg).2.1 ∧ UniquePeerKeys (stage_port ext wg msg).2.1 := by
  unfold stage_port set_device_port
  cases msg.listen_port with
  | none => exact ⟨hn, hu⟩
  | some p =>
    dsimp only
    split
    · exact ⟨hn, hu⟩
    · split
      · exact ⟨fun hid q hq => hn hid q hq, hu⟩
      · split <;> exact ⟨fun hid q hq => hn hid q hq, hu⟩

theorem stage_replace_peers_no_self (wg : Device) (msg : DeviceAttrs)
    (hn : NoSelfPeer wg) (hu : UniquePeerKeys wg) :
    NoSelfPeer (stage_replace_peers wg msg).1 ∧ UniquePeerKeys (stage_replace_peers wg msg).1 := by
  unfold stage_replace_peers
  cases msg.flags with
  | none => exact ⟨hn, hu⟩
  | some f =>
    by_cases h : f &&& WGDEVICE_F_REPLACE_PEERS ≠ 0
    · simp only [if_pos h]
      refine ⟨fun hid q hq => absurd hq (by simp), ?_⟩
      unfold UniquePeerKeys
      simp
    · simp only [if_neg h]
      exact ⟨hn, hu⟩

theorem stage_peers_no_self (wg : Device) (msg : DeviceAttrs) (hn : NoSelfPeer wg) :
    NoSelfPeer (stage_peers wg msg).2.1 := by
  unfold stage_peers
  cases hmp : msg.peers with
  | none => exact hn
  | some entries =>
    dsimp only
    have hloop := set_peers_loop_no_self entries wg hn
    rcases hlp : set_peers_loop wg entries with ⟨rl, wgl, el, evl⟩
    rw [hlp] at hloop
    exact hloop

/-- C9: an ApplyConfig body never leaves the device with a peer whose
public key equals the device's own current public key: peer creation
refuses self-keyed peers, and installing a new private key first removes
the peer carrying the key derived from it.  Preservation holds for every
well-formed device (pairwise-distinct peer keys, no pre-existing
self-keyed peer). -/
theorem C9_no_self_peer_preserved (ext : Ext) (wg : Device) (msg : DeviceAttrs)
    (hu : UniquePeerKeys wg) (hn : NoSelfPeer wg) :
    NoSelfPeer (set_with_device ext wg msg).dev := by
  simp only [set_with_device]
  rcases hfw : stage_fwmark { wg with device_update_gen := wg.device_update_gen + 1 } msg with ⟨wgA, tr1⟩
  have hA := stage_fwmark_no_self { wg with device_update_gen := wg.device_update_gen + 1 } msg
    (fun hid q hq => hn hid q hq) hu
  rw [hfw] at hA
  dsimp only at hA ⊢
  rcases hport : stage_port ext wgA msg with ⟨rport, wgB, tr2⟩
  have hB := stage_port_no_self ext wgA msg hA.1 hA.2
  rw [hport] at hB
  dsimp only at hB ⊢
  split
  · exact hB.1
  · rcases hrep : stage_replace_peers wgB msg with ⟨wgC, tr3⟩
    have hC := stage_replace_peers_no_self wgB msg hB.1 hB.2
    rw [hrep] at hC
    dsimp only at hC
    rcases hpk : stage_private_key ext wgC msg with ⟨wgD, tr4⟩
    have hD := stage_private_key_no_self ext wgC msg hC.2 hC.1
    rw [hpk] at hD
    dsimp only at hD
    rcases hs5 : stage_peers wgD msg with ⟨r5, wgE, msg5, tr5⟩
    have hE := stage_peers_no_self wgD msg hD
    rw [hs5] at hE
    exact hE



/-- Witness: C9 at a concrete device (identity, empty peer list) and a
batch that installs a key and adds/removes peers. -/
theorem C9_no_self_peer_preserved_witness :
    NoSelfPeer (set_with_device extC exDev exC1msg).dev :=
  C9_no_self_peer_preserved extC exDev exC1msg (by simp [UniquePeerKeys, exDev])
    (fun _ p hp => absurd hp (by simp [exDev]))


theorem StageBound.append {tr1 tr2 : List Ev} {i : Nat}
    (h1 : StageBound tr1 i) (h2 : StageBound tr2 i) : StageBound (tr1 ++ tr2) i := by
  intro e he
  rcases List.mem_append.mp he with h | h
  · exact h1 e h
  · exact h2 e h

theorem stageBound_map_clear_src (l : List DPeer) (i : Nat) :
    StageBound (l.map (fun p => Ev.clear_src p.public_key)) i := by
  intro e he
  obtain ⟨p, _, rfl⟩ := List.mem_map.mp he
  exact Or.inl rfl

theorem stage_fwmark_trace (wg : Device) (msg : DeviceAttrs) :
    StageBound (stage_fwmark wg msg).2 1 := by
  unfold stage_fwmark
  cases msg.fwmark with
  | none => intro e he; simp at he
  | some v =>
    intro e he
    rcases List.mem_cons.mp he with rfl | he2
    · exact Or.inr rfl
    · exact stageBound_map_clear_src wg.peers 1 e he2

theorem stage_port_trace (ext : Ext) (wg : Device) (msg : DeviceAttrs) :
    StageBound (stage_port ext wg msg).2.2 2 := by
  unfold stage_port set_device_port
  cases msg.listen_port with
  | none => intro e he; simp at he
  | some p =>
    dsimp only
    split
    · intro e he; simp at he
    · split
      · intro e he
        simp only [List.append_assoc, List.mem_append, List.mem_singleton] at he
        rcases he with rfl | he
        · exact Or.inr rfl
        rcases he with rfl | he
        · exact Or.inr rfl
        · exact stageBound_map_clear_src _ 2 e he
      · split <;>
        · intro e he
          simp only [List.append_assoc, List.mem_append, List.mem_singleton] at he
          rcases he with rfl | he
          · exact Or.inr rfl
          rcases he with rfl | he
          · exact Or.inr rfl
          rcases he with he | rfl
          · exact stageBound_map_clear_src _ 2 e he
          · exact Or.inr rfl

theorem stage_replace_peers_trace (wg : Device) (msg : DeviceAttrs) :
    StageBound (stage_replace_peers wg msg).2 3 := by
  unfold stage_replace_peers
  cases msg.flags with
  | none => intro e he; simp at he
  | some f =>
    by_cases h : f &&& WGDEVICE_F_REPLACE_PEERS ≠ 0
    · simp only [if_pos h]
      intro e he
      rcases List.mem_cons.mp he with rfl | he2
      · exact Or.inr rfl
      · obtain ⟨p, _, rfl⟩ := List.mem_map.mp he2
        exact Or.inl rfl
    · simp only [if_neg h]
      intro e he
      simp at he

theorem stage_private_key_trace (ext : Ext) (wg : Device) (msg : DeviceAttrs) :
    StageBound (stage_private_key ext wg msg).2 4 := by
  unfold stage_private_key
  cases msg.private_key with
  | none => intro e he; simp at he
  | some k =>
    cases hc : (k.length == NOISE_PUBLIC_KEY_LEN) with
    | false =>
      simp only [hc, Bool.false_eq_true, if_false]
      intro e he
      simp at he
    | true =>
      simp only [hc, if_true]
      cases hlu : pubkey_hashtable_lookup wg.peers
          ((ext.curve25519_generate_public k).getD (List.replicate NOISE_PUBLIC_KEY_LEN 0)) with
      | none =>
        dsimp only
        intro e he
        simp only [List.nil_append, List.append_assoc, List.mem_append, List.mem_singleton] at he
        rcases he with rfl | he
        · exact Or.inr rfl
        rcases he with he | he
        · obtain ⟨p, _, rfl⟩ := List.mem_map.mp he
          exact Or.inr rfl
        rcases he with he | rfl
        · obtain ⟨p, _, rfl⟩ := List.mem_map.mp he
          exact Or.inl rfl
        · exact Or.inr rfl
      | some peer0 =>
        dsimp only
        intro e he
        simp only [List.append_assoc, List.mem_append, List.mem_singleton] at he
        rcases he with rfl | he
        · exact Or.inl rfl
        rcases he with rfl | he
        · exact Or.inr rfl
        rcases he with he | he
        · obtain ⟨p, _, rfl⟩ := List.mem_map.mp he
          exact Or.inr rfl
        rcases he with he | rfl
        · obtain ⟨p, _, rfl⟩ := List.mem_map.mp he
          exact Or.inl rfl
        · exact Or.inr rfl



theorem set_allowedip_trace (peer : DPeer) (a : AllowedipAttrs) :
    StageBound (set_allowedip peer a).2.2 5 := by
  unfold set_allowedip
  repeat' split
  all_goals intro e he
  all_goals simp only [List.mem_singleton] at he
  all_goals first
    | exact absurd he (by simp)
    | (subst he; exact Or.inr rfl)

theorem allowedips_loop_trace (l : List AllowedipAttrs) :
    ∀ peer, StageBound (allowedips_loop peer l).2.2 5 := by
  induction l with
  | nil => intro peer e he; simp [allowedips_loop] at he
  | cons a rest ih =>
    intro peer
    simp only [allowedips_loop]
    split
    · intro e he; simp at he
    · rcases hsp : set_allowedip peer a with ⟨r2, p2, ev2⟩
      have h2 := set_allowedip_trace peer a
      rw [hsp] at h2
      split
      · exact h2
      · rcases hrec : allowedips_loop p2 rest with ⟨r3, p3, ev3⟩
        have h3 := ih p2
        rw [hrec] at h3
        exact StageBound.append h2 h3

theorem peer_apply_psk_trace (p : DPeer) (o : Option (List Nat)) :
    StageBound (peer_apply_psk p o).2 5 := by
  cases o with
  | none => intro e he; simp [peer_apply_psk] at he
  | some k =>
    intro e he
    simp only [peer_apply_psk, List.mem_singleton] at he
    subst he
    exact Or.inr rfl

theorem peer_apply_endpoint_trace (p : DPeer) (o : Option Sockaddr) :
    StageBound (peer_apply_endpoint p o).2 5 := by
  cases o with
  | none => intro e he; simp [peer_apply_endpoint] at he
  | some a =>
    simp only [peer_apply_endpoint]
    split
    · intro e he
      simp only [List.mem_singleton] at he
      subst he
      exact Or.inr rfl
    · intro e he; simp at he

theorem peer_apply_replace_aips_trace (p : DPeer) (fl : Nat) :
    StageBound (peer_apply_replace_aips p fl).2 5 := by
  unfold peer_apply_replace_aips
  split
  · intro e he
    simp only [List.mem_singleton] at he
    subst he
    exact Or.inr rfl
  · intro e he; simp at he

theorem peer_apply_keepalive_trace (b : Bool) (p : DPeer) (o : Option Nat) :
    StageBound (peer_apply_keepalive b p o).2 5 := by
  cases o with
  | none => intro e he; simp [peer_apply_keepalive] at he
  | some v =>
    simp only [peer_apply_keepalive]
    intro e he
    simp only [List.mem_append, List.mem_singleton] at he
    rcases he with rfl | he
    · exact Or.inr rfl
    · split at he
      · simp only [List.mem_singleton] at he
        subst he
        exact Or.inr rfl
      · simp at he

theorem set_peer_with_trace (wg : Device) (peers0 : List DPeer) (peer : DPeer)
    (a : PeerAttrs) (psk : Option (List Nat)) (flags : Nat) (evs0 : List Ev)
    (h0 : StageBound evs0 5) :
    StageBound (set_peer_with wg peers0 peer a psk flags evs0).trace 5 := by
  unfold set_peer_with
  split
  · refine StageBound.append h0 ?_
    intro e he
    simp only [List.mem_singleton] at he
    subst he
    exact Or.inl rfl
  · rcases h1 : peer_apply_psk peer psk with ⟨p1, ev1⟩
    have hb1 := peer_apply_psk_trace peer psk
    rw [h1] at hb1
    rcases h2 : peer_apply_endpoint p1 a.endpoint with ⟨p2, ev2⟩
    have hb2 := peer_apply_endpoint_trace p1 a.endpoint
    rw [h2] at hb2
    rcases h3 : peer_apply_replace_aips p2 flags with ⟨p3, ev3⟩
    have hb3 := peer_apply_replace_aips_trace p2 flags
    rw [h3] at hb3
    rcases h4 : allowedips_loop p3 (a.allowedips.getD []) with ⟨r4, p4, ev4⟩
    have hb4 := allowedips_loop_trace (a.allowedips.getD []) p3
    rw [h4] at hb4
    simp only [h1, h2, h3, h4]
    split
    · exact StageBound.append (StageBound.append (StageBound.append (StageBound.append h0 hb1) hb2) hb3) hb4
    · rcases h5 : peer_apply_keepalive wg.netif_running p4 a.persistent_keepalive_interval with ⟨p5, ev5⟩
      have hb5 := peer_apply_keepalive_trace wg.netif_running p4 a.persistent_keepalive_interval
      rw [h5] at hb5
      refine StageBound.append (StageBound.append (StageBound.append (StageBound.append (StageBound.append (StageBound.append h0 hb1) hb2) hb3) hb4) hb5) ?_
      split
      · intro e he
        simp only [List.mem_singleton] at he
        subst he
        exact Or.inr rfl
      · intro e he; simp at he

theorem set_peer_trace_bound (wg : Device) (a : PeerAttrs) :
    StageBound (set_peer wg a).trace 5 := by
  simp only [set_peer]
  cases hapk : a.public_key with
  | none => intro e he; simp at he
  | some pk =>
    by_cases hlen : pk.length ≠ NOISE_PUBLIC_KEY_LEN
    · simp only [if_pos hlen]
      intro e he; simp at he
    · simp only [if_neg hlen]
      cases hlu : pubkey_hashtable_lookup wg.peers pk with
      | none =>
        by_cases hrm : (a.flags.getD 0) &&& WGPEER_F_REMOVE_ME ≠ 0
        · simp only [if_pos hrm]
          intro e he; simp at he
        · simp only [if_neg hrm]
          by_cases hself : wg.has_identity && pk == wg.static_public
          · simp only [if_pos hself]
            intro e he; simp at he
          · simp only [if_neg hself]
            refine set_peer_with_trace wg _ _ a _ _ _ ?_
            intro e he
            simp only [List.mem_singleton] at he
            subst he
            exact Or.inr rfl
      | some peer =>
        exact set_peer_with_trace wg _ _ a _ _ _ (fun e he => absurd he (by simp))

theorem set_peers_loop_trace (entries : List PeerAttrs) :
    ∀ wg, StageBound (set_peers_loop wg entries).2.2.2 5 := by
  induction entries with
  | nil => intro wg e he; simp [set_peers_loop] at he
  | cons a rest ih =>
    intro wg
    simp only [set_peers_loop]
    split
    · intro e he; simp at he
    · rcases hsp : set_peer wg a with ⟨r2, wg2, a2, ev2⟩
      have hb := set_peer_trace_bound wg a
      rw [hsp] at hb
      split
      · exact hb
      · rcases hrec : set_peers_loop wg2 rest with ⟨r3, wg3, e3, ev3⟩
        have h3 := ih wg2
        rw [hrec] at h3
        exact StageBound.append hb h3

theorem stage_peers_trace (wg : Device) (msg : DeviceAttrs) :
    StageBound (stage_peers wg msg).2.2.2 5 := by
  unfold stage_peers
  cases hmp : msg.peers with
  | none => intro e he; simp at he
  | some entries =>
    dsimp only
    have h := set_peers_loop_trace entries wg
    rcases hloop : set_peers_loop wg entries with ⟨r, wg2, e2, ev⟩
    rw [hloop] at h
    exact h



theorem filterMap_stage_vals {tr : List Ev} {i : Nat} (h : StageBound tr i) :
    ∀ x ∈ tr.filterMap Ev.stageOf, x = i := by
  intro x hx
  obtain ⟨e, he, hse⟩ := List.mem_filterMap.mp hx
  rcases h e he with hnone | hsome
  · rw [hnone] at hse
    exact absurd hse (by simp)
  · rw [hsome] at hse
    injection hse with hse
    exact hse.symm

theorem sorted_const {l : List Nat} {c : Nat} (h : ∀ x ∈ l, x = c) :
    l.Sorted (· ≤ ·) := by
  induction l with
  | nil => exact List.sorted_nil
  | cons a l ih =>
    rw [List.sorted_cons]
    refine ⟨?_, ih (fun x hx => h x (List.mem_cons_of_mem a hx))⟩
    intro b hb
    rw [h a (List.mem_cons_self a l), h b (List.mem_cons_of_mem a hb)]

theorem sorted_stage_concat (t1 t2 t3 t4 t5 : List Ev)
    (h1 : StageBound t1 1) (h2 : StageBound t2 2) (h3 : StageBound t3 3)
    (h4 : StageBound t4 4) (h5 : StageBound t5 5) :
    ((t1 ++ t2 ++ t3 ++ t4 ++ t5).filterMap Ev.stageOf).Sorted (· ≤ ·) := by
  have v1 := filterMap_stage_vals h1
  have v2 := filterMap_stage_vals h2
  have v3 := filterMap_stage_vals h3
  have v4 := filterMap_stage_vals h4
  have v5 := filterMap_stage_vals h5
  simp only [List.filterMap_append]
  have hle : ∀ (la lb : List Nat) (i j : Nat), i ≤ j → (∀ x ∈ la, x = i) → (∀ x ∈ lb, x = j) →
      ∀ x ∈ la, ∀ y ∈ lb, x ≤ y := by
    intro la lb i j hij ha hb x hx y hy
    rw [ha x hx, hb y hy]
    exact hij
  refine List.pairwise_append.mpr ⟨?_, sorted_const v5, ?_⟩
  · refine List.pairwise_append.mpr ⟨?_, sorted_const v4, ?_⟩
    · refine List.pairwise_append.mpr ⟨?_, sorted_const v3, ?_⟩
      · exact List.pairwise_append.mpr ⟨sorted_const v1, sorted_const v2,
          hle _ _ 1 2 (by omega) v1 v2⟩
      · intro x hx y hy
        rcases List.mem_append.mp hx with h | h
        · rw [v1 x h, v3 y hy]; omega
        · rw [v2 x h, v3 y hy]; omega
    · intro x hx y hy
      rcases List.mem_append.mp hx with h | h
      · rcases List.mem_append.mp h with h2 | h2
        · rw [v1 x h2, v4 y hy]; omega
        · rw [v2 x h2, v4 y hy]; omega
      · rw [v3 x h, v4 y hy]; omega
  · intro x hx y hy
    rcases List.mem_append.mp hx with h | h
    · rcases List.mem_append.mp h with h2 | h2
      · rcases List.mem_append.mp h2 with h3 | h3
        · rw [v1 x h3, v5 y hy]; omega
        · rw [v2 x h3, v5 y hy]; omega
      · rw [v3 x h2, v5 y hy]; omega
    · rw [v4 x h, v5 y hy]; omega



theorem stage_port_keeps_fwmark (ext : Ext) (wg : Device) (msg : DeviceAttrs) :
    (stage_port ext wg msg).2.1.fwmark = wg.fwmark := by
  unfold stage_port set_device_port
  cases msg.listen_port with
  | none => rfl
  | some p =>
    dsimp only
    split
    · rfl
    · split
      · rfl
      · split <;> rfl

theorem stage_replace_keeps (wg : Device) (msg : DeviceAttrs) :
    (stage_replace_peers wg msg).1.fwmark = wg.fwmark ∧
    (stage_replace_peers wg msg).1.incoming_port = wg.incoming_port := by
  unfold stage_replace_peers
  refine ⟨?_, ?_⟩ <;> (repeat' split) <;> rfl

theorem stage_private_key_keeps (ext : Ext) (wg : Device) (msg : DeviceAttrs) :
    (stage_private_key ext wg msg).1.fwmark = wg.fwmark ∧
    (stage_private_key ext wg msg).1.incoming_port = wg.incoming_port := by
  unfold stage_private_key noise_set_static_identity_private_key
  refine ⟨?_, ?_⟩ <;> dsimp only <;> (repeat' split) <;> rfl

theorem stage_fwmark_sets (wg : Device) (msg : DeviceAttrs) (v : Nat)
    (h : msg.fwmark = some v) : (stage_fwmark wg msg).1.fwmark = v := by
  unfold stage_fwmark
  rw [h]

theorem set_device_port_sets (ext : Ext) (wg : Device) (p : Nat) :
    (set_device_port ext wg p).2.1.incoming_port = p := by
  unfold set_device_port
  split
  · next h => simpa using h
  · dsimp only
    split
    · rfl
    · split <;> rfl

theorem stage_port_sets (ext : Ext) (wg : Device) (msg : DeviceAttrs) (p : Nat)
    (h : msg.listen_port = some p) : (stage_port ext wg msg).2.1.incoming_port = p := by
  unfold stage_port
  rw [h]
  exact set_device_port_sets ext wg p



theorem set_with_device_abort_eq (ext : Ext) (wg : Device) (msg : DeviceAttrs)
    (wgA wgB : Device) (tr1 tr2 : List Ev) (e : Int)
    (hfw : stage_fwmark { wg with device_update_gen := wg.device_update_gen + 1 } msg = (wgA, tr1))
    (hport : stage_port ext wgA msg = (e, wgB, tr2)) (he : e ≠ 0) :
    set_with_device ext wg msg = ⟨e, wgB, msg, tr1 ++ tr2⟩ := by
  simp only [set_with_device, hfw]
  rw [hport]
  dsimp only
  rw [if_pos he]

/-- C4: the five sub-updates of an ApplyConfig body are applied in the
order firewall mark, listening port, replace-all-peers, private key, peer
list (the stage-classified collaborator-call trace is nondecreasing); the
firewall mark and listening port, once present in the message, are in
effect in the returned device even when the call later fails (no
rollback); a failing listening-port sub-update returns its error
immediately with the message buffers untouched and no later sub-update
executed; and the peer-list sub-update stops at its first failing entry,
whose error the call returns, with all later entries left unexamined. -/
theorem C4_stage_order_and_abort :
    (∀ (ext : Ext) (wg : Device) (msg : DeviceAttrs),
      ((set_with_device ext wg msg).trace.filterMap Ev.stageOf).Sorted (· ≤ ·)) ∧
    (∀ (ext : Ext) (wg : Device) (msg : DeviceAttrs) (v : Nat),
      msg.fwmark = some v → (set_with_device ext wg msg).dev.fwmark = v) ∧
    (∀ (ext : Ext) (wg : Device) (msg : DeviceAttrs) (p : Nat),
      msg.listen_port = some p → (set_with_device ext wg msg).dev.incoming_port = p) ∧
    (∀ (ext : Ext) (wg : Device) (msg : DeviceAttrs) (wgA wgB : Device)
      (tr1 tr2 : List Ev) (e : Int),
      stage_fwmark { wg with device_update_gen := wg.device_update_gen + 1 } msg = (wgA, tr1) →
      stage_port ext wgA msg = (e, wgB, tr2) → e ≠ 0 →
      set_with_device ext wg msg = ⟨e, wgB, msg, tr1 ++ tr2⟩) ∧
    (∀ (wg : Device) (front rest : List PeerAttrs) (a : PeerAttrs) (wg1 : Device)
      (front1 : List PeerAttrs) (evs1 : List Ev),
      set_peers_loop wg front = (0, wg1, front1, evs1) →
      nla_parse_nested_peer a = 0 → (set_peer wg1 a).ret < 0 →
      set_peers_loop wg (front ++ a :: rest) =
        ((set_peer wg1 a).ret, (set_peer wg1 a).dev,
         front1 ++ (set_peer wg1 a).msg :: rest, evs1 ++ (set_peer wg1 a).trace)) := by
  refine ⟨?_, ?_, ?_, set_with_device_abort_eq, set_peers_loop_abort⟩
  · intro ext wg msg
    simp only [set_with_device]
    rcases hfw : stage_fwmark { wg with device_update_gen := wg.device_update_gen + 1 } msg with ⟨wgA, tr1⟩
    have h1 := stage_fwmark_trace { wg with device_update_gen := wg.device_update_gen + 1 } msg
    rw [hfw] at h1
    dsimp only at h1 ⊢
    rcases hport : stage_port ext wgA msg with ⟨rport, wgB, tr2⟩
    have h2 := stage_port_trace ext wgA msg
    rw [hport] at h2
    dsimp only at h2 ⊢
    split
    · have := sorted_stage_concat tr1 tr2 [] [] [] h1 h2
        (fun e he => absurd he (by simp)) (fun e he => absurd he (by simp))
        (fun e he => absurd he (by simp))
      simpa using this
    · rcases hrep : stage_replace_peers wgB msg with ⟨wgC, tr3⟩
      have h3 := stage_replace_peers_trace wgB msg
      rw [hrep] at h3
      dsimp only at h3 ⊢
      rcases hpk : stage_private_key ext wgC msg with ⟨wgD, tr4⟩
      have h4 := stage_private_key_trace ext wgC msg
      rw [hpk] at h4
      dsimp only at h4 ⊢
      rcases hs5 : stage_peers wgD msg with ⟨r5, wgE, msg5, tr5⟩
      have h5 := stage_peers_trace wgD msg
      rw [hs5] at h5
      dsimp only at h5 ⊢
      exact sorted_stage_concat tr1 tr2 tr3 tr4 tr5 h1 h2 h3 h4 h5
  · intro ext wg msg v hv
    simp only [set_with_device]
    rcases hfw : stage_fwmark { wg with device_update_gen := wg.device_update_gen + 1 } msg with ⟨wgA, tr1⟩
    have h1 := stage_fwmark_sets { wg with device_update_gen := wg.device_update_gen + 1 } msg v hv
    rw [hfw] at h1
    dsimp only at h1 ⊢
    rcases hport : stage_port ext wgA msg with ⟨rport, wgB, tr2⟩
    have h2 := stage_port_keeps_fwmark ext wgA msg
    rw [hport] at h2
    dsimp only at h2 ⊢
    split
    · rw [h2, h1]
    · rcases hrep : stage_replace_peers wgB msg with ⟨wgC, tr3⟩
      have h3 := (stage_replace_keeps wgB msg).1
      rw [hrep] at h3
      dsimp only at h3
      rcases hpk : stage_private_key ext wgC msg with ⟨wgD, tr4⟩
      have h4 := (stage_private_key_keeps ext wgC msg).1
      rw [hpk] at h4
      dsimp only at h4
      rcases hs5 : stage_peers wgD msg with ⟨r5, wgE, msg5, tr5⟩
      obtain ⟨psE, hpsE⟩ := stage_peers_dev_frame wgD msg
      rw [hs5] at hpsE
      dsimp only at hpsE ⊢
      rw [hpsE]
      show wgD.fwmark = v
      rw [h4, h3, h2, h1]
  · intro ext wg msg p hp
    simp only [set_with_device]
    rcases hfw : stage_fwmark { wg with device_update_gen := wg.device_update_gen + 1 } msg with ⟨wgA, tr1⟩
    rcases hport : stage_port ext wgA msg with ⟨rport, wgB, tr2⟩
    have h2 := stage_port_sets ext wgA msg p hp
    rw [hport] at h2
    dsimp only at h2 ⊢
    split
    · exact h2
    · rcases hrep : stage_replace_peers wgB msg with ⟨wgC, tr3⟩
      have h3 := (stage_replace_keeps wgB msg).2
      rw [hrep] at h3
      dsimp only at h3
      rcases hpk : stage_private_key ext wgC msg with ⟨wgD, tr4⟩
      have h4 := (stage_private_key_keeps ext wgC msg).2
      rw [hpk] at h4
      dsimp only at h4
      rcases hs5 : stage_peers wgD msg with ⟨r5, wgE, msg5, tr5⟩
      obtain ⟨psE, hpsE⟩ := stage_peers_dev_frame wgD msg
      rw [hs5] at hpsE
      dsimp only at hpsE ⊢
      rw [hpsE]
      show wgD.incoming_port = p
      rw [h4, h3, h2]

/-! ### Size and token bookkeeping lemmas -/

theorem toksSize_append (l1 l2 : List Tok) :
    toksSize (l1 ++ l2) = toksSize l1 + toksSize l2 := by
  simp [toksSize]

theorem Skb.len_mk (l : List Tok) : Skb.len ⟨l⟩ = toksSize l := rfl

theorem entry_toks_size (p e : Nat) (ip : AllowedIP) :
    toksSize (entry_toks p e ip) = aipEntrySize ip := rfl

theorem tagFrom_append (p : Nat) (l1 l2 : List AllowedIP) : ∀ a,
    tagFrom p a (l1 ++ l2) = tagFrom p a l1 ++ tagFrom p (a + l1.length) l2 := by
  induction l1 with
  | nil => intro a; simp [tagFrom]
  | cons ip rest ih =>
    intro a
    simp only [List.cons_append, tagFrom, List.append_eq, List.length_cons,
      ih (a + 1), List.append_assoc]
    have h : a + 1 + rest.length = a + (rest.length + 1) := by omega
    rw [h]

theorem tagFrom_size (p : Nat) (l : List AllowedIP) : ∀ a,
    toksSize (tagFrom p a l) = (l.map aipEntrySize).sum := by
  induction l with
  | nil => intro a; simp [tagFrom, toksSize]
  | cons ip rest ih =>
    intro a
    simp [tagFrom, toksSize_append, entry_toks_size, ih]

theorem tagFrom_filter_aip (p : Nat) (l : List AllowedIP) : ∀ a,
    (tagFrom p a l).filter isAipEntryTok = tagFrom p a l := by
  induction l with
  | nil => intro a; simp [tagFrom]
  | cons ip rest ih =>
    intro a
    simp [tagFrom, entry_toks, List.filter_append, isAipEntryTok, ih]

theorem tagFrom_filter_field (p : Nat) (l : List AllowedIP) : ∀ a,
    (tagFrom p a l).filter isFieldTok = [] := by
  induction l with
  | nil => intro a; simp [tagFrom]
  | cons ip rest ih =>
    intro a
    simp [tagFrom, entry_toks, List.filter_append, isFieldTok, ih]

theorem tagFrom_filter_dev (p : Nat) (l : List AllowedIP) : ∀ a,
    (tagFrom p a l).filter isDevTok = [] := by
  induction l with
  | nil => intro a; simp [tagFrom]
  | cons ip rest ih =>
    intro a
    simp [tagFrom, entry_toks, List.filter_append, isDevTok, ih]

theorem tagFrom_pubP (p : Nat) (l : List AllowedIP) : ∀ a,
    (tagFrom p a l).filterMap pubP = [] := by
  induction l with
  | nil => intro a; simp [tagFrom]
  | cons ip rest ih =>
    intro a
    simp [tagFrom, entry_toks, List.filterMap_append, pubP, ih]

theorem endpoint_tok_filter_aip (p : Nat) (peer : DPeer) :
    (endpoint_tok p peer).filter isAipEntryTok = [] := by
  unfold endpoint_tok
  rcases peer.endpoint with _ | a
  · rfl
  · by_cases h4 : a.sa_family == AF_INET
    · simp [h4, isAipEntryTok]
    · by_cases h6 : a.sa_family == AF_INET6 <;> simp [h4, h6, isAipEntryTok]

theorem endpoint_tok_filter_field (p : Nat) (peer : DPeer) :
    (endpoint_tok p peer).filter isFieldTok = endpoint_tok p peer := by
  unfold endpoint_tok
  rcases peer.endpoint with _ | a
  · rfl
  · by_cases h4 : a.sa_family == AF_INET
    · simp [h4, isFieldTok]
    · by_cases h6 : a.sa_family == AF_INET6 <;> simp [h4, h6, isFieldTok]

theorem endpoint_tok_filter_dev (p : Nat) (peer : DPeer) :
    (endpoint_tok p peer).filter isDevTok = [] := by
  unfold endpoint_tok
  rcases peer.endpoint with _ | a
  · rfl
  · by_cases h4 : a.sa_family == AF_INET
    · simp [h4, isDevTok]
    · by_cases h6 : a.sa_family == AF_INET6 <;> simp [h4, h6, isDevTok]

theorem endpoint_tok_pubP (p : Nat) (peer : DPeer) :
    (endpoint_tok p peer).filterMap pubP = [] := by
  unfold endpoint_tok
  rcases peer.endpoint with _ | a
  · rfl
  · by_cases h4 : a.sa_family == AF_INET
    · simp [h4, pubP]
    · by_cases h6 : a.sa_family == AF_INET6 <;> simp [h4, h6, pubP]

theorem block_filter_aip (idx p : Nat) (peer : DPeer) (j : Nat) :
    (peer_block_toks idx p peer j).filter isAipEntryTok =
      tagFrom p (j - 1) (peer.allowedips.drop (j - 1)) := by
  unfold peer_block_toks peer_fixed_toks peer_field_toks
  by_cases hj : j == 0 <;>
    simp [hj, List.filter_append, isAipEntryTok, endpoint_tok_filter_aip,
      tagFrom_filter_aip]

theorem block_filter_field (idx p : Nat) (peer : DPeer) (j : Nat) :
    (peer_block_toks idx p peer j).filter isFieldTok =
      (if j == 0 then peer_field_toks p peer else []) := by
  unfold peer_block_toks peer_fixed_toks
  by_cases hj : j == 0 <;>
    simp [hj, List.filter_append, isFieldTok, tagFrom_filter_field,
      peer_field_toks, endpoint_tok_filter_field]

theorem block_filter_dev (idx p : Nat) (peer : DPeer) (j : Nat) :
    (peer_block_toks idx p peer j).filter isDevTok = [] := by
  unfold peer_block_toks peer_fixed_toks peer_field_toks
  by_cases hj : j == 0 <;>
    simp [hj, List.filter_append, isDevTok, tagFrom_filter_dev,
      endpoint_tok_filter_dev]

theorem block_pubP (idx p : Nat) (peer : DPeer) (j : Nat) :
    (peer_block_toks idx p peer j).filterMap pubP = [p] := by
  unfold peer_block_toks peer_fixed_toks peer_field_toks
  by_cases hj : j == 0 <;>
    simp [hj, List.filterMap_append, pubP, tagFrom_pubP, endpoint_tok_pubP]

theorem block_pub_val (idx p : Nat) (peer : DPeer) (j : Nat) (q : Nat)
    (k : List Nat) (h : Tok.peerPublicKey q k ∈ peer_block_toks idx p peer j) :
    q = p ∧ k = peer.public_key := by
  have htag : ∀ a l, Tok.peerPublicKey q k ∈ tagFrom p a l → False := by
    intro a l
    induction l generalizing a with
    | nil => simp [tagFrom]
    | cons ip rest ih =>
      intro hm
      rw [tagFrom, List.mem_append] at hm
      rcases hm with hm | hm
      · simp [entry_toks] at hm
      · exact ih _ hm
  have hend : Tok.peerPublicKey q k ∈ endpoint_tok p peer → False := by
    unfold endpoint_tok
    rcases peer.endpoint with _ | a
    · simp
    · by_cases h4 : a.sa_family == AF_INET
      · simp [h4]
      · by_cases h6 : a.sa_family == AF_INET6 <;> simp [h4, h6]
  have hfield : Tok.peerPublicKey q k ∈ peer_field_toks p peer → False := by
    intro hm
    rw [peer_field_toks, List.mem_append] at hm
    rcases hm with hm | hm
    · simp at hm
    · exact hend hm
  rw [peer_block_toks, List.mem_append] at h
  rcases h with h | h
  · rw [peer_fixed_toks, List.mem_append, List.mem_append] at h
    rcases h with (h | h) | h
    · simp only [List.mem_cons, List.not_mem_nil, or_false] at h
      rcases h with h | h
      · exact absurd h (by simp)
      · cases h; exact ⟨rfl, rfl⟩
    · by_cases hj : j == 0
      · rw [if_pos hj] at h; exact absurd h hfield
      · rw [if_neg hj] at h; simp at h
    · simp at h
  · exact absurd h (htag _ _)

/-! ### `nla_put` and allowed-IP walk characterization -/

theorem nla_put_fits (B : Nat) (s : Skb) (t : Tok)
    (h : s.len + tokSize t ≤ B) : nla_put B s t = some ⟨s.toks ++ [t]⟩ := by
  simp [nla_put, h]

theorem nla_put_over (B : Nat) (s : Skb) (t : Tok)
    (h : ¬ s.len + tokSize t ≤ B) : nla_put B s t = none := by
  simp [nla_put, h]

theorem nla_put_someE {B : Nat} {s s' : Skb} {t : Tok}
    (h : nla_put B s t = some s') :
    s' = ⟨s.toks ++ [t]⟩ ∧ s.len + tokSize t ≤ B := by
  unfold nla_put at h
  by_cases hle : s.len + tokSize t ≤ B
  · rw [if_pos hle] at h
    exact ⟨(Option.some_inj.mp h).symm, hle⟩
  · rw [if_neg hle] at h
    cases h

theorem len_append_toks (l1 l2 : List Tok) :
    Skb.len ⟨l1 ++ l2⟩ = toksSize l1 + toksSize l2 := by
  simp [Skb.len, toksSize]

/-- One walk step in the emit phase: the entry is appended whole iff it
fits whole (the nested puts fail exactly when the cumulative length
overruns), and a failed entry is cancelled leaving the buffer untouched
(netlink.c:69-87). -/
theorem Skb.len_push (l : List Tok) (t : Tok) :
    Skb.len ⟨l ++ [t]⟩ = Skb.len ⟨l⟩ + tokSize t := by
  simp [Skb.len]

theorem aipEntrySize_eq (ip : AllowedIP) : aipEntrySize ip =
    24 + (if ip.family == AF_INET6 then IN6_ADDR_LEN else IN_ADDR_LEN) := by
  cases hf : ip.family == AF_INET6 <;>
    simp [aipEntrySize, entry_toks, toksSize, tokSize, hf, IN_ADDR_LEN, IN6_ADDR_LEN]

theorem opt_some_bind {A B : Type} (a : A) (f : A → Option B) :
    (some a >>= f) = f a := rfl

theorem get_allowedips_spec (B p : Nat) (skb : Skb) (c i : Nat)
    (hc : c ≤ i + 1) (ip : AllowedIP) :
    get_allowedips B p ⟨skb, c, i⟩ ip =
      if skb.len + aipEntrySize ip ≤ B
      then (0, ⟨⟨skb.toks ++ entry_toks p i ip⟩, c, i + 1⟩)
      else (-EMSGSIZE, ⟨skb, c, i + 1⟩) := by
  have hsz := aipEntrySize_eq ip
  have heta : Skb.len ⟨skb.toks⟩ = skb.len := rfl
  simp only [get_allowedips]
  rw [if_neg (show ¬ (i + 1 < c) from by omega)]
  by_cases hfit : skb.len + aipEntrySize ip ≤ B
  · rw [if_pos hfit]
    have e1 : nla_nest_start B skb (Tok.aipStart (i + 1 - 1) p) =
        some (⟨skb.toks ++ [Tok.aipStart (i + 1 - 1) p]⟩, skb.toks.length) := by
      rw [nla_nest_start, nla_put_fits B skb _ (by simp only [tokSize]; omega)]
      rfl
    have e2 : nla_put B ⟨skb.toks ++ [Tok.aipStart (i + 1 - 1) p]⟩ (Tok.aipCidr ip.cidr) =
        some ⟨skb.toks ++ [Tok.aipStart (i + 1 - 1) p] ++ [Tok.aipCidr ip.cidr]⟩ :=
      nla_put_fits B _ _ (by rw [Skb.len_push]; simp only [tokSize]; omega)
    have e3 : nla_put B ⟨skb.toks ++ [Tok.aipStart (i + 1 - 1) p] ++ [Tok.aipCidr ip.cidr]⟩
        (Tok.aipFamily ip.family) =
        some ⟨skb.toks ++ [Tok.aipStart (i + 1 - 1) p] ++ [Tok.aipCidr ip.cidr] ++
          [Tok.aipFamily ip.family]⟩ :=
      nla_put_fits B _ _ (by rw [Skb.len_push, Skb.len_push]; simp only [tokSize]; omega)
    have e4 : nla_put B ⟨skb.toks ++ [Tok.aipStart (i + 1 - 1) p] ++ [Tok.aipCidr ip.cidr] ++
        [Tok.aipFamily ip.family]⟩ (Tok.aipIpaddr ip.family ip.addr) =
        some ⟨skb.toks ++ [Tok.aipStart (i + 1 - 1) p] ++ [Tok.aipCidr ip.cidr] ++
          [Tok.aipFamily ip.family] ++ [Tok.aipIpaddr ip.family ip.addr]⟩ :=
      nla_put_fits B _ _ (by
        rw [Skb.len_push, Skb.len_push, Skb.len_push]
        simp only [tokSize]
        omega)
    rw [e1]
    try dsimp only
    rw [e2, opt_some_bind]
    try dsimp only
    rw [e3, opt_some_bind]
    try dsimp only
    rw [e4]
    try dsimp only
    simp only [entry_toks, List.append_assoc, List.cons_append, List.nil_append,
      Nat.add_sub_cancel]
  · rw [if_neg hfit]
    by_cases h1 : skb.len + tokSize (Tok.aipStart (i + 1 - 1) p) ≤ B
    · have e1 : nla_nest_start B skb (Tok.aipStart (i + 1 - 1) p) =
          some (⟨skb.toks ++ [Tok.aipStart (i + 1 - 1) p]⟩, skb.toks.length) := by
        rw [nla_nest_start, nla_put_fits B skb _ h1]
        rfl
      have hcancel : nla_nest_cancel ⟨skb.toks ++ [Tok.aipStart (i + 1 - 1) p]⟩
          skb.toks.length = skb := by
        simp [nla_nest_cancel, List.take_append]
      have hone : ((nla_put B ⟨skb.toks ++ [Tok.aipStart (i + 1 - 1) p]⟩ (Tok.aipCidr ip.cidr) >>=
            fun s => nla_put B s (Tok.aipFamily ip.family)) >>=
            fun s => nla_put B s (Tok.aipIpaddr ip.family ip.addr)) = none := by
        rcases h2 : nla_put B ⟨skb.toks ++ [Tok.aipStart (i + 1 - 1) p]⟩ (Tok.aipCidr ip.cidr)
          with _ | s2
        · rfl
        rcases nla_put_someE h2 with ⟨rfl, hle2⟩
        rw [opt_some_bind]
        try dsimp only
        rcases h3 : nla_put B ⟨skb.toks ++ [Tok.aipStart (i + 1 - 1) p] ++ [Tok.aipCidr ip.cidr]⟩
            (Tok.aipFamily ip.family) with _ | s3
        · rfl
        rcases nla_put_someE h3 with ⟨rfl, hle3⟩
        rw [opt_some_bind]
        try dsimp only
        rcases h4 : nla_put B ⟨skb.toks ++ [Tok.aipStart (i + 1 - 1) p] ++ [Tok.aipCidr ip.cidr] ++
            [Tok.aipFamily ip.family]⟩ (Tok.aipIpaddr ip.family ip.addr) with _ | s4
        · rfl
        rcases nla_put_someE h4 with ⟨rfl, hle4⟩
        exfalso
        rw [Skb.len_push, Skb.len_push, Skb.len_push] at hle4
        simp only [tokSize] at hle4
        omega
      rw [e1]
      try dsimp only
      rw [hone]
      try dsimp only
      rw [hcancel]
    · have e1 : nla_nest_start B skb (Tok.aipStart (i + 1 - 1) p) = none := by
        rw [nla_nest_start, nla_put_over B skb _ h1]
        rfl
      rw [e1]

theorem walk_cons (B p : Nat) (ctx : ACtx) (ip : AllowedIP) (rest : List AllowedIP) :
    walk_ips_by_peer B p ctx (ip :: rest) =
      (if (get_allowedips B p ctx ip).1 ≠ 0 then get_allowedips B p ctx ip
       else walk_ips_by_peer B p (get_allowedips B p ctx ip).2 rest) := by
  rw [walk_ips_by_peer]

/-- The walk's skip phase: entries whose running index is below the saved
cursor are counted but not serialized (netlink.c:72-73). -/
theorem walk_skips (B p : Nat) : ∀ (k : Nat) (es : List AllowedIP) (skb : Skb)
    (i c : Nat), (∀ q, q < k → i + q + 1 < c) → k ≤ es.length →
    walk_ips_by_peer B p ⟨skb, c, i⟩ es =
      walk_ips_by_peer B p ⟨skb, c, i + k⟩ (es.drop k) := by
  intro k
  induction k with
  | zero => intro es skb i c _ _; rfl
  | succ k ih =>
    intro es skb i c hq hk
    match es with
    | [] => simp at hk
    | ip :: rest =>
      have hskip : i + 1 < c := by have := hq 0 (by omega); omega
      have estep : get_allowedips B p ⟨skb, c, i⟩ ip = (0, ⟨skb, c, i + 1⟩) := by
        simp only [get_allowedips]
        rw [if_pos hskip]
      rw [walk_cons, estep]
      dsimp only
      rw [if_neg (by simp)]
      rw [ih rest skb (i + 1) c (fun q hq2 => by have := hq (q + 1) (by omega); omega)
        (by simpa using hk)]
      have harith : i + 1 + k = i + (k + 1) := by omega
      rw [harith, List.drop_succ_cons]

/-- The walk's emit phase (no skipping left): entries are appended
greedily while they fit; the first one that does not fit stops the walk
with `-EMSGSIZE` and the next-entry counter. -/
theorem walk_emit (B p : Nat) : ∀ (es : List AllowedIP) (skb : Skb) (i c : Nat),
    c ≤ i + 1 →
    walk_ips_by_peer B p ⟨skb, c, i⟩ es =
      (if greedyCount B skb.len es = es.length then 0 else -EMSGSIZE,
       ⟨⟨skb.toks ++ tagFrom p i (es.take (greedyCount B skb.len es))⟩, c,
        if greedyCount B skb.len es = es.length then i + es.length
        else i + greedyCount B skb.len es + 1⟩) := by
  intro es
  induction es with
  | nil =>
    intro skb i c hc
    simp [walk_ips_by_peer, greedyCount, tagFrom]
  | cons ip rest ih =>
    intro skb i c hc
    rw [walk_cons, get_allowedips_spec B p skb c i hc ip]
    by_cases hfit : skb.len + aipEntrySize ip ≤ B
    · rw [if_pos hfit]
      dsimp only
      rw [if_neg (by simp)]
      have hlen : (Skb.len ⟨skb.toks ++ entry_toks p i ip⟩) = skb.len + aipEntrySize ip := by
        rw [len_append_toks, entry_toks_size]; rfl
      rw [ih ⟨skb.toks ++ entry_toks p i ip⟩ (i + 1) c (by omega), hlen]
      have hg : greedyCount B skb.len (ip :: rest) =
          greedyCount B (skb.len + aipEntrySize ip) rest + 1 := by
        rw [greedyCount, if_pos hfit]
      rw [hg]
      simp only [List.length_cons, Nat.add_left_inj, List.take_succ_cons, tagFrom,
        List.append_assoc]
      by_cases hall : greedyCount B (skb.len + aipEntrySize ip) rest = rest.length
      · simp only [hall, if_pos, if_true]
        have h1 : i + 1 + rest.length = i + (rest.length + 1) := by omega
        rw [h1]
      · simp only [if_neg hall]
        have h2 : i + 1 + greedyCount B (skb.len + aipEntrySize ip) rest + 1 =
            i + (greedyCount B (skb.len + aipEntrySize ip) rest + 1) + 1 := by omega
        rw [h2]
    · rw [if_neg hfit]
      try dsimp only
      have hg : greedyCount B skb.len (ip :: rest) = 0 := by
        rw [greedyCount, if_neg hfit]
      rw [hg]
      have hne : ¬ ((0 : Nat) = (ip :: rest).length) := by simp
      rw [if_pos (show (-EMSGSIZE : Int) ≠ 0 from by decide), if_neg hne, if_neg hne]
      simp [tagFrom]

/-- When everything left fits, the greedy count is everything. -/
theorem greedy_full (B : Nat) : ∀ (es : List AllowedIP) (L : Nat),
    L + (es.map aipEntrySize).sum ≤ B → greedyCount B L es = es.length := by
  intro es
  induction es with
  | nil => intro L _; rfl
  | cons ip rest ih =>
    intro L h
    simp only [List.map_cons, List.sum_cons] at h
    rw [greedyCount, if_pos (by omega)]
    rw [ih (L + aipEntrySize ip) (by omega)]
    rfl

/-! ### `get_peer` characterization -/

theorem opt_none_bind {A B : Type} (f : A → Option B) :
    ((none : Option A) >>= f) = none := rfl

theorem nla_put_le {B : Nat} {s s' : Skb} {t : Tok} (h : nla_put B s t = some s') :
    s'.len ≤ B := by
  rcases nla_put_someE h with ⟨rfl, hle⟩
  rw [Skb.len_push]
  exact hle

theorem cancel_one (skb : Skb) (t : Tok) :
    nla_nest_cancel ⟨skb.toks ++ [t]⟩ skb.toks.length = skb := by
  simp [nla_nest_cancel, List.take_append]

theorem cancel_two (skb : Skb) (t : Tok) (L : List Tok) :
    nla_nest_cancel ⟨skb.toks ++ [t] ++ L⟩ skb.toks.length = skb := by
  simp [nla_nest_cancel, List.append_assoc, List.take_append]

/-- The five unconditional field puts of `get_peer` (netlink.c:100-111)
succeed together or fail, by cumulative-length monotonicity. -/
theorem five_puts_eq (B p : Nat) (peer : DPeer) (s : Skb) :
    (nla_put B s (.peerPresharedKey p peer.preshared_key) >>= fun s =>
      nla_put B s (.peerLastHandshake p peer.walltime_last_handshake) >>= fun s =>
      nla_put B s (.peerKeepalive p (peer.persistent_keepalive_interval / HZ)) >>= fun s =>
      nla_put B s (.peerTxBytes p peer.tx_bytes) >>= fun s =>
      nla_put B s (.peerRxBytes p peer.rx_bytes)) =
    (if s.len + toksSize
        [Tok.peerPresharedKey p peer.preshared_key,
         Tok.peerLastHandshake p peer.walltime_last_handshake,
         Tok.peerKeepalive p (peer.persistent_keepalive_interval / HZ),
         Tok.peerTxBytes p peer.tx_bytes,
         Tok.peerRxBytes p peer.rx_bytes] ≤ B
     then some ⟨s.toks ++
        [Tok.peerPresharedKey p peer.preshared_key,
         Tok.peerLastHandshake p peer.walltime_last_handshake,
         Tok.peerKeepalive p (peer.persistent_keepalive_interval / HZ),
         Tok.peerTxBytes p peer.tx_bytes,
         Tok.peerRxBytes p peer.rx_bytes]⟩
     else none) := by
  have hsz : toksSize
      [Tok.peerPresharedKey p peer.preshared_key,
       Tok.peerLastHandshake p peer.walltime_last_handshake,
       Tok.peerKeepalive p (peer.persistent_keepalive_interval / HZ),
       Tok.peerTxBytes p peer.tx_bytes,
       Tok.peerRxBytes p peer.rx_bytes] =
      tokSize (Tok.peerPresharedKey p peer.preshared_key) +
      (tokSize (Tok.peerLastHandshake p peer.walltime_last_handshake) +
       (tokSize (Tok.peerKeepalive p (peer.persistent_keepalive_interval / HZ)) +
        (tokSize (Tok.peerTxBytes p peer.tx_bytes) +
         tokSize (Tok.peerRxBytes p peer.rx_bytes)))) := by
    simp [toksSize]
  set t1 := Tok.peerPresharedKey p peer.preshared_key with ht1
  set t2 := Tok.peerLastHandshake p peer.walltime_last_handshake with ht2
  set t3 := Tok.peerKeepalive p (peer.persistent_keepalive_interval / HZ) with ht3
  set t4 := Tok.peerTxBytes p peer.tx_bytes with ht4
  set t5 := Tok.peerRxBytes p peer.rx_bytes with ht5
  have heta : Skb.len ⟨s.toks⟩ = s.len := rfl
  by_cases hfit : s.len + toksSize [t1, t2, t3, t4, t5] ≤ B
  · rw [if_pos hfit]
    have e1 : nla_put B s t1 = some ⟨s.toks ++ [t1]⟩ :=
      nla_put_fits B s t1 (by omega)
    have e2 : nla_put B ⟨s.toks ++ [t1]⟩ t2 = some ⟨s.toks ++ [t1] ++ [t2]⟩ :=
      nla_put_fits B _ _ (by rw [Skb.len_push]; omega)
    have e3 : nla_put B ⟨s.toks ++ [t1] ++ [t2]⟩ t3 = some ⟨s.toks ++ [t1] ++ [t2] ++ [t3]⟩ :=
      nla_put_fits B _ _ (by rw [Skb.len_push, Skb.len_push]; omega)
    have e4 : nla_put B ⟨s.toks ++ [t1] ++ [t2] ++ [t3]⟩ t4 =
        some ⟨s.toks ++ [t1] ++ [t2] ++ [t3] ++ [t4]⟩ :=
      nla_put_fits B _ _ (by rw [Skb.len_push, Skb.len_push, Skb.len_push]; omega)
    have e5 : nla_put B ⟨s.toks ++ [t1] ++ [t2] ++ [t3] ++ [t4]⟩ t5 =
        some ⟨s.toks ++ [t1] ++ [t2] ++ [t3] ++ [t4] ++ [t5]⟩ :=
      nla_put_fits B _ _
        (by rw [Skb.len_push, Skb.len_push, Skb.len_push, Skb.len_push]; omega)
    rw [e1, opt_some_bind]
    try dsimp only
    rw [e2, opt_some_bind]
    try dsimp only
    rw [e3, opt_some_bind]
    try dsimp only
    rw [e4, opt_some_bind]
    try dsimp only
    rw [e5]
    simp [List.append_assoc]
  · rw [if_neg hfit]
    rcases h1 : nla_put B s t1 with _ | s1
    · rfl
    rcases nla_put_someE h1 with ⟨rfl, hle1⟩
    rw [opt_some_bind]
    try dsimp only
    rcases h2 : nla_put B ⟨s.toks ++ [t1]⟩ t2 with _ | s2
    · rfl
    rcases nla_put_someE h2 with ⟨rfl, hle2⟩
    rw [opt_some_bind]
    try dsimp only
    rcases h3 : nla_put B ⟨s.toks ++ [t1] ++ [t2]⟩ t3 with _ | s3
    · rfl
    rcases nla_put_someE h3 with ⟨rfl, hle3⟩
    rw [opt_some_bind]
    try dsimp only
    rcases h4 : nla_put B ⟨s.toks ++ [t1] ++ [t2] ++ [t3]⟩ t4 with _ | s4
    · rfl
    rcases nla_put_someE h4 with ⟨rfl, hle4⟩
    rw [opt_some_bind]
    try dsimp only
    rcases h5 : nla_put B ⟨s.toks ++ [t1] ++ [t2] ++ [t3] ++ [t4]⟩ t5 with _ | s5
    · rfl
    rcases nla_put_someE h5 with ⟨rfl, hle5⟩
    exfalso
    rw [Skb.len_push, Skb.len_push, Skb.len_push, Skb.len_push] at hle5
    omega

/-- The conditional endpoint put of `get_peer` (netlink.c:112-118): a put
for a representable family, a no-op otherwise. -/
theorem endpoint_put_eq (B p : Nat) (peer : DPeer) (s : Skb) (hs : s.len ≤ B) :
    (match peer.endpoint with
     | some a =>
       if a.sa_family == AF_INET then nla_put B s (.peerEndpoint p a)
       else if a.sa_family == AF_INET6 then nla_put B s (.peerEndpoint p a)
       else some s
     | none => some s) =
    (if s.len + toksSize (endpoint_tok p peer) ≤ B
     then some ⟨s.toks ++ endpoint_tok p peer⟩ else none) := by
  unfold endpoint_tok
  rcases peer.endpoint with _ | a
  · simp only [toksSize, List.map_nil, List.sum_nil, Nat.add_zero]
    rw [if_pos hs]
    simp
  · by_cases h4 : a.sa_family == AF_INET
    · simp only [h4, if_true, if_pos]
      by_cases hfit : s.len + toksSize [Tok.peerEndpoint p a] ≤ B
      · rw [if_pos hfit, nla_put_fits B s _ (by simp only [toksSize, List.map_cons,
          List.map_nil, List.sum_cons, List.sum_nil] at hfit; omega)]
      · rw [if_neg hfit, nla_put_over B s _ (by simp only [toksSize, List.map_cons,
          List.map_nil, List.sum_cons, List.sum_nil] at hfit; omega)]
    · by_cases h6 : a.sa_family == AF_INET6
      · simp only [h4, h6, if_true, if_false, Bool.false_eq_true, if_pos, if_neg,
          not_false_iff]
        by_cases hfit : s.len + toksSize [Tok.peerEndpoint p a] ≤ B
        · rw [if_pos hfit, nla_put_fits B s _ (by simp only [toksSize, List.map_cons,
            List.map_nil, List.sum_cons, List.sum_nil] at hfit; omega)]
        · rw [if_neg hfit, nla_put_over B s _ (by simp only [toksSize, List.map_cons,
            List.map_nil, List.sum_cons, List.sum_nil] at hfit; omega)]
      · simp only [h4, h6, Bool.false_eq_true, if_false]
        simp only [toksSize, List.map_nil, List.sum_nil, Nat.add_zero]
        rw [if_pos hs]
        simp

/-- `get_peer`'s fixed part (public key plus, at cursor zero, the
non-identity fields): succeeds iff the whole group fits, appending exactly
the fixed tokens (netlink.c:96-118). -/
theorem fixed_chain_eq (B p : Nat) (peer : DPeer) (j : Nat) (skb1 : Skb) :
    (nla_put B skb1 (.peerPublicKey p peer.public_key) >>= fun s =>
      if j == 0 then
        (nla_put B s (.peerPresharedKey p peer.preshared_key) >>= fun s =>
          nla_put B s (.peerLastHandshake p peer.walltime_last_handshake) >>= fun s =>
          nla_put B s (.peerKeepalive p (peer.persistent_keepalive_interval / HZ)) >>= fun s =>
          nla_put B s (.peerTxBytes p peer.tx_bytes) >>= fun s =>
          nla_put B s (.peerRxBytes p peer.rx_bytes)) >>= fun s =>
        match peer.endpoint with
        | some a =>
          if a.sa_family == AF_INET then nla_put B s (.peerEndpoint p a)
          else if a.sa_family == AF_INET6 then nla_put B s (.peerEndpoint p a)
          else some s
        | none => some s
      else some s) =
    (if skb1.len + toksSize ([Tok.peerPublicKey p peer.public_key] ++
        (if j == 0 then peer_field_toks p peer else [])) ≤ B
     then some ⟨skb1.toks ++ ([Tok.peerPublicKey p peer.public_key] ++
        (if j == 0 then peer_field_toks p peer else []))⟩
     else none) := by
  have heta : Skb.len ⟨skb1.toks⟩ = skb1.len := rfl
  by_cases hj : j == 0
  · simp only [hj, if_pos, if_true]
    by_cases hpub : skb1.len + tokSize (Tok.peerPublicKey p peer.public_key) ≤ B
    · rw [nla_put_fits B skb1 _ hpub, opt_some_bind]
      try dsimp only
      rw [five_puts_eq]
      set s1 : Skb := ⟨skb1.toks ++ [Tok.peerPublicKey p peer.public_key]⟩ with hs1
      have hs1len : s1.len = skb1.len + tokSize (Tok.peerPublicKey p peer.public_key) := by
        rw [hs1, Skb.len_push]
      by_cases hfive : s1.len + toksSize
          [Tok.peerPresharedKey p peer.preshared_key,
           Tok.peerLastHandshake p peer.walltime_last_handshake,
           Tok.peerKeepalive p (peer.persistent_keepalive_interval / HZ),
           Tok.peerTxBytes p peer.tx_bytes,
           Tok.peerRxBytes p peer.rx_bytes] ≤ B
      · rw [if_pos hfive, opt_some_bind]
        try dsimp only
        set s2 : Skb := ⟨s1.toks ++
          [Tok.peerPresharedKey p peer.preshared_key,
           Tok.peerLastHandshake p peer.walltime_last_handshake,
           Tok.peerKeepalive p (peer.persistent_keepalive_interval / HZ),
           Tok.peerTxBytes p peer.tx_bytes,
           Tok.peerRxBytes p peer.rx_bytes]⟩ with hs2
        have hs2len : s2.len = s1.len + toksSize
            [Tok.peerPresharedKey p peer.preshared_key,
             Tok.peerLastHandshake p peer.walltime_last_handshake,
             Tok.peerKeepalive p (peer.persistent_keepalive_interval / HZ),
             Tok.peerTxBytes p peer.tx_bytes,
             Tok.peerRxBytes p peer.rx_bytes] := by
          rw [hs2, len_append_toks]
          rfl
        rw [endpoint_put_eq B p peer s2 (by omega)]
        have hcond : (s2.len + toksSize (endpoint_tok p peer) ≤ B) ↔
            (skb1.len + toksSize ([Tok.peerPublicKey p peer.public_key] ++
              peer_field_toks p peer) ≤ B) := by
          rw [toksSize_append, peer_field_toks, toksSize_append]
          have h5 : toksSize [Tok.peerPublicKey p peer.public_key] =
              tokSize (Tok.peerPublicKey p peer.public_key) := by
            simp [toksSize]
          rw [h5]
          omega
        by_cases hend : s2.len + toksSize (endpoint_tok p peer) ≤ B
        · rw [if_pos hend, if_pos (hcond.mp hend)]
          rw [hs2, hs1]
          simp [peer_field_toks, List.append_assoc]
        · rw [if_neg hend, if_neg (fun hc => hend (hcond.mpr hc))]
      · rw [if_neg hfive, opt_none_bind]
        rw [if_neg]
        intro hc
        rw [toksSize_append, peer_field_toks, toksSize_append] at hc
        have h5 : toksSize [Tok.peerPublicKey p peer.public_key] =
            tokSize (Tok.peerPublicKey p peer.public_key) := by
          simp [toksSize]
        rw [h5] at hc
        omega
    · rw [nla_put_over B skb1 _ hpub, opt_none_bind]
      rw [if_neg]
      intro hc
      rw [toksSize_append] at hc
      have h5 : toksSize [Tok.peerPublicKey p peer.public_key] =
          tokSize (Tok.peerPublicKey p peer.public_key) := by
        simp [toksSize]
      rw [h5] at hc
      omega
  · simp only [hj, Bool.false_eq_true, if_false]
    by_cases hpub : skb1.len + tokSize (Tok.peerPublicKey p peer.public_key) ≤ B
    · rw [nla_put_fits B skb1 _ hpub, opt_some_bind]
      rw [if_pos (by
        rw [toksSize_append]
        have h5 : toksSize [Tok.peerPublicKey p peer.public_key] =
            tokSize (Tok.peerPublicKey p peer.public_key) := by
          simp [toksSize]
        have h0 : toksSize ([] : List Tok) = 0 := rfl
        rw [h5, h0]
        omega)]
      simp
    · rw [nla_put_over B skb1 _ hpub, opt_none_bind]
      rw [if_neg]
      intro hc
      rw [toksSize_append] at hc
      have h5 : toksSize [Tok.peerPublicKey p peer.public_key] =
          tokSize (Tok.peerPublicKey p peer.public_key) := by
        simp [toksSize]
      rw [h5] at hc
      omega

theorem nest_start_someE {B : Nat} {s : Skb} {t : Tok} {pr : Skb × Nat}
    (h : nla_nest_start B s t = some pr) :
    pr = (⟨s.toks ++ [t]⟩, s.toks.length) ∧ s.len + tokSize t ≤ B := by
  unfold nla_nest_start at h
  rcases hp : nla_put B s t with _ | s2
  · rw [hp] at h; cases h
  · rw [hp] at h
    rcases nla_put_someE hp with ⟨rfl, hle⟩
    refine ⟨?_, hle⟩
    have h2 : some ((⟨s.toks ++ [t]⟩ : Skb), s.toks.length) = some pr := h
    exact (Option.some_inj.mp h2).symm

theorem greedy_le (B : Nat) : ∀ (es : List AllowedIP) (L : Nat),
    greedyCount B L es ≤ es.length := by
  intro es
  induction es with
  | nil => intro L; simp [greedyCount]
  | cons ip rest ih =>
    intro L
    rw [greedyCount]
    by_cases h : L + aipEntrySize ip ≤ B
    · rw [if_pos h]
      simp only [List.length_cons]
      exact Nat.succ_le_succ (ih _)
    · rw [if_neg h]
      simp

theorem toksSize_one (t : Tok) : toksSize [t] = tokSize t := by
  simp [toksSize]

theorem toksSize_two (t1 t2 : Tok) : toksSize [t1, t2] = tokSize t1 + tokSize t2 := by
  simp [toksSize]

theorem toksSize_fixed (index p : Nat) (peer : DPeer) (j : Nat) :
    toksSize (peer_fixed_toks index p peer j) =
      4 + (toksSize ([Tok.peerPublicKey p peer.public_key] ++
        (if j == 0 then peer_field_toks p peer else [])) + 4) := by
  unfold peer_fixed_toks
  rw [toksSize_append, toksSize_append, toksSize_append]
  rw [toksSize_two, toksSize_one, toksSize_one]
  simp only [tokSize]
  omega

theorem toksSize_block (index p : Nat) (peer : DPeer) (j : Nat) :
    toksSize (peer_block_toks index p peer j) =
      toksSize (peer_fixed_toks index p peer j) +
      ((peer.allowedips.drop (j - 1)).map aipEntrySize).sum := by
  unfold peer_block_toks
  rw [toksSize_append, tagFrom_size]

/-- A peer block that fits whole is emitted whole, with a zero cursor-out
(netlink.c:89-140, success path). -/
theorem get_peer_success (B p index j : Nat) (peer : DPeer) (skb : Skb)
    (hj : j - 1 ≤ peer.allowedips.length)
    (hfit : skb.len + toksSize (peer_block_toks index p peer j) ≤ B) :
    get_peer B p peer index j skb =
      (0, ⟨skb.toks ++ peer_block_toks index p peer j⟩, 0) := by
  have hblk := toksSize_block index p peer j
  have hfx := toksSize_fixed index p peer j
  have hlen0 : toksSize skb.toks = skb.len := rfl
  have heta : Skb.len ⟨skb.toks⟩ = skb.len := rfl
  simp only [get_peer]
  have e1 : nla_nest_start B skb (Tok.peerStart index p) =
      some (⟨skb.toks ++ [Tok.peerStart index p]⟩, skb.toks.length) := by
    rw [nla_nest_start, nla_put_fits B skb _ (by simp only [tokSize]; omega)]
    rfl
  rw [e1]
  try dsimp only
  rw [fixed_chain_eq B p peer j ⟨skb.toks ++ [Tok.peerStart index p]⟩]
  rw [if_pos (by rw [Skb.len_push]; simp only [tokSize]; omega)]
  try dsimp only
  have e2 : nla_nest_start B ⟨skb.toks ++ [Tok.peerStart index p] ++
      ([Tok.peerPublicKey p peer.public_key] ++
        (if j == 0 then peer_field_toks p peer else []))⟩ (Tok.aipsStart p) =
      some (⟨skb.toks ++ [Tok.peerStart index p] ++
        ([Tok.peerPublicKey p peer.public_key] ++
          (if j == 0 then peer_field_toks p peer else [])) ++ [Tok.aipsStart p]⟩,
        (skb.toks ++ [Tok.peerStart index p] ++
          ([Tok.peerPublicKey p peer.public_key] ++
            (if j == 0 then peer_field_toks p peer else []))).length) := by
    rw [nla_nest_start, nla_put_fits B _ _ (by
      rw [len_append_toks, toksSize_append, toksSize_one]
      simp only [tokSize]
      omega)]
    rfl
  rw [e2]
  try dsimp only
  have hlen3 : Skb.len ⟨skb.toks ++ [Tok.peerStart index p] ++
      ([Tok.peerPublicKey p peer.public_key] ++
        (if j == 0 then peer_field_toks p peer else [])) ++ [Tok.aipsStart p]⟩ =
      skb.len + toksSize (peer_fixed_toks index p peer j) := by
    rw [Skb.len_push, len_append_toks, toksSize_append, toksSize_one]
    simp only [tokSize]
    omega
  rw [walk_skips B p (j - 1) peer.allowedips
    ⟨skb.toks ++ [Tok.peerStart index p] ++
      ([Tok.peerPublicKey p peer.public_key] ++
        (if j == 0 then peer_field_toks p peer else [])) ++ [Tok.aipsStart p]⟩
    0 j (by intro q hq; omega) hj]
  rw [Nat.zero_add]
  rw [walk_emit B p (peer.allowedips.drop (j - 1)) _ (j - 1) j (by omega)]
  rw [greedy_full B (peer.allowedips.drop (j - 1)) _ (by rw [hlen3]; omega)]
  rw [if_pos rfl, if_pos rfl]
  try dsimp only
  rw [if_neg (by simp)]
  rw [List.take_length]
  unfold peer_block_toks peer_fixed_toks
  simp [List.append_assoc]

/-- What `get_peer` can do at allowed-IP cursor zero: emit the whole
block, fail before keeping anything (nest cancelled, cursor untouched), or
keep the fixed part plus a prefix of entries and hand back the next-entry
cursor (netlink.c:89-140). -/
theorem get_peer_cases (B p index : Nat) (peer : DPeer) (skb : Skb) :
    get_peer B p peer index 0 skb =
        (0, ⟨skb.toks ++ peer_block_toks index p peer 0⟩, 0) ∨
    get_peer B p peer index 0 skb = (-EMSGSIZE, skb, 0) ∨
    ∃ m, m < peer.allowedips.length ∧
      get_peer B p peer index 0 skb =
        (-EMSGSIZE, ⟨skb.toks ++ peer_fixed_toks index p peer 0 ++
          tagFrom p 0 (peer.allowedips.take m)⟩, m + 1) := by
  simp only [get_peer]
  rcases hn1 : nla_nest_start B skb (Tok.peerStart index p) with _ | pr
  · right; left; rfl
  · rcases nest_start_someE hn1 with ⟨rfl, hle1⟩
    try dsimp only
    rw [fixed_chain_eq B p peer 0 ⟨skb.toks ++ [Tok.peerStart index p]⟩]
    by_cases hfx1 : Skb.len ⟨skb.toks ++ [Tok.peerStart index p]⟩ +
        toksSize ([Tok.peerPublicKey p peer.public_key] ++
          (if (0 : Nat) == 0 then peer_field_toks p peer else [])) ≤ B
    · rw [if_pos hfx1]
      try dsimp only
      rcases hn2 : nla_nest_start B
          ⟨skb.toks ++ [Tok.peerStart index p] ++
            ([Tok.peerPublicKey p peer.public_key] ++
              (if (0 : Nat) == 0 then peer_field_toks p peer else []))⟩
          (Tok.aipsStart p) with _ | pr2
      · right; left
        try dsimp only
        rw [cancel_two skb (Tok.peerStart index p)
          ([Tok.peerPublicKey p peer.public_key] ++
            (if (0 : Nat) == 0 then peer_field_toks p peer else []))]
      · rcases nest_start_someE hn2 with ⟨rfl, hle2⟩
        try dsimp only
        rw [walk_emit B p peer.allowedips _ 0 0 (by omega)]
        by_cases hall : greedyCount B
            (Skb.len ⟨skb.toks ++ [Tok.peerStart index p] ++
              ([Tok.peerPublicKey p peer.public_key] ++
                (if (0 : Nat) == 0 then peer_field_toks p peer else [])) ++
              [Tok.aipsStart p]⟩) peer.allowedips = peer.allowedips.length
        · left
          rw [if_pos hall, if_pos hall]
          try dsimp only
          rw [if_neg (by simp)]
          rw [hall, List.take_length]
          unfold peer_block_toks peer_fixed_toks
          simp [List.append_assoc]
        · right; right
          refine ⟨greedyCount B
            (Skb.len ⟨skb.toks ++ [Tok.peerStart index p] ++
              ([Tok.peerPublicKey p peer.public_key] ++
                (if (0 : Nat) == 0 then peer_field_toks p peer else [])) ++
              [Tok.aipsStart p]⟩) peer.allowedips,
            Nat.lt_of_le_of_ne (greedy_le B _ _) hall, ?_⟩
          rw [if_neg hall, if_neg hall]
          try dsimp only
          rw [if_pos (show (-EMSGSIZE : Int) ≠ 0 from by decide)]
          rw [Nat.zero_add]
          unfold peer_fixed_toks
          simp [List.append_assoc]
    · rw [if_neg hfx1]
      try dsimp only
      right; left
      rw [cancel_one skb (Tok.peerStart index p)]

/-! ### The peer loop of `get` (netlink.c:211-217) -/

theorem fixed_filter_aip (idx p : Nat) (peer : DPeer) (j : Nat) :
    (peer_fixed_toks idx p peer j).filter isAipEntryTok = [] := by
  unfold peer_fixed_toks peer_field_toks
  by_cases hj : j == 0 <;>
    simp [hj, List.filter_append, isAipEntryTok, endpoint_tok_filter_aip]

theorem fixed_filter_field (idx p : Nat) (peer : DPeer) (j : Nat) :
    (peer_fixed_toks idx p peer j).filter isFieldTok =
      (if j == 0 then peer_field_toks p peer else []) := by
  unfold peer_fixed_toks
  by_cases hj : j == 0 <;>
    simp [hj, List.filter_append, isFieldTok, peer_field_toks,
      endpoint_tok_filter_field]

theorem fixed_filter_dev (idx p : Nat) (peer : DPeer) (j : Nat) :
    (peer_fixed_toks idx p peer j).filter isDevTok = [] := by
  unfold peer_fixed_toks peer_field_toks
  by_cases hj : j == 0 <;>
    simp [hj, List.filter_append, isDevTok, endpoint_tok_filter_dev]

theorem fixed_pubP (idx p : Nat) (peer : DPeer) (j : Nat) :
    (peer_fixed_toks idx p peer j).filterMap pubP = [p] := by
  unfold peer_fixed_toks peer_field_toks
  by_cases hj : j == 0 <;>
    simp [hj, List.filterMap_append, pubP, endpoint_tok_pubP]

theorem fixed_pub_val (idx p : Nat) (peer : DPeer) (j : Nat) (q : Nat)
    (k : List Nat) (h : Tok.peerPublicKey q k ∈ peer_fixed_toks idx p peer j) :
    q = p ∧ k = peer.public_key := by
  have hb : Tok.peerPublicKey q k ∈ peer_block_toks idx p peer j := by
    unfold peer_block_toks
    exact List.mem_append_left _ h
  exact block_pub_val idx p peer j q k hb

theorem tagFrom_pub_val (p : Nat) (l : List AllowedIP) : ∀ a (q : Nat) (k : List Nat),
    Tok.peerPublicKey q k ∈ tagFrom p a l → False := by
  induction l with
  | nil => intro a q k h; simp [tagFrom] at h
  | cons ip rest ih =>
    intro a q k h
    rw [tagFrom, List.mem_append] at h
    rcases h with h | h
    · simp [entry_toks] at h
    · exact ih _ _ _ h

/-- One full run of the peer loop continued after an already-emitted peer
(`next_peer_cursor` already points at `prev`): some first `u` peers are
appended as whole blocks; then either the list is done, or the next peer
fails and keeps nothing (cursor 0), or it keeps its fixed part plus `m`
whole allowed-IP entries and the walk cursor `m + 1` (netlink.c:211-217).
-/
theorem loop_rest_spec (B : Nat) : ∀ (l : List DPeer) (s idx0 prev : Nat) (skb : Skb),
    ∃ u body,
      u ≤ l.length ∧
      body.filter isDevTok = [] ∧
      (∀ q k, Tok.peerPublicKey q k ∈ body → s ≤ q ∧ q < s + l.length ∧
        k = (l.getD (q - s) defaultDPeer).public_key) ∧
      ((u = l.length ∧
         get_peers_loop B (posZip s l) idx0 0 (some prev) skb =
           (true, some (if u = 0 then prev else s + u - 1), 0, ⟨skb.toks ++ body⟩) ∧
         body.filter isAipEntryTok = aipSuffixAux s l 0 ∧
         body.filter isFieldTok = fieldAux s l ∧
         body.filterMap pubP = List.range' s l.length)
       ∨ (u < l.length ∧
         get_peers_loop B (posZip s l) idx0 0 (some prev) skb =
           (false, some (if u = 0 then prev else s + u - 1), 0, ⟨skb.toks ++ body⟩) ∧
         body.filter isAipEntryTok ++ aipSuffixAux (s + u) (l.drop u) 0 = aipSuffixAux s l 0 ∧
         body.filter isFieldTok ++ fieldAux (s + u) (l.drop u) = fieldAux s l ∧
         body.filterMap pubP = List.range' s u)
       ∨ (∃ m, u < l.length ∧ m < (l.getD u defaultDPeer).allowedips.length ∧
         get_peers_loop B (posZip s l) idx0 0 (some prev) skb =
           (false, some (if u = 0 then prev else s + u - 1), m + 1, ⟨skb.toks ++ body⟩) ∧
         body.filter isAipEntryTok ++ aipSuffixAux (s + u) (l.drop u) (m + 1 - 1) =
           aipSuffixAux s l 0 ∧
         body.filter isFieldTok ++ fieldAux (s + u + 1) (l.drop (u + 1)) = fieldAux s l ∧
         body.filterMap pubP = List.range' s (u + 1))) := by
  intro l
  induction l with
  | nil =>
    intro s idx0 prev skb
    refine ⟨0, [], by simp, by simp, by simp, Or.inl ⟨rfl, ?_, by simp [aipSuffixAux],
      by simp [fieldAux], by simp⟩⟩
    show get_peers_loop B (posZip s []) idx0 0 (some prev) skb =
      (true, some prev, 0, ⟨skb.toks ++ []⟩)
    rw [List.append_nil]
    rfl
  | cons peer rest ih =>
    intro s idx0 prev skb
    have hunf : get_peers_loop B (posZip s (peer :: rest)) idx0 0 (some prev) skb =
        (match get_peer B s peer idx0 0 skb with
         | (r, skb2, cursor2') =>
           if r ≠ 0 then (false, some prev, cursor2', skb2)
           else get_peers_loop B (posZip (s + 1) rest) (idx0 + 1) cursor2' (some s) skb2) := by
      rw [posZip]
      rfl
    rcases get_peer_cases B s idx0 peer skb with hgp | hgp | ⟨m, hm, hgp⟩
    · -- full block, loop continues
      rcases ih (s + 1) (idx0 + 1) s ⟨skb.toks ++ peer_block_toks idx0 s peer 0⟩
        with ⟨u2, body2, hu2, hdev2, hpub2, hout2⟩
      refine ⟨u2 + 1, peer_block_toks idx0 s peer 0 ++ body2, ?_, ?_, ?_, ?_⟩
      · simp only [List.length_cons]; omega
      · rw [List.filter_append, block_filter_dev, hdev2]
        rfl
      · intro q k hq
        rw [List.mem_append] at hq
        rcases hq with hq | hq
        · obtain ⟨hq1, hk⟩ := block_pub_val idx0 s peer 0 q k hq
          refine ⟨by omega, by simp only [List.length_cons]; omega, ?_⟩
          rw [hq1, hk, Nat.sub_self]
          rfl
        · rcases hpub2 q k hq with ⟨hq1, hq2, hq3⟩
          refine ⟨by omega, by simp only [List.length_cons]; omega, ?_⟩
          rw [hq3]
          have hqs : q - s = (q - (s + 1)) + 1 := by omega
          rw [hqs, List.getD_cons_succ]
      · have hstep : get_peers_loop B (posZip s (peer :: rest)) idx0 0 (some prev) skb =
            get_peers_loop B (posZip (s + 1) rest) (idx0 + 1) 0 (some s)
              ⟨skb.toks ++ peer_block_toks idx0 s peer 0⟩ := by
          rw [hunf, hgp]
          rfl
        have hblk0 : (peer_block_toks idx0 s peer 0).filter isAipEntryTok =
            tagFrom s 0 peer.allowedips := by
          rw [block_filter_aip]
          rfl
        have hblkf : (peer_block_toks idx0 s peer 0).filter isFieldTok =
            peer_field_toks s peer := by
          rw [block_filter_field]
          rfl
        have hskb2 : (⟨(⟨skb.toks ++ peer_block_toks idx0 s peer 0⟩ : Skb).toks ++ body2⟩ : Skb) =
            ⟨skb.toks ++ (peer_block_toks idx0 s peer 0 ++ body2)⟩ := by
          simp [List.append_assoc]
        have hite1 : ∀ z : Nat, (if u2 + 1 = 0 then z else s + (u2 + 1) - 1) = s + u2 := by
          intro z
          rw [if_neg (by omega)]
          omega
        have hite2 : (if u2 = 0 then s else s + 1 + u2 - 1) = s + u2 := by
          by_cases h0 : u2 = 0
          · rw [if_pos h0]; omega
          · rw [if_neg h0]; omega
        rcases hout2 with ⟨hu2e, hloop2, haip2, hfld2, hpp2⟩ |
          ⟨hu2l, hloop2, haip2, hfld2, hpp2⟩ | ⟨m2, hu2l, hm2, hloop2, haip2, hfld2, hpp2⟩
        · left
          refine ⟨by simp [hu2e], ?_, ?_, ?_, ?_⟩
          · rw [hstep, hloop2, hite2, hskb2, hite1 prev]
          · rw [List.filter_append, hblk0, haip2]
            rfl
          · rw [List.filter_append, hblkf, hfld2]
            rfl
          · rw [List.filterMap_append, block_pubP, hpp2]
            simp only [List.length_cons]
            rw [List.range'_succ]
            rfl
        · right; left
          have hdrop : (peer :: rest).drop (u2 + 1) = rest.drop u2 := rfl
          have harr : s + (u2 + 1) = s + 1 + u2 := by omega
          refine ⟨by simp only [List.length_cons]; omega, ?_, ?_, ?_, ?_⟩
          · rw [hstep, hloop2, hite2, hskb2, hite1 prev]
          · rw [List.filter_append, hblk0, hdrop, harr, List.append_assoc, haip2]
            rfl
          · rw [List.filter_append, hblkf, hdrop, harr, List.append_assoc, hfld2]
            rfl
          · rw [List.filterMap_append, block_pubP, hpp2, List.range'_succ]
            rfl
        · right; right
          have hdrop : (peer :: rest).drop (u2 + 1) = rest.drop u2 := rfl
          have hdrop2 : (peer :: rest).drop (u2 + 1 + 1) = rest.drop (u2 + 1) := rfl
          have harr : s + (u2 + 1) = s + 1 + u2 := by omega
          have harr2 : s + (u2 + 1) + 1 = s + 1 + u2 + 1 := by omega
          refine ⟨m2, by simp only [List.length_cons]; omega, ?_, ?_, ?_, ?_, ?_⟩
          · rw [List.getD_cons_succ]
            exact hm2
          · rw [hstep, hloop2, hite2, hskb2, hite1 prev]
          · rw [List.filter_append, hblk0, hdrop, harr, List.append_assoc, haip2]
            rfl
          · rw [List.filter_append, hblkf, hdrop2, harr2, List.append_assoc, hfld2]
            rfl
          · rw [List.filterMap_append, block_pubP, hpp2, List.range'_succ]
            rfl
    · -- nothing kept
      refine ⟨0, [], by simp, by simp, by simp, Or.inr (Or.inl ⟨by simp, ?_, by
        simp [aipSuffixAux], by simp [fieldAux], by simp⟩)⟩
      rw [hunf, hgp]
      try dsimp only
      rw [if_pos (show (-EMSGSIZE : Int) ≠ 0 from by decide)]
      rw [List.append_nil]
      rfl
    · -- fixed part plus a prefix of entries kept
      refine ⟨0, peer_fixed_toks idx0 s peer 0 ++ tagFrom s 0 (peer.allowedips.take m),
        by simp, ?_, ?_, Or.inr (Or.inr ⟨m, by simp, ?_, ?_, ?_, ?_, ?_⟩)⟩
      · rw [List.filter_append, fixed_filter_dev, tagFrom_filter_dev]
        rfl
      · intro q k hq
        rw [List.mem_append] at hq
        rcases hq with hq | hq
        · obtain ⟨hq1, hk⟩ := fixed_pub_val idx0 s peer 0 q k hq
          refine ⟨by omega, by simp only [List.length_cons]; omega, ?_⟩
          rw [hq1, hk, Nat.sub_self]
          rfl
        · exact absurd hq (fun h => tagFrom_pub_val s _ 0 q k h)
      · exact hm
      · rw [hunf, hgp]
        try dsimp only
        rw [if_pos (show (-EMSGSIZE : Int) ≠ 0 from by decide)]
        rw [List.append_assoc]
        rfl
      · rw [List.filter_append, fixed_filter_aip, tagFrom_filter_aip, List.nil_append]
        have h3 : tagFrom s 0 (peer.allowedips.take m) ++
            tagFrom s m (peer.allowedips.drop m) = tagFrom s 0 peer.allowedips := by
          have h4 := tagFrom_append s (peer.allowedips.take m) (peer.allowedips.drop m) 0
          rw [List.take_append_drop] at h4
          rw [h4]
          have hlen : (peer.allowedips.take m).length = m := by
            rw [List.length_take]
            omega
          rw [hlen, Nat.zero_add]
        have h1 : aipSuffixAux (s + 0) ((peer :: rest).drop 0) (m + 1 - 1) =
            tagFrom s m (peer.allowedips.drop m) ++ aipSuffixAux (s + 1) rest 0 := rfl
        rw [h1, ← List.append_assoc, h3]
        rfl
      · rw [List.filter_append, fixed_filter_field, tagFrom_filter_field, List.append_nil]
        show peer_field_toks s peer ++ fieldAux (s + 0 + 1) ((peer :: rest).drop (0 + 1)) =
          fieldAux s (peer :: rest)
        rfl
      · rw [List.filterMap_append, fixed_pubP, tagFrom_pubP, List.append_nil,
          List.range'_succ]
        rfl

theorem enumFrom_posZip : ∀ (l : List DPeer) (k : Nat),
    List.enumFrom k l = posZip k l := by
  intro l
  induction l with
  | nil => intro k; rfl
  | cons peer rest ih =>
    intro k
    rw [List.enumFrom, posZip, ih]

theorem posZip_drop : ∀ (l : List DPeer) (s k : Nat),
    (posZip k l).drop s = posZip (k + s) (l.drop s) := by
  intro l
  induction l with
  | nil => intro s k; simp [posZip]
  | cons peer rest ih =>
    intro s k
    match s with
    | 0 => simp [posZip]
    | s' + 1 =>
      rw [posZip, List.drop_succ_cons, List.drop_succ_cons, ih s' (k + 1)]
      have : k + 1 + s' = k + (s' + 1) := by omega
      rw [this]

theorem enum_drop_posZip (l : List DPeer) (s : Nat) :
    l.enum.drop s = posZip s (l.drop s) := by
  rw [List.enum, enumFrom_posZip, posZip_drop]
  rw [Nat.zero_add]

theorem getD_drop (l : List DPeer) (k i : Nat) :
    (l.drop k).getD i defaultDPeer = l.getD (k + i) defaultDPeer := by
  unfold List.getD
  rw [List.get?_drop]

theorem sum_drop_le {A : Type} (f : A → Nat) (l : List A) (a : Nat) :
    ((l.drop a).map f).sum ≤ (l.map f).sum := by
  conv_rhs => rw [← List.take_append_drop a l]
  rw [List.map_append, List.sum_append]
  omega

theorem block_le_full (idx p : Nat) (peer : DPeer) (j : Nat) :
    toksSize (peer_block_toks idx p peer j) ≤ peerFullSize peer := by
  rw [toksSize_block]
  unfold peerFullSize
  have h1 := toksSize_fixed idx p peer j
  have h2 := toksSize_fixed 0 0 peer 0
  have h3 : toksSize ([Tok.peerPublicKey p peer.public_key] ++
      (if j == 0 then peer_field_toks p peer else [])) ≤
      toksSize ([Tok.peerPublicKey 0 peer.public_key] ++ peer_field_toks 0 peer) := by
    rw [toksSize_append, toksSize_append, toksSize_one, toksSize_one]
    have hpk : tokSize (Tok.peerPublicKey p peer.public_key) =
        tokSize (Tok.peerPublicKey 0 peer.public_key) := rfl
    have hfl : ∀ q : Nat, toksSize (peer_field_toks q peer) =
        toksSize (peer_field_toks 0 peer) := by
      intro q
      unfold peer_field_toks endpoint_tok
      rcases peer.endpoint with _ | a
      · rfl
      · by_cases h4 : a.sa_family == AF_INET
        · simp [h4, toksSize, tokSize]
        · by_cases h6 : a.sa_family == AF_INET6 <;> simp [h4, h6, toksSize, tokSize]
    by_cases hj : j == 0
    · rw [if_pos hj, hfl p, hpk]
    · rw [if_neg hj, hpk]
      have : toksSize ([] : List Tok) = 0 := rfl
      rw [this]
      omega
  have h4 := sum_drop_le aipEntrySize peer.allowedips (j - 1)
  have hj0 : (if (0 : Nat) == 0 then peer_field_toks 0 peer else []) =
      peer_field_toks 0 peer := rfl
  rw [hj0] at h2
  omega

theorem toksSize_cons (t : Tok) (l : List Tok) :
    toksSize (t :: l) = tokSize t + toksSize l := by
  simp [toksSize]

/-- The device-scalar chain of a first chunk (netlink.c:181-197) succeeds
whole under the budget bound, emitting exactly the scalar attributes after
the genl header. -/
theorem dev_chain_eq (B : Nat) (wg : Device) (hB : devHeadSize wg ≤ B) :
    ((nla_put B ⟨[Tok.genlHdr]⟩ (.devListenPort wg.incoming_port) >>= fun s =>
       nla_put B s (.devFwmark wg.fwmark) >>= fun s =>
       nla_put B s (.devIfindex wg.ifindex) >>= fun s =>
       nla_put B s (.devIfname wg.ifname)) >>= fun s =>
      if wg.has_identity then
        nla_put B s (.devPrivateKey wg.static_private) >>= fun s =>
          nla_put B s (.devPublicKey wg.static_public)
      else some s) =
    some ⟨Tok.genlHdr :: devScalarToks wg⟩ := by
  have hsz : devHeadSize wg = 20 + ((List.map tokSize (devScalarToks wg)).sum + 4) := by
    unfold devHeadSize devHeadToks toksSize
    simp [tokSize]
    try omega
  have hsc : (List.map tokSize (devScalarToks wg)).sum =
      8 + (8 + (8 + ((4 + wg.ifname.length + 1) +
        (if wg.has_identity then
          (4 + wg.static_private.length) + (4 + wg.static_public.length) else 0)))) := by
    unfold devScalarToks
    by_cases hid : wg.has_identity <;> simp [hid, tokSize] <;> try omega
  have hl0 : Skb.len ⟨[Tok.genlHdr]⟩ = 20 := rfl
  have e1 : nla_put B ⟨[Tok.genlHdr]⟩ (Tok.devListenPort wg.incoming_port) =
      some ⟨[Tok.genlHdr] ++ [Tok.devListenPort wg.incoming_port]⟩ :=
    nla_put_fits B _ _ (by rw [hl0]; simp only [tokSize]; omega)
  have e2 : nla_put B ⟨[Tok.genlHdr] ++ [Tok.devListenPort wg.incoming_port]⟩
      (Tok.devFwmark wg.fwmark) =
      some ⟨[Tok.genlHdr] ++ [Tok.devListenPort wg.incoming_port] ++ [Tok.devFwmark wg.fwmark]⟩ :=
    nla_put_fits B _ _ (by rw [Skb.len_push, hl0]; simp only [tokSize]; omega)
  have e3 : nla_put B ⟨[Tok.genlHdr] ++ [Tok.devListenPort wg.incoming_port] ++
      [Tok.devFwmark wg.fwmark]⟩ (Tok.devIfindex wg.ifindex) =
      some ⟨[Tok.genlHdr] ++ [Tok.devListenPort wg.incoming_port] ++ [Tok.devFwmark wg.fwmark] ++
        [Tok.devIfindex wg.ifindex]⟩ :=
    nla_put_fits B _ _ (by rw [Skb.len_push, Skb.len_push, hl0]; simp only [tokSize]; omega)
  have e4 : nla_put B ⟨[Tok.genlHdr] ++ [Tok.devListenPort wg.incoming_port] ++
      [Tok.devFwmark wg.fwmark] ++ [Tok.devIfindex wg.ifindex]⟩ (Tok.devIfname wg.ifname) =
      some ⟨[Tok.genlHdr] ++ [Tok.devListenPort wg.incoming_port] ++ [Tok.devFwmark wg.fwmark] ++
        [Tok.devIfindex wg.ifindex] ++ [Tok.devIfname wg.ifname]⟩ :=
    nla_put_fits B _ _ (by
      rw [Skb.len_push, Skb.len_push, Skb.len_push, hl0]; simp only [tokSize]; omega)
  rw [e1, opt_some_bind]
  try dsimp only
  rw [e2, opt_some_bind]
  try dsimp only
  rw [e3, opt_some_bind]
  try dsimp only
  rw [e4, opt_some_bind]
  try dsimp only
  by_cases hid : wg.has_identity
  · rw [if_pos hid]
    rw [if_pos hid] at hsc
    have e5 : nla_put B ⟨[Tok.genlHdr] ++ [Tok.devListenPort wg.incoming_port] ++
        [Tok.devFwmark wg.fwmark] ++ [Tok.devIfindex wg.ifindex] ++ [Tok.devIfname wg.ifname]⟩
        (Tok.devPrivateKey wg.static_private) =
        some ⟨[Tok.genlHdr] ++ [Tok.devListenPort wg.incoming_port] ++
          [Tok.devFwmark wg.fwmark] ++ [Tok.devIfindex wg.ifindex] ++ [Tok.devIfname wg.ifname] ++
          [Tok.devPrivateKey wg.static_private]⟩ :=
      nla_put_fits B _ _ (by
        rw [Skb.len_push, Skb.len_push, Skb.len_push, Skb.len_push, hl0]
        simp only [tokSize]; omega)
    have e6 : nla_put B ⟨[Tok.genlHdr] ++ [Tok.devListenPort wg.incoming_port] ++
        [Tok.devFwmark wg.fwmark] ++ [Tok.devIfindex wg.ifindex] ++ [Tok.devIfname wg.ifname] ++
        [Tok.devPrivateKey wg.static_private]⟩ (Tok.devPublicKey wg.static_public) =
        some ⟨[Tok.genlHdr] ++ [Tok.devListenPort wg.incoming_port] ++
          [Tok.devFwmark wg.fwmark] ++ [Tok.devIfindex wg.ifindex] ++ [Tok.devIfname wg.ifname] ++
          [Tok.devPrivateKey wg.static_private] ++ [Tok.devPublicKey wg.static_public]⟩ :=
      nla_put_fits B _ _ (by
        rw [Skb.len_push, Skb.len_push, Skb.len_push, Skb.len_push, Skb.len_push, hl0]
        simp only [tokSize]; omega)
    rw [e5, opt_some_bind]
    try dsimp only
    rw [e6]
    unfold devScalarToks
    rw [if_pos hid]
    simp [List.append_assoc]
  · rw [if_neg hid]
    unfold devScalarToks
    rw [if_neg hid]
    simp [List.append_assoc]

theorem devScalar_filter_dev (wg : Device) :
    (devScalarToks wg).filter isDevTok = devScalarToks wg := by
  unfold devScalarToks
  by_cases hid : wg.has_identity <;> simp [hid, isDevTok]

theorem devScalar_filter_aip (wg : Device) :
    (devScalarToks wg).filter isAipEntryTok = [] := by
  unfold devScalarToks
  by_cases hid : wg.has_identity <;> simp [hid, isAipEntryTok]

theorem devScalar_filter_field (wg : Device) :
    (devScalarToks wg).filter isFieldTok = [] := by
  unfold devScalarToks
  by_cases hid : wg.has_identity <;> simp [hid, isFieldTok]

theorem devScalar_pubP (wg : Device) :
    (devScalarToks wg).filterMap pubP = [] := by
  unfold devScalarToks
  by_cases hid : wg.has_identity <;> simp [hid, pubP]

theorem devScalar_no_pub (wg : Device) (q : Nat) (k : List Nat)
    (h : Tok.peerPublicKey q k ∈ devScalarToks wg) : False := by
  unfold devScalarToks at h
  by_cases hid : wg.has_identity <;> simp [hid] at h

theorem devHeadSize_eq (wg : Device) :
    devHeadSize wg = 20 + ((List.map tokSize (devScalarToks wg)).sum + 4) := by
  unfold devHeadSize devHeadToks toksSize
  simp [tokSize]
  try omega

theorem devHeadSize_ge (wg : Device) : 24 ≤ devHeadSize wg := by
  rw [devHeadSize_eq]
  omega

/-- The peer walk of one chunk, from peer position `s` with saved
allowed-IP cursor `j`, under the budget bound: the first peer always goes
out whole (so the resumption point always advances), after which the loop
either finishes or stops at a later peer with a valid stored cursor; the
emitted body accounts exactly for the difference between what was owed at
`(s, j)` and what remains owed at the stored cursor. -/
theorem chunk_loop_spec (B : Nat) (wg : Device) (s j : Nat) (skb3 : Skb)
    (hs : s < wg.peers.length)
    (hjv : j = 0 ∨ (1 ≤ j ∧ j - 1 < (peerAt wg s).allowedips.length))
    (hlen : skb3.len ≤ devHeadSize wg)
    (hBok : ∀ peer ∈ wg.peers, devHeadSize wg + peerFullSize peer ≤ B) :
    ∃ body done next cursor2,
      get_peers_loop B (wg.peers.enum.drop s) 0 j none skb3 =
        (done, next, cursor2, ⟨skb3.toks ++ body⟩) ∧
      body.filter isDevTok = [] ∧
      (∀ q k, Tok.peerPublicKey q k ∈ body →
        q < wg.peers.length ∧ k = (peerAt wg q).public_key) ∧
      ((done = true ∧
         body.filter isAipEntryTok = aipRemaining wg s (j - 1) ∧
         body.filter isFieldTok = fieldRemaining wg s j ∧
         body.filterMap pubP = List.range' s (wg.peers.length - s))
       ∨ (done = false ∧ ∃ t2 j2, next = some t2 ∧ cursor2 = j2 ∧
         s ≤ t2 ∧ ValidCursor wg ⟨some t2, j2⟩ ∧
         body.filter isAipEntryTok ++ aipRemaining wg (t2 + 1) (j2 - 1) =
           aipRemaining wg s (j - 1) ∧
         body.filter isFieldTok ++ fieldRemaining wg (t2 + 1) j2 =
           fieldRemaining wg s j ∧
         ∃ cnt, body.filterMap pubP = List.range' s cnt ∧
           t2 + 1 ≤ s + cnt ∧ s + cnt ≤ t2 + 2 ∧ s + cnt ≤ wg.peers.length)) := by
  have hgetD : peerAt wg s = wg.peers[s] := List.getD_eq_getElem wg.peers defaultDPeer hs
  have hsplit : wg.peers.drop s = peerAt wg s :: wg.peers.drop (s + 1) := by
    rw [hgetD]
    exact List.drop_eq_getElem_cons hs
  have hmem : peerAt wg s ∈ wg.peers := by
    rw [hgetD]
    exact List.getElem_mem hs
  have hj1 : j - 1 ≤ (peerAt wg s).allowedips.length := by
    rcases hjv with h | ⟨h1, h2⟩ <;> omega
  have hfit : skb3.len + toksSize (peer_block_toks 0 s (peerAt wg s) j) ≤ B := by
    have h1 := block_le_full 0 s (peerAt wg s) j
    have h2 := hBok (peerAt wg s) hmem
    omega
  have hgp := get_peer_success B s 0 j (peerAt wg s) skb3 hj1 hfit
  have hlend : (wg.peers.drop (s + 1)).length = wg.peers.length - (s + 1) := by
    rw [List.length_drop]
  have hlen2 : (wg.peers.drop (s + 1)).length + (s + 1) = wg.peers.length := by
    rw [List.length_drop]
    omega
  rw [enum_drop_posZip, hsplit]
  have hunf : get_peers_loop B (posZip s (peerAt wg s :: wg.peers.drop (s + 1))) 0 j none skb3 =
      (match get_peer B s (peerAt wg s) 0 j skb3 with
       | (r, skb2, cursor2') =>
         if r ≠ 0 then (false, none, cursor2', skb2)
         else get_peers_loop B (posZip (s + 1) (wg.peers.drop (s + 1))) 1 cursor2'
           (some s) skb2) := by
    rw [posZip]
    rfl
  rw [hunf, hgp]
  try dsimp only
  rw [if_neg (by simp)]
  obtain ⟨u, body2, hu, hdev2, hpub2, hout⟩ :=
    loop_rest_spec B (wg.peers.drop (s + 1)) (s + 1) 1 s
      ⟨skb3.toks ++ peer_block_toks 0 s (peerAt wg s) j⟩
  have hskbass : ∀ L : List Tok,
      (⟨(⟨skb3.toks ++ peer_block_toks 0 s (peerAt wg s) j⟩ : Skb).toks ++ L⟩ : Skb) =
      ⟨skb3.toks ++ (peer_block_toks 0 s (peerAt wg s) j ++ L)⟩ := by
    intro L
    simp [List.append_assoc]
  have hpubOfBody : ∀ L : List Tok,
      (∀ q k, Tok.peerPublicKey q k ∈ L → s + 1 ≤ q ∧ q < s + 1 + (wg.peers.drop (s + 1)).length ∧
        k = ((wg.peers.drop (s + 1)).getD (q - (s + 1)) defaultDPeer).public_key) →
      ∀ q k, Tok.peerPublicKey q k ∈ peer_block_toks 0 s (peerAt wg s) j ++ L →
        q < wg.peers.length ∧ k = (peerAt wg q).public_key := by
    intro L hL q k hq
    rw [List.mem_append] at hq
    rcases hq with hq | hq
    · obtain ⟨hq1, hk⟩ := block_pub_val 0 s (peerAt wg s) j q k hq
      rw [hq1, hk]
      exact ⟨hs, rfl⟩
    · obtain ⟨h1, h2, h3⟩ := hL q k hq
      refine ⟨by omega, ?_⟩
      rw [h3, getD_drop]
      have : s + 1 + (q - (s + 1)) = q := by omega
      rw [this]
      rfl
  have hblkAip : (peer_block_toks 0 s (peerAt wg s) j).filter isAipEntryTok =
      tagFrom s (j - 1) ((peerAt wg s).allowedips.drop (j - 1)) := block_filter_aip _ _ _ _
  have hblkFld : (peer_block_toks 0 s (peerAt wg s) j).filter isFieldTok =
      (if j == 0 then peer_field_toks s (peerAt wg s) else []) := block_filter_field _ _ _ _
  have hremS : aipRemaining wg s (j - 1) =
      tagFrom s (j - 1) ((peerAt wg s).allowedips.drop (j - 1)) ++
        aipSuffixAux (s + 1) (wg.peers.drop (s + 1)) 0 := by
    unfold aipRemaining
    rw [hsplit]
    rfl
  have hfldS : fieldRemaining wg s j =
      (if j == 0 then peer_field_toks s (peerAt wg s) else []) ++
        fieldAux (s + 1) (wg.peers.drop (s + 1)) := by
    unfold fieldRemaining
    by_cases hj0 : j = 0
    · rw [if_pos hj0, hsplit]
      have : (j == 0) = true := by simp [hj0]
      rw [this, if_pos rfl]
      rfl
    · rw [if_neg hj0]
      have : (j == 0) = false := by simp [hj0]
      rw [this]
      rfl
  rcases hout with ⟨hue, hloop, haip, hfld, hpp⟩ |
    ⟨hul, hloop, haip, hfld, hpp⟩ | ⟨m2, hul, hm2, hloop, haip, hfld, hpp⟩
  · -- loop finished everything
    refine ⟨peer_block_toks 0 s (peerAt wg s) j ++ body2, true,
      some (if u = 0 then s else s + 1 + u - 1), 0, ?_, ?_, hpubOfBody body2 hpub2,
      Or.inl ⟨rfl, ?_, ?_, ?_⟩⟩
    · rw [hloop, hskbass]
    · rw [List.filter_append, block_filter_dev, hdev2]
      rfl
    · rw [List.filter_append, hblkAip, haip, hremS]
    · rw [List.filter_append, hblkFld, hfld, hfldS]
    · rw [List.filterMap_append, block_pubP, hpp, hlend]
      have harr : wg.peers.length - s = (wg.peers.length - (s + 1)) + 1 := by omega
      rw [harr, List.range'_succ]
      rfl
  · -- a later peer kept nothing
    refine ⟨peer_block_toks 0 s (peerAt wg s) j ++ body2, false, some (s + u), 0,
      ?_, ?_, hpubOfBody body2 hpub2,
      Or.inr ⟨rfl, s + u, 0, rfl, rfl, by omega, ?_, ?_, ?_, ⟨u + 1, ?_, by omega, by omega, by omega⟩⟩⟩
    · rw [hloop, hskbass]
      have hite : (if u = 0 then s else s + 1 + u - 1) = s + u := by
        by_cases h0 : u = 0
        · rw [if_pos h0]; omega
        · rw [if_neg h0]; omega
      rw [hite]
    · rw [List.filter_append, block_filter_dev, hdev2]
      rfl
    · show ValidCursor wg ⟨some (s + u), 0⟩
      unfold ValidCursor
      have hnlt : s + u + 1 < wg.peers.length := by omega
      refine ⟨hnlt, Or.inl rfl⟩
    · rw [List.filter_append, hblkAip, List.append_assoc]
      have harr : s + u + 1 = s + 1 + u := by omega
      have h01 : (0 : Nat) - 1 = 0 := rfl
      have hrem2 : aipRemaining wg (s + 1 + u) 0 =
          aipSuffixAux (s + 1 + u) ((wg.peers.drop (s + 1)).drop u) 0 := by
        unfold aipRemaining
        have hdd : wg.peers.drop (s + 1 + u) = (wg.peers.drop (s + 1)).drop u := by
          rw [List.drop_drop]
          try congr 1
          try omega
        rw [hdd]
      rw [harr, h01, hrem2, haip, hremS]
    · rw [List.filter_append, hblkFld, List.append_assoc]
      have harr : s + u + 1 = s + 1 + u := by omega
      have hrem2 : fieldRemaining wg (s + 1 + u) 0 =
          fieldAux (s + 1 + u) ((wg.peers.drop (s + 1)).drop u) := by
        unfold fieldRemaining
        rw [if_pos rfl]
        have hdd : wg.peers.drop (s + 1 + u) = (wg.peers.drop (s + 1)).drop u := by
          rw [List.drop_drop]
          try congr 1
          try omega
        rw [hdd]
      rw [harr, hrem2, hfld, hfldS]
    · rw [List.filterMap_append, block_pubP, hpp, List.range'_succ]
      rfl
  · -- a later peer kept its fixed part and a prefix of entries
    refine ⟨peer_block_toks 0 s (peerAt wg s) j ++ body2, false, some (s + u), m2 + 1,
      ?_, ?_, hpubOfBody body2 hpub2,
      Or.inr ⟨rfl, s + u, m2 + 1, rfl, rfl, by omega, ?_, ?_, ?_,
        ⟨u + 2, ?_, by omega, by omega, by omega⟩⟩⟩
    · rw [hloop, hskbass]
      have hite : (if u = 0 then s else s + 1 + u - 1) = s + u := by
        by_cases h0 : u = 0
        · rw [if_pos h0]; omega
        · rw [if_neg h0]; omega
      rw [hite]
    · rw [List.filter_append, block_filter_dev, hdev2]
      rfl
    · show ValidCursor wg ⟨some (s + u), m2 + 1⟩
      unfold ValidCursor
      have hnlt : s + u + 1 < wg.peers.length := by omega
      have hm1 : 1 ≤ m2 + 1 := by omega
      refine ⟨hnlt, Or.inr ⟨hm1, ?_⟩⟩
      have : m2 + 1 - 1 = m2 := by omega
      rw [this]
      have hAt : peerAt wg (s + u + 1) =
          (wg.peers.drop (s + 1)).getD u defaultDPeer := by
        rw [getD_drop]
        unfold peerAt
        congr 1
        omega
      rw [hAt]
      exact hm2
    · rw [List.filter_append, hblkAip, List.append_assoc]
      have harr : s + u + 1 = s + 1 + u := by omega
      have hrem2 : aipRemaining wg (s + 1 + u) (m2 + 1 - 1) =
          aipSuffixAux (s + 1 + u) ((wg.peers.drop (s + 1)).drop u) (m2 + 1 - 1) := by
        unfold aipRemaining
        have hdd : wg.peers.drop (s + 1 + u) = (wg.peers.drop (s + 1)).drop u := by
          rw [List.drop_drop]
          try congr 1
          try omega
        rw [hdd]
      rw [harr, hrem2, haip, hremS]
    · rw [List.filter_append, hblkFld, List.append_assoc]
      have harr : s + u + 1 = s + 1 + u := by omega
      have hrem2 : fieldRemaining wg (s + 1 + u) (m2 + 1) =
          fieldAux (s + 1 + u + 1) ((wg.peers.drop (s + 1)).drop (u + 1)) := by
        unfold fieldRemaining
        rw [if_neg (by omega)]
        have hdd : wg.peers.drop (s + 1 + u + 1) = (wg.peers.drop (s + 1)).drop (u + 1) := by
          rw [List.drop_drop]
          try congr 1
          try omega
        rw [hdd]
      rw [harr, hrem2, hfld, hfldS]
    · rw [List.filterMap_append, block_pubP, hpp, List.range'_succ]
      rfl

theorem hdr_none_filters (wg : Device) :
    ((Tok.genlHdr :: devScalarToks wg) ++ [Tok.peersStart]).filter isDevTok =
      devScalarToks wg ∧
    ((Tok.genlHdr :: devScalarToks wg) ++ [Tok.peersStart]).filter isAipEntryTok = [] ∧
    ((Tok.genlHdr :: devScalarToks wg) ++ [Tok.peersStart]).filter isFieldTok = [] ∧
    ((Tok.genlHdr :: devScalarToks wg) ++ [Tok.peersStart]).filterMap pubP = [] := by
  refine ⟨?_, ?_, ?_, ?_⟩ <;>
    simp [List.filter_append, List.filterMap_append, isDevTok, isAipEntryTok,
      isFieldTok, pubP, devScalar_filter_dev, devScalar_filter_aip,
      devScalar_filter_field, devScalar_pubP]

theorem hdr_none_no_pub (wg : Device) (q : Nat) (k : List Nat)
    (h : Tok.peerPublicKey q k ∈ (Tok.genlHdr :: devScalarToks wg) ++ [Tok.peersStart]) :
    False := by
  rcases List.mem_append.mp h with h | h
  · rcases List.mem_cons.mp h with h | h
    · cases h
    · exact devScalar_no_pub wg q k h
  · simp at h

theorem hdr_some_filters :
    ([Tok.genlHdr] ++ [Tok.peersStart]).filter isDevTok = ([] : List Tok) ∧
    ([Tok.genlHdr] ++ [Tok.peersStart]).filter isAipEntryTok = [] ∧
    ([Tok.genlHdr] ++ [Tok.peersStart]).filter isFieldTok = [] ∧
    ([Tok.genlHdr] ++ [Tok.peersStart]).filterMap pubP = [] := by
  refine ⟨rfl, rfl, rfl, rfl⟩

/-- One `get` call under the budget bound, from any storable cursor: the
device is never written, the return code never aborts the dump, device
scalars appear exactly in first chunks, all emitted public keys are honest,
and the chunk accounts exactly for the difference between the tokens owed
at the incoming cursor and those owed at the stored outgoing cursor (all
owed tokens when the chunk is final). -/
theorem get_chunk_spec (B : Nat) (wg : Device) (cur : DumpCursor)
    (hB : BudgetOK B wg) (hv : ValidCursor wg cur) :
    (get_chunk B wg cur).dev = wg ∧
    0 ≤ (get_chunk B wg cur).ret ∧
    (get_chunk B wg cur).skb.toks.filter isDevTok =
      (if cur.next_peer = none then devScalarToks wg else []) ∧
    (∀ q k, Tok.peerPublicKey q k ∈ (get_chunk B wg cur).skb.toks →
      q < wg.peers.length ∧ k = (peerAt wg q).public_key) ∧
    (((get_chunk B wg cur).done = true ∧
       (get_chunk B wg cur).cursor = ⟨none, 0⟩ ∧
       (get_chunk B wg cur).skb.toks.filter isAipEntryTok =
         aipRemaining wg (startIdx cur) (cur.aip_cursor - 1) ∧
       (get_chunk B wg cur).skb.toks.filter isFieldTok =
         fieldRemaining wg (startIdx cur) cur.aip_cursor ∧
       (get_chunk B wg cur).skb.toks.filterMap pubP =
         List.range' (startIdx cur) (wg.peers.length - startIdx cur))
     ∨ ((get_chunk B wg cur).done = false ∧
       ∃ t2 j2, (get_chunk B wg cur).cursor = ⟨some t2, j2⟩ ∧
         startIdx cur ≤ t2 ∧ ValidCursor wg ⟨some t2, j2⟩ ∧
         (get_chunk B wg cur).skb.toks.filter isAipEntryTok ++
           aipRemaining wg (t2 + 1) (j2 - 1) =
           aipRemaining wg (startIdx cur) (cur.aip_cursor - 1) ∧
         (get_chunk B wg cur).skb.toks.filter isFieldTok ++
           fieldRemaining wg (t2 + 1) j2 =
           fieldRemaining wg (startIdx cur) cur.aip_cursor ∧
         ∃ cnt, (get_chunk B wg cur).skb.toks.filterMap pubP =
           List.range' (startIdx cur) cnt ∧
           t2 + 1 ≤ startIdx cur + cnt ∧ startIdx cur + cnt ≤ t2 + 2 ∧
           startIdx cur + cnt ≤ wg.peers.length)) := by
  obtain ⟨hB1, hB2⟩ := hB
  have h24 := devHeadSize_ge wg
  obtain ⟨np, j⟩ := cur
  have e0 : nla_put B ⟨[]⟩ Tok.genlHdr = some ⟨[Tok.genlHdr]⟩ :=
    nla_put_fits B ⟨[]⟩ _ (by
      have h0 : Skb.len ⟨([] : List Tok)⟩ = 0 := rfl
      simp only [tokSize]
      omega)
  cases np with
  | none =>
    have hj0 : j = 0 := hv
    subst hj0
    simp only [get_chunk]
    rw [e0]
    try dsimp only
    rw [dev_chain_eq B wg hB1]
    try dsimp only
    have hlhd : Skb.len ⟨Tok.genlHdr :: devScalarToks wg⟩ =
        20 + (List.map tokSize (devScalarToks wg)).sum := by
      simp [Skb.len, tokSize]
    have e2 : nla_nest_start B ⟨Tok.genlHdr :: devScalarToks wg⟩ Tok.peersStart =
        some (⟨(Tok.genlHdr :: devScalarToks wg) ++ [Tok.peersStart]⟩,
          (Tok.genlHdr :: devScalarToks wg).length) := by
      rw [nla_nest_start, nla_put_fits B _ _ (by
        rw [hlhd]
        have := devHeadSize_eq wg
        simp only [tokSize]
        omega)]
      rfl
    rw [e2]
    try dsimp only
    by_cases hemp : wg.peers.isEmpty
    · rw [if_pos hemp]
      have hnil : wg.peers = [] := by
        rcases hl : wg.peers with _ | ⟨a, tl⟩
        · rfl
        · rw [hl] at hemp
          simp at hemp
      have hcan : nla_nest_cancel ⟨(Tok.genlHdr :: devScalarToks wg) ++ [Tok.peersStart]⟩
          (Tok.genlHdr :: devScalarToks wg).length = ⟨Tok.genlHdr :: devScalarToks wg⟩ :=
        cancel_one ⟨Tok.genlHdr :: devScalarToks wg⟩ Tok.peersStart
      rw [hcan]
      refine ⟨rfl, by exact le_refl 0, ?_, ?_, Or.inl ⟨rfl, rfl, ?_, ?_, ?_⟩⟩
      · show (Tok.genlHdr :: devScalarToks wg).filter isDevTok = _
        rw [if_pos trivial]
        simp [isDevTok, devScalar_filter_dev]
      · intro q k hq
        exfalso
        rcases List.mem_cons.mp hq with h | h
        · cases h
        · exact devScalar_no_pub wg q k h
      · show (Tok.genlHdr :: devScalarToks wg).filter isAipEntryTok = _
        rw [show startIdx ⟨none, 0⟩ = 0 from rfl]
        unfold aipRemaining
        rw [hnil]
        simp [isAipEntryTok, devScalar_filter_aip, aipSuffixAux]
      · show (Tok.genlHdr :: devScalarToks wg).filter isFieldTok = _
        rw [show startIdx ⟨none, 0⟩ = 0 from rfl]
        unfold fieldRemaining
        rw [hnil]
        simp [isFieldTok, devScalar_filter_field, fieldAux]
      · show (Tok.genlHdr :: devScalarToks wg).filterMap pubP = _
        rw [show startIdx ⟨none, 0⟩ = 0 from rfl, hnil]
        simp [pubP, devScalar_pubP]
    · rw [if_neg hemp]
      have hs0 : 0 < wg.peers.length := by
        rcases hl : wg.peers with _ | ⟨a, tl⟩
        · rw [hl] at hemp
          simp at hemp
        · simp
      obtain ⟨body, done, next, cursor2, hloop, hbdev, hbpub, hbout⟩ :=
        chunk_loop_spec B wg 0 0 ⟨(Tok.genlHdr :: devScalarToks wg) ++ [Tok.peersStart]⟩
          hs0 (Or.inl rfl)
          (by
            have hleq : Skb.len ⟨(Tok.genlHdr :: devScalarToks wg) ++ [Tok.peersStart]⟩ =
                devHeadSize wg := rfl
            omega)
          hB2
      rw [hloop]
      try dsimp only
      obtain ⟨hf1, hf2, hf3, hf4⟩ := hdr_none_filters wg
      rcases hbout with ⟨hdone, haip, hfld, hpp⟩ |
        ⟨hdone, t2, j2, hnext, hcur2, hst, hvout, haip, hfld, hpp⟩
      · subst hdone
        rw [if_pos rfl]
        refine ⟨rfl, by exact le_refl 0, ?_, ?_, Or.inl ⟨rfl, rfl, ?_, ?_, ?_⟩⟩
        · rw [if_pos trivial]
          show (((Tok.genlHdr :: devScalarToks wg) ++ [Tok.peersStart]) ++ body).filter
            isDevTok = devScalarToks wg
          rw [List.filter_append, hf1, hbdev, List.append_nil]
        · intro q k hq
          show q < wg.peers.length ∧ k = (peerAt wg q).public_key
          rcases List.mem_append.mp hq with h | h
          · exact absurd h (fun h2 => hdr_none_no_pub wg q k h2)
          · exact hbpub q k h
        · show (((Tok.genlHdr :: devScalarToks wg) ++ [Tok.peersStart]) ++ body).filter
            isAipEntryTok = aipRemaining wg (startIdx ⟨none, 0⟩) (0 - 1)
          rw [List.filter_append, hf2, List.nil_append, haip]
          rfl
        · show (((Tok.genlHdr :: devScalarToks wg) ++ [Tok.peersStart]) ++ body).filter
            isFieldTok = fieldRemaining wg (startIdx ⟨none, 0⟩) 0
          rw [List.filter_append, hf3, List.nil_append, hfld]
          rfl
        · show (((Tok.genlHdr :: devScalarToks wg) ++ [Tok.peersStart]) ++ body).filterMap
            pubP = List.range' (startIdx ⟨none, 0⟩) (wg.peers.length - startIdx ⟨none, 0⟩)
          rw [List.filterMap_append, hf4, List.nil_append, hpp]
          rfl
      · subst hdone
        rw [if_neg (by simp)]
        subst hnext
        subst hcur2
        refine ⟨rfl, by exact Int.ofNat_nonneg _, ?_, ?_,
          Or.inr ⟨rfl, t2, cursor2, rfl, ?_, hvout, ?_, ?_, ?_⟩⟩
        · rw [if_pos trivial]
          show (((Tok.genlHdr :: devScalarToks wg) ++ [Tok.peersStart]) ++ body).filter
            isDevTok = devScalarToks wg
          rw [List.filter_append, hf1, hbdev, List.append_nil]
        · intro q k hq
          show q < wg.peers.length ∧ k = (peerAt wg q).public_key
          rcases List.mem_append.mp hq with h | h
          · exact absurd h (fun h2 => hdr_none_no_pub wg q k h2)
          · exact hbpub q k h
        · show startIdx ⟨none, 0⟩ ≤ t2
          show 0 ≤ t2
          omega
        · show (((Tok.genlHdr :: devScalarToks wg) ++ [Tok.peersStart]) ++ body).filter
            isAipEntryTok ++ aipRemaining wg (t2 + 1) (cursor2 - 1) =
            aipRemaining wg (startIdx ⟨none, 0⟩) (0 - 1)
          rw [List.filter_append, hf2, List.nil_append, haip]
          rfl
        · show (((Tok.genlHdr :: devScalarToks wg) ++ [Tok.peersStart]) ++ body).filter
            isFieldTok ++ fieldRemaining wg (t2 + 1) cursor2 =
            fieldRemaining wg (startIdx ⟨none, 0⟩) 0
          rw [List.filter_append, hf3, List.nil_append, hfld]
          rfl
        · obtain ⟨cnt, hcnt, hc1, hc2, hc3⟩ := hpp
          refine ⟨cnt, ?_, ?_, ?_, ?_⟩
          · show (((Tok.genlHdr :: devScalarToks wg) ++ [Tok.peersStart]) ++ body).filterMap
              pubP = List.range' (startIdx ⟨none, 0⟩) cnt
            rw [List.filterMap_append, hf4, List.nil_append, hcnt]
            rfl
          · show t2 + 1 ≤ 0 + cnt
            omega
          · show 0 + cnt ≤ t2 + 2
            omega
          · show 0 + cnt ≤ wg.peers.length
            omega
  | some t =>
    obtain ⟨htn, hjv⟩ := hv
    simp only [get_chunk]
    rw [e0]
    try dsimp only
    have e2 : nla_nest_start B ⟨[Tok.genlHdr]⟩ Tok.peersStart =
        some (⟨[Tok.genlHdr] ++ [Tok.peersStart]⟩, [Tok.genlHdr].length) := by
      rw [nla_nest_start, nla_put_fits B _ _ (by
        have h20 : Skb.len ⟨[Tok.genlHdr]⟩ = 20 := rfl
        simp only [tokSize]
        omega)]
      rfl
    rw [e2]
    try dsimp only
    have hemp : ¬ (wg.peers.isEmpty = true) := by
      rcases hl : wg.peers with _ | ⟨a, tl⟩
      · rw [hl] at htn
        simp at htn
      · simp
    rw [if_neg hemp]
    have hst1 : t + 1 < wg.peers.length := htn
    obtain ⟨body, done, next, cursor2, hloop, hbdev, hbpub, hbout⟩ :=
      chunk_loop_spec B wg (t + 1) j ⟨[Tok.genlHdr] ++ [Tok.peersStart]⟩
        hst1 hjv
        (by
          have hleq : Skb.len ⟨[Tok.genlHdr] ++ [Tok.peersStart]⟩ = 24 := rfl
          omega)
        hB2
    rw [hloop]
    try dsimp only
    obtain ⟨hf1, hf2, hf3, hf4⟩ := hdr_some_filters
    rcases hbout with ⟨hdone, haip, hfld, hpp⟩ |
      ⟨hdone, t2, j2, hnext, hcur2, hst, hvout, haip, hfld, hpp⟩
    · subst hdone
      rw [if_pos rfl]
      refine ⟨rfl, by exact le_refl 0, ?_, ?_, Or.inl ⟨rfl, rfl, ?_, ?_, ?_⟩⟩
      · rw [if_neg (by simp)]
        show (([Tok.genlHdr] ++ [Tok.peersStart]) ++ body).filter isDevTok = []
        rw [List.filter_append, hf1, hbdev, List.append_nil]
      · intro q k hq
        show q < wg.peers.length ∧ k = (peerAt wg q).public_key
        rcases List.mem_append.mp hq with h | h
        · simp at h
        · exact hbpub q k h
      · show (([Tok.genlHdr] ++ [Tok.peersStart]) ++ body).filter isAipEntryTok =
          aipRemaining wg (startIdx ⟨some t, j⟩) (j - 1)
        rw [List.filter_append, hf2, List.nil_append, haip]
        rfl
      · show (([Tok.genlHdr] ++ [Tok.peersStart]) ++ body).filter isFieldTok =
          fieldRemaining wg (startIdx ⟨some t, j⟩) j
        rw [List.filter_append, hf3, List.nil_append, hfld]
        rfl
      · show (([Tok.genlHdr] ++ [Tok.peersStart]) ++ body).filterMap pubP =
          List.range' (startIdx ⟨some t, j⟩) (wg.peers.length - startIdx ⟨some t, j⟩)
        rw [List.filterMap_append, hf4, List.nil_append, hpp]
        rfl
    · subst hdone
      rw [if_neg (by simp)]
      subst hnext
      subst hcur2
      refine ⟨rfl, by exact Int.ofNat_nonneg _, ?_, ?_,
        Or.inr ⟨rfl, t2, cursor2, rfl, ?_, hvout, ?_, ?_, ?_⟩⟩
      · rw [if_neg (by simp)]
        show (([Tok.genlHdr] ++ [Tok.peersStart]) ++ body).filter isDevTok = []
        rw [List.filter_append, hf1, hbdev, List.append_nil]
      · intro q k hq
        show q < wg.peers.length ∧ k = (peerAt wg q).public_key
        rcases List.mem_append.mp hq with h | h
        · simp at h
        · exact hbpub q k h
      · show startIdx ⟨some t, j⟩ ≤ t2
        show t + 1 ≤ t2
        omega
      · show (([Tok.genlHdr] ++ [Tok.peersStart]) ++ body).filter isAipEntryTok ++
          aipRemaining wg (t2 + 1) (cursor2 - 1) =
          aipRemaining wg (startIdx ⟨some t, j⟩) (j - 1)
        rw [List.filter_append, hf2, List.nil_append, haip]
        rfl
      · show (([Tok.genlHdr] ++ [Tok.peersStart]) ++ body).filter isFieldTok ++
          fieldRemaining wg (t2 + 1) cursor2 = fieldRemaining wg (startIdx ⟨some t, j⟩) j
        rw [List.filter_append, hf3, List.nil_append, hfld]
        rfl
      · obtain ⟨cnt, hcnt, hc1, hc2, hc3⟩ := hpp
        refine ⟨cnt, ?_, ?_, ?_, ?_⟩
        · show (([Tok.genlHdr] ++ [Tok.peersStart]) ++ body).filterMap pubP =
            List.range' (startIdx ⟨some t, j⟩) cnt
          rw [List.filterMap_append, hf4, List.nil_append, hcnt]
          rfl
        · show t2 + 1 ≤ t + 1 + cnt
          omega
        · show t + 1 + cnt ≤ t2 + 2
          omega
        · show t + 1 + cnt ≤ wg.peers.length
          omega

/-! ### The whole dump under the budget bound -/

theorem chunksToks_cons (a : Skb) (l : List Skb) :
    chunksToks (a :: l) = a.toks ++ chunksToks l := rfl

theorem s_le_len_of_valid (wg : Device) (cur : DumpCursor) (hv : ValidCursor wg cur) :
    startIdx cur ≤ wg.peers.length := by
  obtain ⟨np, j⟩ := cur
  cases np with
  | none => exact Nat.zero_le _
  | some t =>
    obtain ⟨h1, h2⟩ := hv
    show t + 1 ≤ wg.peers.length
    omega

/-- Iterating `get` from any storable cursor, under the budget bound:
enough fuel always finishes, every chunk's public keys are distinct, all
public keys are honest and arrive in peer-list order covering exactly the
positions from the resumption point on, and the dump emits exactly the
owed device scalars, allowed-IP entries and non-identity fields. -/
theorem dump_from_spec (B : Nat) (wg : Device) (hB : BudgetOK B wg) :
    ∀ (fuel : Nat) (cur : DumpCursor), ValidCursor wg cur →
    wg.peers.length - startIdx cur < fuel →
    ∃ cs, dump_steps B wg fuel cur = some cs ∧
      (∀ c ∈ cs, (c.toks.filterMap pubP).Nodup) ∧
      (∀ q k, Tok.peerPublicKey q k ∈ chunksToks cs →
        q < wg.peers.length ∧ k = (peerAt wg q).public_key) ∧
      (chunksToks cs).filter isDevTok =
        (if cur.next_peer = none then devScalarToks wg else []) ∧
      (chunksToks cs).filter isAipEntryTok =
        aipRemaining wg (startIdx cur) (cur.aip_cursor - 1) ∧
      (chunksToks cs).filter isFieldTok =
        fieldRemaining wg (startIdx cur) cur.aip_cursor ∧
      ((chunksToks cs).filterMap pubP).Sorted (· ≤ ·) ∧
      (∀ p, p ∈ (chunksToks cs).filterMap pubP ↔
        startIdx cur ≤ p ∧ p < wg.peers.length) := by
  intro fuel
  induction fuel with
  | zero =>
    intro cur hv hfuel
    omega
  | succ fuel ih =>
    intro cur hv hfuel
    have hsle := s_le_len_of_valid wg cur hv
    obtain ⟨hdev, hret, hdevf, hpubv, hout⟩ := get_chunk_spec B wg cur hB hv
    rw [dump_steps]
    rw [if_neg (by omega)]
    rcases hout with ⟨hdone, hcur, haipf, hfldf, hppf⟩ |
      ⟨hdone, t2, j2, hcur, hst, hvout, haipf, hfldf, cnt, hppf, hc1, hc2, hc3⟩
    · rw [if_pos hdone]
      refine ⟨[(get_chunk B wg cur).skb], rfl, ?_, ?_, ?_, ?_, ?_, ?_, ?_⟩
      · intro c hc
        rcases List.mem_singleton.mp hc with rfl
        rw [hppf]
        exact List.nodup_range' _ _
      · intro q k hq
        rw [chunksToks_cons] at hq
        rcases List.mem_append.mp hq with h | h
        · exact hpubv q k h
        · simp [chunksToks] at h
      · rw [chunksToks_cons]
        rw [List.filter_append, hdevf]
        simp [chunksToks]
      · rw [chunksToks_cons, List.filter_append, haipf]
        simp [chunksToks]
      · rw [chunksToks_cons, List.filter_append, hfldf]
        simp [chunksToks]
      · rw [chunksToks_cons, List.filterMap_append, hppf]
        have h2 : chunksToks ([] : List Skb) = [] := rfl
        rw [h2]
        simp only [List.filterMap_nil, List.append_nil]
        exact List.pairwise_le_range' _ _
      · intro p
        rw [chunksToks_cons, List.filterMap_append, hppf]
        have h2 : chunksToks ([] : List Skb) = [] := rfl
        rw [h2]
        simp only [List.filterMap_nil, List.append_nil]
        rw [List.mem_range'_1]
        constructor
        · intro ⟨ha, hb⟩
          exact ⟨ha, by omega⟩
        · intro ⟨ha, hb⟩
          exact ⟨ha, by omega⟩
    · rw [if_neg (by rw [hdone]; simp)]
      have hsi : startIdx (get_chunk B wg cur).cursor = t2 + 1 := by
        rw [hcur]
        rfl
      have hvalid2 : ValidCursor wg (get_chunk B wg cur).cursor := by
        rw [hcur]
        exact hvout
      have ht2n : t2 + 1 < wg.peers.length := hvout.1
      obtain ⟨cs2, hds2, hnodup2, hpubv2, hdevf2, haipf2, hfldf2, hsort2, hmem2⟩ :=
        ih (get_chunk B wg cur).cursor hvalid2 (by rw [hsi]; omega)
      rw [hds2]
      refine ⟨(get_chunk B wg cur).skb :: cs2, rfl, ?_, ?_, ?_, ?_, ?_, ?_, ?_⟩
      · intro c hc
        rcases List.mem_cons.mp hc with rfl | hc
        · rw [hppf]
          exact List.nodup_range' _ _
        · exact hnodup2 c hc
      · intro q k hq
        rw [chunksToks_cons] at hq
        rcases List.mem_append.mp hq with h | h
        · exact hpubv q k h
        · exact hpubv2 q k h
      · rw [chunksToks_cons, List.filter_append, hdevf2, hcur]
        try dsimp only
        rw [if_neg (show ¬ (some t2 = (none : Option Nat)) from by simp)]
        rw [List.append_nil]
        exact hdevf
      · rw [chunksToks_cons, List.filter_append, haipf2, hsi, hcur]
        exact haipf
      · rw [chunksToks_cons, List.filter_append, hfldf2, hsi, hcur]
        exact hfldf
      · rw [chunksToks_cons, List.filterMap_append, hppf]
        rw [List.Sorted, List.pairwise_append]
        refine ⟨List.pairwise_le_range' _ _, hsort2, ?_⟩
        intro a ha b hb
        have ha2 := List.mem_range'_1.mp ha
        have hb2 := (hmem2 b).mp hb
        rw [hsi] at hb2
        omega
      · intro p
        rw [chunksToks_cons, List.filterMap_append, List.mem_append, hppf,
          List.mem_range'_1]
        rw [hmem2 p, hsi]
        constructor
        · intro h
          rcases h with ⟨h1, h2⟩ | ⟨h1, h2⟩
          · exact ⟨h1, by omega⟩
          · constructor
            · omega
            · exact h2
        · intro ⟨h1, h2⟩
          by_cases hp : p < startIdx cur + cnt
          · exact Or.inl ⟨h1, hp⟩
          · exact Or.inr ⟨by omega, h2⟩


/-- C2 (amended): provided no mutation occurs between chunks and the
message-size budget admits the device header plus any single complete peer
block (`BudgetOK`), iterating `get` until done succeeds and yields, across
all chunks, the device's scalar attributes exactly once, every allowed-IP
entry exactly once in peer-list order and per-peer enumeration order, and
every peer's non-identity fields exactly once, in that peer's first chunk.
Public keys are honest and arrive in peer-list order covering every peer,
at most once per chunk; the identity is, however, re-emitted in every
chunk that carries part of the peer, so the original claim's "identity
exactly once across all chunks" holds per chunk, not globally. -/
theorem C2_dump_complete_amended (B fuel : Nat) (wg : Device)
    (hB : BudgetOK B wg) (hfuel : wg.peers.length < fuel) :
    ∃ cs, dump B fuel wg = some cs ∧
      (chunksToks cs).filter isDevTok = devScalarToks wg ∧
      (chunksToks cs).filter isAipEntryTok = aipSuffixAux 0 wg.peers 0 ∧
      (chunksToks cs).filter isFieldTok = fieldAux 0 wg.peers ∧
      (∀ q k, Tok.peerPublicKey q k ∈ chunksToks cs →
        q < wg.peers.length ∧ k = (peerAt wg q).public_key) ∧
      ((chunksToks cs).filterMap pubP).Sorted (· ≤ ·) ∧
      (∀ p, p ∈ (chunksToks cs).filterMap pubP ↔ p < wg.peers.length) ∧
      (∀ c ∈ cs, (c.toks.filterMap pubP).Nodup) := by
  obtain ⟨cs, hds, hnodup, hpubv, hdev, haip, hfld, hsort, hmem⟩ :=
    dump_from_spec B wg hB fuel ⟨none, 0⟩ rfl
      (by show wg.peers.length - 0 < fuel; omega)
  refine ⟨cs, hds, ?_, ?_, ?_, hpubv, hsort, ?_, hnodup⟩
  · exact hdev
  · exact haip
  · exact hfld
  · intro p
    rw [hmem p]
    constructor
    · rintro ⟨h1, h2⟩
      exact h2
    · intro h
      exact ⟨Nat.zero_le p, h⟩

/-- Witness for C2 (amended) on a concrete device: two peers, one
allowed-IP entry, a budget of 400 bytes. -/
theorem C2_dump_complete_witness :
    ∃ cs, dump 400 5 (dumpDev 1) = some cs ∧
      (chunksToks cs).filter isDevTok = devScalarToks (dumpDev 1) ∧
      (chunksToks cs).filter isAipEntryTok = aipSuffixAux 0 (dumpDev 1).peers 0 ∧
      (chunksToks cs).filter isFieldTok = fieldAux 0 (dumpDev 1).peers ∧
      (∀ q k, Tok.peerPublicKey q k ∈ chunksToks cs →
        q < (dumpDev 1).peers.length ∧ k = (peerAt (dumpDev 1) q).public_key) ∧
      ((chunksToks cs).filterMap pubP).Sorted (· ≤ ·) ∧
      (∀ p, p ∈ (chunksToks cs).filterMap pubP ↔ p < (dumpDev 1).peers.length) ∧
      (∀ c ∈ cs, (c.toks.filterMap pubP).Nodup) :=
  C2_dump_complete_amended 400 5 (dumpDev 1)
    (by unfold BudgetOK; decide) (by decide)

/-- C2 counterexample as literally stated: with maxMessageBytes 400 and a
second peer carrying four allowed-IP entries, the dump needs two chunks
and the second peer's public-key identity attribute is emitted twice
across them, not exactly once. -/
theorem C2_counterexample :
    (dump 400 10 (dumpDev 4)).isSome = true ∧
    ((dump 400 10 (dumpDev 4)).getD []).length = 2 ∧
    (chunksToks ((dump 400 10 (dumpDev 4)).getD [])).count
      (Tok.peerPublicKey 1 (dumpPeer1 4).public_key) = 2 :=
  ⟨by decide, by decide, by decide⟩

/-- C3: the saved allowed-IP cursor is discarded when a chunk truncates
mid-peer, because `get` resets `next_peer` to NULL at the top of every
chunk (netlink.c:159) and only restores it from a completed walk.  On a
device whose second peer has fourteen allowed-IP entries and a 400-byte
budget, chunk 1 (0-based) truncates after entry 12, so entry 13 is the
split boundary; the resumed chunk 2 restarts from the device header and
peer 0, re-emits the device scalars and already-sent entries 0-4 (entry 2
appears twice across the dump), and does not contain boundary entry 13 at
all - it arrives only in chunk 3, contradicting the claimed
skip-exactly-the-emitted-entries resumption. -/
theorem C3_cursor_regression :
    (dump 400 20 (dumpDev 14)).isSome = true ∧
    ((dump 400 20 (dumpDev 14)).getD []).length = 4 ∧
    ((((dump 400 20 (dumpDev 14)).getD []).map Skb.toks).getD 1 []).count
      (Tok.aipStart 13 1) = 0 ∧
    ((((dump 400 20 (dumpDev 14)).getD []).map Skb.toks).getD 2 []).count
      (Tok.aipStart 13 1) = 0 ∧
    ((((dump 400 20 (dumpDev 14)).getD []).map Skb.toks).getD 2 []).count
      (Tok.aipStart 2 1) = 1 ∧
    (chunksToks ((dump 400 20 (dumpDev 14)).getD [])).count
      (Tok.aipStart 2 1) = 2 ∧
    (chunksToks ((dump 400 20 (dumpDev 14)).getD [])).count
      (Tok.devListenPort (dumpDev 14).incoming_port) = 2 :=
  ⟨by decide, by decide, by decide, by decide, by decide, by decide, by decide⟩

end WgNetlink
